import Mathlib

/-! # JesFs bootloader: firmware image check, update decision and image builder

Shallow embedding of `JesFsBoot_main.c` (device side) and `JesFsHex2Bin.c`
(offline build tool).  Bytes are `Fin 256`; 32-bit words are natural numbers
below `2 ^ 32`; C `int` results are integers. -/

set_option maxRecDepth 100000

namespace JesFs

/-- An 8-bit memory cell (`uint8_t`). -/
abbrev Byte := Fin 256

/-- Conversion of a C `int` to `uint8_t` (value modulo 256). -/
def toByte (v : Int) : Byte := ⟨(v % 256).toNat, by omega⟩

/-! ## CRC32 (`fs_track_crc32`, identical in both source files) -/

/-- Macro `#define POLY32 0xEDB88320 // ISO 3309` -/
def POLY32 : Nat := 0xEDB88320

/-- Body of the inner `for (j = 0; j < 8; j++)` loop of `fs_track_crc32`:
`if (crc_run & 1) crc_run = (crc_run >> 1) ^ POLY32; else crc_run = crc_run >> 1;` -/
def crc_shift (crc_run : Nat) : Nat :=
  if crc_run &&& 1 ≠ 0 then (crc_run >>> 1) ^^^ POLY32 else crc_run >>> 1

/-- Body of the outer `while (wlen--)` loop: `crc_run ^= *pdata++;` followed by
the eight passes of the inner loop. -/
def crc_byte (crc_run : Nat) (b : Byte) : Nat :=
  crc_shift^[8] (crc_run ^^^ b.val)

/-- Function `uint32_t fs_track_crc32(uint8_t* pdata, uint32_t wlen, uint32_t crc_run)`;
the `wlen` bytes at `pdata` are the list argument. -/
def fs_track_crc32 : List Byte → Nat → Nat
  | [], crc_run => crc_run
  | b :: pdata, crc_run => fs_track_crc32 pdata (crc_byte crc_run b)

/-- Feeding a payload as consecutive chunks, the running value carried from
one call of `fs_track_crc32` to the next. -/
def crc_chunked : List (List Byte) → Nat → Nat
  | [], crc_run => crc_run
  | chunk :: chunks, crc_run => crc_chunked chunks (fs_track_crc32 chunk crc_run)

/-! ### Reference CRC-32 (IEEE 802.3 / zlib), after the sample code of RFC 1952 -/

/-- Entry `n` of the RFC 1952 table (`make_crc_table`): `c = n`, then eight
times `c = (c & 1) ? 0xedb88320 ^ (c >> 1) : c >> 1`. -/
def std_crc_table (n : Nat) : Nat :=
  (fun c => if c % 2 = 1 then 0xedb88320 ^^^ (c / 2) else c / 2)^[8] n

/-- RFC 1952 `update_crc`: `c = crc ^ 0xffffffff`, per byte
`c = crc_table[(c ^ buf[n]) & 0xff] ^ (c >> 8)`, result `c ^ 0xffffffff`. -/
def std_update_crc (crc : Nat) (buf : List Byte) : Nat :=
  (buf.foldl (fun c b => std_crc_table ((c ^^^ b.val) % 256) ^^^ (c / 256))
    (crc ^^^ 0xffffffff)) ^^^ 0xffffffff

/-- RFC 1952 `crc`: the standard CRC-32 of a buffer. -/
def std_crc32 (buf : List Byte) : Nat := std_update_crc 0 buf

end JesFs

namespace JesFs

/-! ## Device side (`JesFsBoot_main.c`) -/

/-- Constants of the nRF5 SDK used by `JesFsBoot_main.c` whose definitions are
not part of the repository. `CODE_PAGE_SIZE` is the erase-page size and also
`SBUF_SIZE = sizeof(sbuffer)`. -/
structure Platform where
  CODE_PAGE_SIZE : Nat
  BOOTLOADER_SETTINGS_ADDRESS : Nat
  deriving DecidableEq, Repr

/-- The values of the nRF52840 (4 KiB pages, settings page at `0xFF000`). -/
def nrf52840 : Platform := ⟨4096, 0xFF000⟩

/-- Macro `#define SBUF_SIZE CODE_PAGE_SIZE` -/
def SBUF_SIZE (P : Platform) : Nat := P.CODE_PAGE_SIZE

/-- Macro `#define HDR0_MAGIC 0xE79B9C4F` -/
def HDR0_MAGIC : Nat := 0xE79B9C4F

/-- Struct `HDR0_TYPE`: eight `uint32_t` fields. -/
structure HDR0_TYPE where
  hdrmagic : Nat
  hdrsize : Nat
  binsize : Nat
  binload : Nat
  crc32 : Nat
  timestamp : Nat
  binary_start : Nat
  resv0 : Nat
  deriving DecidableEq, Repr

/-- The little-endian `uint32_t` stored in bytes `4*k .. 4*k+3` of a byte
image (absent bytes read as 0). -/
def word_at (bs : List Byte) (k : Nat) : Nat :=
  (bs.getD (4 * k) 0).val + 256 * (bs.getD (4 * k + 1) 0).val
    + 65536 * (bs.getD (4 * k + 2) 0).val + 16777216 * (bs.getD (4 * k + 3) 0).val

/-- The struct `HDR0_TYPE` overlaid on a 32-byte image (the cast
`(uint8_t *)&hdr_buf` and the pointer `pbl_memory`). -/
def hdr_of_bytes (bs : List Byte) : HDR0_TYPE :=
  { hdrmagic := word_at bs 0, hdrsize := word_at bs 1, binsize := word_at bs 2,
    binload := word_at bs 3, crc32 := word_at bs 4, timestamp := word_at bs 5,
    binary_start := word_at bs 6, resv0 := word_at bs 7 }

/-- The four bytes of a `uint32_t` in memory order (little endian). -/
def bytes_of_word (w : Nat) : List Byte :=
  [Fin.ofNat w, Fin.ofNat (w / 256), Fin.ofNat (w / 65536), Fin.ofNat (w / 16777216)]

/-- The 32 bytes of a `HDR0_TYPE` in memory order. -/
def hdr_bytes (h : HDR0_TYPE) : List Byte :=
  bytes_of_word h.hdrmagic ++ bytes_of_word h.hdrsize ++ bytes_of_word h.binsize
    ++ bytes_of_word h.binload ++ bytes_of_word h.crc32 ++ bytes_of_word h.timestamp
    ++ bytes_of_word h.binary_start ++ bytes_of_word h.resv0

/-- Program memory of the CPU, byte addressed; addresses are taken modulo `2 ^ 32`. -/
abbrev Memory := Nat → Byte

/-- The `len` bytes read through a `uint8_t *` starting at `addr`. -/
def mem_read (m : Memory) (addr len : Nat) : List Byte :=
  (List.range len).map (fun i => m ((addr + i) % 2 ^ 32))

/-- Global `HDR0_TYPE *pbl_memory = (HDR0_TYPE *)BOOTLOADER_SETTINGS_ADDRESS;` dereferenced. -/
def pbl_memory (P : Platform) (m : Memory) : HDR0_TYPE :=
  hdr_of_bytes (mem_read m P.BOOTLOADER_SETTINGS_ADDRESS 32)

/-- Flash collaborator (`nrf_nvmc_page_erase`, `nrf_nvmc_write_words`); the
words handed to `write_words` are given as their bytes in memory order. -/
structure Flash where
  page_erase : Memory → Nat → Memory
  write_words : Memory → Nat → List Byte → Memory

/-- Modelled from the spec: flash collaborator `erasePage(address)` and
`writeWords(address, buffer, count)` of the nRF SDK, which is not part of the
repository: the erase sets every byte of the page containing `address` to
`0xFF`, the write stores the given words from `address` upwards. -/
def nvmc (P : Platform) : Flash where
  page_erase := fun m address x =>
    if x / P.CODE_PAGE_SIZE = address / P.CODE_PAGE_SIZE then 0xFF else m x
  write_words := fun m address src x =>
    if address % 2 ^ 32 ≤ x ∧ x < address % 2 ^ 32 + src.length ∧ x < 2 ^ 32 then
      src.getD (x - address % 2 ^ 32) 0
    else if x + 2 ^ 32 < address % 2 ^ 32 + src.length ∧ x < 2 ^ 32 then
      src.getD (x + 2 ^ 32 - address % 2 ^ 32) 0
    else m x

/-- A flash whose cell `cell` reads back `val` after every write, otherwise
like `nvmc` (one defective byte). -/
def nvmc_stuck (P : Platform) (cell : Nat) (val : Byte) : Flash where
  page_erase := (nvmc P).page_erase
  write_words := fun m address src x =>
    if x = cell then val else (nvmc P).write_words m address src x

/-- Modelled from the spec: storage collaborator descriptor (`FS_DESC` of
JesFs, not part of the repository): the content of the opened file, the read
position and the running CRC (`file_crc32`). -/
structure FS_DESC where
  content : List Byte
  pos : Nat
  file_crc32 : Nat

/-- Modelled from the spec: `open(name, flags{read, trackCrc}) -> descriptor |
NotFound`; `disk` is the content of `_firmware.bin` when the file exists. The
result code is 0 when the file was found. -/
def fs_open (disk : Option (List Byte)) : Int × FS_DESC :=
  match disk with
  | some content => (0, ⟨content, 0, 0xFFFFFFFF⟩)
  | none => (-1, ⟨[], 0, 0xFFFFFFFF⟩)

/-- Modelled from the spec: `read(descriptor, buffer|null, len) -> bytesRead`:
returns the bytes from the current position (fewer than `len` at the end of
the file), advances the position, and with a buffer updates the running CRC;
with a null buffer (`into_buffer = false`) it only advances the position. -/
def fs_read (d : FS_DESC) (into_buffer : Bool) (len : Nat) : List Byte × FS_DESC :=
  let data := (d.content.drop d.pos).take len
  (data, { d with pos := d.pos + data.length,
                  file_crc32 := if into_buffer then fs_track_crc32 data d.file_crc32
                                else d.file_crc32 })

/-- Modelled from the spec: `rewind(descriptor)`. -/
def fs_rewind (d : FS_DESC) : FS_DESC := { d with pos := 0 }

/-- Calls to the collaborators, in program order. -/
inductive Event where
  | fs_open (res : Int)
  | fs_read (into_buffer : Bool) (len : Nat) (lres : Nat)
  | fs_rewind
  | page_erase (address : Nat)
  | write_words (address : Nat) (src : List Byte)
  | led_invert
  | delay_ms (ms : Nat)
  | system_reset
  | app_start
  deriving DecidableEq, Repr

/-- Erase and write operations on program memory. -/
def Event.is_flash : Event → Bool
  | .page_erase _ => true
  | .write_words _ _ => true
  | _ => false

/-- What the device holds when `check_system` starts: program memory, the
candidate file on the external storage (if any) and the global `sbuffer`. -/
structure Device where
  mem : Memory
  disk : Option (List Byte)
  sbuffer : List Byte

/-- How a `while (total_len)` loop of `check_system` was left. -/
inductive LoopExit where
  | done
  | short_read
  | no_exit
  deriving DecidableEq, Repr

/-- Content of a buffer after `fs_read` stored `data` at its start. -/
def buf_store (buf data : List Byte) : List Byte := data ++ buf.drop data.length

/-- The step-1 check and its repetition in step 3b: the record at
`BOOTLOADER_SETTINGS_ADDRESS` has magic and size of a type-0 header and the
CRC over `[binload, binload + binsize)` equals the stored `crc32`. -/
def cpu_firmware_check (P : Platform) (m : Memory) : Bool :=
  if (pbl_memory P m).hdrmagic = HDR0_MAGIC ∧ (pbl_memory P m).hdrsize = 32 then
    let ures := fs_track_crc32 (mem_read m (pbl_memory P m).binload (pbl_memory P m).binsize)
      0xFFFFFFFF
    if ures = (pbl_memory P m).crc32 then true else false
  else false

/-- Statement `block_len = total_len; if (block_len > sizeof(sbuffer)) block_len =
sizeof(sbuffer);` (the comparison is unsigned). -/
def block_len (P : Platform) (total_len : Nat) : Nat :=
  if total_len > SBUF_SIZE P then SBUF_SIZE P else total_len

/-- The integrity loop (`while (total_len)` of lines 208-219). `total_len` is
the 32-bit pattern of the `int32_t` counter; the comparison with
`sizeof(sbuffer)` is unsigned. The first argument bounds the number of
passes; `no_exit` is returned when it is used up, which happens only for a
loop that never ends. -/
def integrity_loop (P : Platform) :
    Nat → Nat → FS_DESC → List Byte → LoopExit × FS_DESC × List Byte × List Event
  | fuel, total_len, fs_desc, sbuffer =>
    if total_len = 0 then (.done, fs_desc, sbuffer, [])
    else match fuel with
      | 0 => (.no_exit, fs_desc, sbuffer, [])
      | fuel + 1 =>
        let rd := fs_read fs_desc true (block_len P total_len)
        let ev := Event.fs_read true (block_len P total_len) rd.1.length
        if rd.1.length ≠ block_len P total_len then
          (.short_read, rd.2, buf_store sbuffer rd.1, [ev])
        else
          let r := integrity_loop P fuel (total_len - block_len P total_len) rd.2
            (buf_store sbuffer rd.1)
          (r.1, r.2.1, r.2.2.1, ev :: r.2.2.2)

/-- The flashing loop (`while (total_len)` of lines 231-246): read a chunk,
erase the page of `fadr`, write `(block_len + 3) / 4` words from `sbuffer`,
advance. The first argument bounds the number of passes as in
`integrity_loop`. -/
def flash_loop (P : Platform) (F : Flash) :
    Nat → Nat → Nat → FS_DESC → List Byte → Memory → LoopExit × Memory × List Event
  | fuel, total_len, fadr, fs_desc, sbuffer, mem =>
    if total_len = 0 then (.done, mem, [])
    else match fuel with
      | 0 => (.no_exit, mem, [])
      | fuel + 1 =>
        let rd := fs_read fs_desc true (block_len P total_len)
        let ev := Event.fs_read true (block_len P total_len) rd.1.length
        if rd.1.length ≠ block_len P total_len then
          (.short_read, mem, [ev])
        else
          let sbuffer := buf_store sbuffer rd.1
          let src := sbuffer.take (4 * ((block_len P total_len + 3) / 4))
          let mem := F.write_words (F.page_erase mem fadr) fadr src
          let r := flash_loop P F fuel (total_len - block_len P total_len)
            ((fadr + block_len P total_len) % 2 ^ 32) rd.2 sbuffer mem
          (r.1, r.2.1, ev :: Event.page_erase fadr :: Event.write_words fadr src :: r.2.2)

/-- Result of running `check_system`: the returned `int16_t` (`none` when
the function never returns), program memory afterwards and the calls made. -/
structure Run where
  res : Option Int
  mem : Memory
  trace : List Event

/-- Function `int16_t check_system(void)`. The calls of `tb_printf` and
`tb_putc` are left out. `hdr_buf` is the struct overlaid on the bytes the
header read returned; both loops get `binsize` as bound on their passes. -/
def check_system (P : Platform) (F : Flash) (w : Device) : Run :=
  let cpu_firmware_valid := cpu_firmware_check P w.mem
  let op := fs_open w.disk
  if op.1 = 0 then
    let rd := fs_read op.2 true 32
    let hdr_buf := hdr_of_bytes rd.1
    let t0 := [Event.fs_open op.1, Event.fs_read true 32 rd.1.length]
    if rd.1.length ≠ 32 ∨ hdr_buf.hdrmagic ≠ HDR0_MAGIC then
      ⟨some (if cpu_firmware_valid then -101 else -1), w.mem, t0⟩
    else if hdr_buf.timestamp = (pbl_memory P w.mem).timestamp
        ∧ hdr_buf.crc32 = (pbl_memory P w.mem).crc32 ∧ cpu_firmware_valid = true then
      ⟨some 0, w.mem, t0⟩
    else
      let fs_desc : FS_DESC := { rd.2 with file_crc32 := 0xFFFFFFFF }
      let chk := integrity_loop P hdr_buf.binsize hdr_buf.binsize fs_desc w.sbuffer
      match chk.1 with
      | .no_exit => ⟨none, w.mem, t0 ++ chk.2.2.2⟩
      | .short_read => ⟨some (if cpu_firmware_valid then -102 else -2), w.mem, t0 ++ chk.2.2.2⟩
      | .done =>
        if chk.2.1.file_crc32 ≠ hdr_buf.crc32 then
          ⟨some (if cpu_firmware_valid then -103 else -3), w.mem, t0 ++ chk.2.2.2⟩
        else
          let skip := fs_read (fs_rewind chk.2.1) false 32
          let t1 := t0 ++ chk.2.2.2 ++ [Event.fs_rewind, Event.fs_read false 32 skip.1.length]
          let fl := flash_loop P F hdr_buf.binsize hdr_buf.binsize hdr_buf.binload skip.2
            chk.2.2.1 w.mem
          match fl.1 with
          | .no_exit => ⟨none, fl.2.1, t1 ++ fl.2.2⟩
          | .short_read => ⟨some (-4), fl.2.1, t1 ++ fl.2.2⟩
          | .done =>
            let mem := F.write_words (F.page_erase fl.2.1 P.BOOTLOADER_SETTINGS_ADDRESS)
              P.BOOTLOADER_SETTINGS_ADDRESS rd.1
            let t2 := t1 ++ fl.2.2 ++ [Event.page_erase P.BOOTLOADER_SETTINGS_ADDRESS,
              Event.write_words P.BOOTLOADER_SETTINGS_ADDRESS rd.1]
            if cpu_firmware_check P mem then ⟨some 1, mem, t2⟩ else ⟨some (-5), mem, t2⟩
  else
    ⟨some (if ¬ cpu_firmware_valid then -206 else 0), w.mem, [Event.fs_open op.1]⟩

/-- Loop `while (i--)` of `main` with `i = 5`: three LED toggles and delays per pass. -/
def blink_loop : Nat → List Event
  | 0 => []
  | i + 1 => [Event.led_invert, Event.delay_ms 100, Event.led_invert, Event.delay_ms 100,
      Event.led_invert, Event.delay_ms 800] ++ blink_loop i

/-- Loop `while (i--)` of `main` with `i = 60`: LED toggle and one second delay per pass. -/
def wait_loop : Nat → List Event
  | 0 => []
  | i + 1 => [Event.led_invert, Event.delay_ms 1000] ++ wait_loop i

/-- Lines 305-329 of `main` (release build, `CMDL_DEBUG` undefined): the
value of `res` afterwards and the calls made. -/
def main_classify (res : Int) : Int × List Event :=
  if res < 0 then
    if res ≤ -200 then (res, [])
    else if res ≤ -100 then (2, blink_loop 5)
    else (res, [])
  else (res, [])

/-- Lines 332-348 of `main` (release build): wait and reset, or start the
application (`nrf_bootloader_app_start`); the calls of `tb_printf`,
`fs_deepsleep` and `tb_uninit` are left out. -/
def main_finish (res : Int) : List Event :=
  if res < 0 then wait_loop 60 ++ [Event.system_reset]
  else [Event.delay_ms 5, Event.app_start]

/-- Function `main` from the call of `check_system` on (release build); `none` when
`check_system` never returns. -/
def boot_main (P : Platform) (F : Flash) (w : Device) : Option (List Event) :=
  match (check_system P F w).res with
  | none => none
  | some res =>
    let c := main_classify res
    some ((check_system P F w).trace ++ c.2 ++ main_finish c.1)

end JesFs

namespace JesFs

/-! ## Offline build tool (`JesFsHex2Bin.c`) -/

/-- Macro `#define MAX_BUF 2048*1024 // 2MB fix` -/
def MAX_BUF : Int := 2048 * 1024

/-- Macro `#define MAXLINE 120` -/
def MAXLINE : Nat := 120

/-- Macro `#define MAX_WARN 10` -/
def MAX_WARN : Int := 10

/-- Value of a C `int` after a conversion or an arithmetic result that left
the range of 32 bits (two's complement). -/
def wrap32 (x : Int) : Int := (x + 2 ^ 31) % 2 ^ 32 - 2 ^ 31

/-- The global variables of `JesFsHex2Bin.c`. `binbuf` and `usedbuf` are
indexed by the addresses `0 .. MAX_BUF-1`; `in_line` holds `MAXLINE + 1`
characters; `pbyte` is the index in `in_line` the pointer `pbyte` points to.
The counters `bin_bytes_cnt`, `warnings_cnt` and the line counters are taken
as unbounded integers (their overflow is undefined in C). -/
structure Hex2Bin where
  binbuf : Nat → Byte
  usedbuf : Nat → Nat
  min_bin_addr : Int
  max_bin_addr : Int
  bin_bytes_cnt : Int
  in_line : List Char
  in_line_cnt : Int
  total_line_cnt : Int
  warnings_cnt : Int
  lowest_output_addr : Int
  pbyte : Nat
  fcs : Nat

/-- The globals when `main` has run `memset(binbuf, BINDEF_VAL, MAX_BUF)`. -/
def Hex2Bin.init : Hex2Bin where
  binbuf := fun _ => 0xFF
  usedbuf := fun _ => 0
  min_bin_addr := MAX_BUF - 1
  max_bin_addr := 0
  bin_bytes_cnt := 0
  in_line := List.replicate (MAXLINE + 1) (Char.ofNat 0)
  in_line_cnt := 0
  total_line_cnt := 0
  warnings_cnt := 0
  lowest_output_addr := -1
  pbyte := 0
  fcs := 0

/-- The digit test of `getbyte`: value of a hex digit, `none` for any other
character. -/
def hex_digit (n : Char) : Option Nat :=
  if '0' ≤ n ∧ n ≤ '9' then some (n.toNat - '0'.toNat)
  else if 'a' ≤ n ∧ n ≤ 'f' then some (n.toNat - 'a'.toNat + 10)
  else if 'A' ≤ n ∧ n ≤ 'F' then some (n.toNat - 'A'.toNat + 10)
  else none

/-- Function `int getbyte(void)`: two hex digits at `pbyte`; `-1` at the first
character that is no hex digit (the pointer stays behind that character,
`fcs` is left alone). The outer `none` stands for a read outside `in_line`,
whose result C leaves undefined. -/
def getbyte (s : Hex2Bin) : Option (Int × Hex2Bin) :=
  match s.in_line.get? s.pbyte with
  | none => none
  | some c0 =>
    match hex_digit c0 with
    | none => some (-1, { s with pbyte := s.pbyte + 1 })
    | some n0 =>
      match s.in_line.get? (s.pbyte + 1) with
      | none => none
      | some c1 =>
        match hex_digit c1 with
        | none => some (-1, { s with pbyte := s.pbyte + 2 })
        | some n1 =>
          let val := n0 * 16 + n1
          some ((val : Int), { s with pbyte := s.pbyte + 2, fcs := (s.fcs + val) % 256 })

/-- Function `int getuint16(void)`. -/
def getuint16 (s : Hex2Bin) : Option (Int × Hex2Bin) :=
  match getbyte s with
  | none => none
  | some (ret16h, s1) =>
    if ret16h < 0 then some (-1, s1)
    else
      match getbyte s1 with
      | none => none
      | some (ret16l, s2) =>
        if ret16l < 0 then some (-1, s2)
        else some (ret16h * 256 + ret16l, s2)

/-- Function `int write_byte(int addr, int val)`. -/
def write_byte (s : Hex2Bin) (addr val : Int) : Int × Hex2Bin :=
  if addr < 0 ∨ addr ≥ MAX_BUF then (-1, s)
  else
    let ubc := s.usedbuf addr.toNat
    let warnings_cnt := if ubc ≠ 0 then s.warnings_cnt + 1 else s.warnings_cnt
    let usedbuf := if ubc < 255 then Function.update s.usedbuf addr.toNat (ubc + 1)
      else s.usedbuf
    (0, { s with
      warnings_cnt := warnings_cnt
      usedbuf := usedbuf
      binbuf := Function.update s.binbuf addr.toNat (toByte val)
      max_bin_addr := if addr > s.max_bin_addr then addr else s.max_bin_addr
      min_bin_addr := if addr < s.min_bin_addr then addr else s.min_bin_addr
      bin_bytes_cnt := s.bin_bytes_cnt + 1 })

/-- Call `fgets(in_line, MAXLINE, inf)` on the stream: at most `MAXLINE - 1`
characters up to and including the first newline. The first component is
what is stored, the second what is left of the stream. -/
def fgets_take : Nat → List Char → List Char × List Char
  | 0, stream => ([], stream)
  | _, [] => ([], [])
  | n + 1, c :: stream =>
    if c = '\n' then ([c], stream)
    else ((fgets_take n stream).1.cons c, (fgets_take n stream).2)

/-- The successive results of `fgets(in_line, MAXLINE, inf)` until the end of
the stream. -/
def fgets_lines : Nat → List Char → List (List Char)
  | 0, _ => []
  | _, [] => []
  | fuel + 1, c :: stream =>
    (fgets_take (MAXLINE - 1) (c :: stream)).1
      :: fgets_lines fuel (fgets_take (MAXLINE - 1) (c :: stream)).2

/-- The data-record loop `while (rlen--) { bval = getbyte(); if
(write_byte(badr+boffset, bval)) return -5; badr++; }`. The result is `some
(true, s)` when the loop ran to its end, `some (false, s)` when `write_byte`
failed, `none` for a read outside `in_line`. -/
def data_loop : Nat → Int → Int → Hex2Bin → Option (Bool × Hex2Bin)
  | 0, _, _, s => some (true, s)
  | rlen + 1, badr, boffset, s =>
    match getbyte s with
    | none => none
    | some (bval, s1) =>
      if (write_byte s1 (wrap32 (badr + boffset)) bval).1 ≠ 0 then
        some (false, (write_byte s1 (wrap32 (badr + boffset)) bval).2)
      else data_loop rlen (badr + 1) boffset (write_byte s1 (wrap32 (badr + boffset)) bval).2

/-- The `switch (rtyp)` of `read_infile` for the record whose count, address
and type have been read: `Sum.inl code` for a `return code`, `Sum.inr
boffset` when the `for (;;)` loop goes on. -/
def record_switch (rtyp rlen badr boffset : Int) (s3 : Hex2Bin) :
    Option ((Int ⊕ Int) × Hex2Bin) :=
  if rtyp = 0 then
    match data_loop rlen.toNat badr boffset s3 with
    | none => none
    | some (false, s4) => some (.inl (-5), s4)
    | some (true, s4) =>
      match getbyte s4 with
      | none => none
      | some (_, s5) =>
        if s5.fcs ≠ 0 then some (.inl (-6), s5) else some (.inr boffset, s5)
  else if rtyp = 1 then
    match getbyte s3 with
    | none => none
    | some (v, s4) => if v ≠ 255 then some (.inl (-4), s4) else some (.inl 0, s4)
  else if rtyp = 2 then
    match getuint16 s3 with
    | none => none
    | some (v, s4) =>
      if v < 0 then some (.inl (-9), s4) else some (.inr (wrap32 (v * 16)), s4)
  else if rtyp = 3 then
    match getuint16 s3 with
    | none => none
    | some (init_seg, s4) =>
      match getuint16 s4 with
      | none => none
      | some (init_lu16, s5) =>
        if init_seg < 0 ∨ init_lu16 < 0 then some (.inl (-10), s5)
        else some (.inr boffset, s5)
  else if rtyp = 4 then
    match getuint16 s3 with
    | none => none
    | some (v, s4) =>
      if v < 0 then some (.inl (-9), s4) else some (.inr (wrap32 (v * 65536)), s4)
  else if rtyp = 5 then
    match getuint16 s3 with
    | none => none
    | some (init_hu16, s4) =>
      match getuint16 s4 with
      | none => none
      | some (init_lu16, s5) =>
        if init_hu16 < 0 ∨ init_lu16 < 0 then some (.inl (-11), s5)
        else some (.inr boffset, s5)
  else some (.inl (-5), s3)

/-- What one pass of the `for (;;)` loop of `read_infile` does with the line
that `fgets` stored: `Sum.inl code` for a `return code`, `Sum.inr boffset`
when the loop goes on. -/
def read_line (s : Hex2Bin) (boffset : Int) : Option ((Int ⊕ Int) × Hex2Bin) :=
  if s.in_line.get? 0 ≠ some ':' then some (.inl (-3), s)
  else
    match getbyte { s with pbyte := 1, fcs := 0 } with
    | none => none
    | some (rlen, s1) =>
      if rlen < 0 then some (.inl (-7), s1)
      else
        match getuint16 s1 with
        | none => none
        | some (badr, s2) =>
          if badr < 0 then some (.inl (-8), s2)
          else
            match getbyte s2 with
            | none => none
            | some (rtyp, s3) => record_switch rtyp rlen badr boffset s3

/-- The globals after `fgets(in_line, MAXLINE, inf)` stored `line` and the
terminating NUL; the characters behind stay what they were. -/
def fgets_store (s : Hex2Bin) (line : List Char) : Hex2Bin :=
  { s with in_line := line ++ Char.ofNat 0 :: s.in_line.drop (line.length + 1) }

/-- Statements `in_line_cnt++; total_line_cnt++;` at the end of a pass. -/
def count_line (s : Hex2Bin) : Hex2Bin :=
  { s with in_line_cnt := s.in_line_cnt + 1, total_line_cnt := s.total_line_cnt + 1 }

/-- The `for (;;)` loop of `read_infile` over the successive results of
`fgets`; the empty list is the end of the file. -/
def read_lines : List (List Char) → Int → Hex2Bin → Option (Int × Hex2Bin)
  | [], _, s => some (-2, s)
  | line :: rest, boffset, s =>
    match read_line (fgets_store s line) boffset with
    | none => none
    | some (.inl code, s1) => some (code, s1)
    | some (.inr boffset1, s1) => read_lines rest boffset1 (count_line s1)

/-- Function `int read_infile(char* infilename)`; the argument is the text of the file,
`none` when it cannot be opened. -/
def read_infile (infile : Option (List Char)) (s : Hex2Bin) : Option (Int × Hex2Bin) :=
  match infile with
  | none => some (-1, s)
  | some text => read_lines (fgets_lines text.length text) 0 { s with in_line_cnt := 0 }

/-- The `len` bytes of `binbuf` from index `addr` on (`&binbuf[addr]`). -/
def binbuf_slice (s : Hex2Bin) (addr len : Nat) : List Byte :=
  (List.range len).map (fun i => s.binbuf (addr + i))

/-- Function `int write_header(FILE* outf, int hdrtype, int min_bin_addr, int anz,
uint32_t par1)`; `now` is the value of `time(NULL)`, `fwrite_ok` tells
whether `fwrite` stores all bytes. Result: return value and the bytes
appended to the file. -/
def write_header (s : Hex2Bin) (hdrtype min_bin_addr anz : Int) (par1 now : Nat)
    (fwrite_ok : Bool) : Int × List Byte :=
  let crc32 := fs_track_crc32 (binbuf_slice s min_bin_addr.toNat anz.toNat) 0xFFFFFFFF
  if hdrtype = 0 then
    let hdr0 : HDR0_TYPE :=
      { hdrmagic := HDR0_MAGIC, hdrsize := 32, binsize := (anz % 2 ^ 32).toNat,
        binload := (min_bin_addr % 2 ^ 32).toNat, crc32 := crc32,
        timestamp := now % 2 ^ 32, binary_start := par1 % 2 ^ 32, resv0 := 0xFFFFFFFF }
    if ¬ fwrite_ok then (-20, []) else (0, hdr_bytes hdr0)
  else (-19, [])

/-- One command-line argument of the tool after its text has been scanned:
`-cLOW_ADDR` (value as stored in the `int`), `-hHDRTYPE` without or with
`,PAR1`, an `-h` option with a wrong separator, `-oOUTFILE` (whether the name
is empty), any other option, or an input file with its text. -/
inductive Arg where
  | opt_c (lowest_output_addr : Int)
  | opt_h (hdrtype : Int) (par1 : Option Nat)
  | opt_h_malformed (hdrtype : Int)
  | opt_o (empty_name : Bool)
  | opt_unknown
  | infile (text : Option (List Char))

/-- The local variables of `main` that outlive the argument loop. -/
structure MainVars where
  res : Int
  hdrtype : Int
  par1 : Nat
  outfilename : Bool

/-- The `for (i = 1; i < argc; i++)` loop of `main`: `Sum.inl code` for a
`return code` inside the loop, else the locals and globals after it. -/
def arg_loop : List Arg → MainVars → Hex2Bin → Option ((Int ⊕ MainVars) × Hex2Bin)
  | [], v, s => some (.inr v, s)
  | .opt_c a :: rest, v, s => arg_loop rest v { s with lowest_output_addr := a }
  | .opt_h t none :: rest, v, s => arg_loop rest { v with hdrtype := t } s
  | .opt_h t (some p) :: rest, v, s => arg_loop rest { v with hdrtype := t, par1 := p } s
  | .opt_h_malformed _ :: _, _, s => some (.inl (-21), s)
  | .opt_o empty_name :: rest, v, s =>
    if empty_name then some (.inl (-15), s) else arg_loop rest { v with outfilename := true } s
  | .opt_unknown :: _, _, s => some (.inl (-14), s)
  | .infile text :: rest, v, s =>
    match read_infile text s with
    | none => none
    | some (res, s1) =>
      if res ≠ 0 then some (.inr { v with res := res }, s1)
      else arg_loop rest { v with res := res } s1

/-- Whether `fopen` of the output file and the two `fwrite` calls succeed. -/
structure OutEnv where
  fopen_ok : Bool
  fwrite_hdr_ok : Bool
  fwrite_bin_ok : Bool

/-- Lines 328-365 of `main`: the return value and the content of the output
file when one was opened. `anz` is computed without wrap-around: both
operands lie in `[0, 2 ^ 31)` whenever the difference is positive. -/
def write_output (env : OutEnv) (now : Nat) (v : MainVars) (s : Hex2Bin) :
    Int × Option (List Byte) :=
  if v.res ≠ 0 then (v.res, none)
  else if s.bin_bytes_cnt = 0 then (-12, none)
  else if ¬ v.outfilename then (v.res, none)
  else
    let min_bin_addr := if s.lowest_output_addr ≥ 0 then s.lowest_output_addr else s.min_bin_addr
    let anz := s.max_bin_addr - min_bin_addr + 1
    if anz ≤ 0 then (-16, none)
    else if ¬ env.fopen_ok then (-17, none)
    else
      let hdr := if v.hdrtype ≥ 0 then write_header s v.hdrtype min_bin_addr anz v.par1 now
        env.fwrite_hdr_ok else (0, [])
      if hdr.1 ≠ 0 then (hdr.1, some hdr.2)
      else if ¬ env.fwrite_bin_ok then (-18, some hdr.2)
      else (0, some (hdr.2 ++ binbuf_slice s min_bin_addr.toNat anz.toNat))

/-- Function `int main(int argc, char** argv)` of the build tool: `args` are
`argv[1..]`. The outer `none` stands for a run that read outside `in_line`. -/
def hex2bin_main (env : OutEnv) (now : Nat) (args : List Arg) :
    Option (Int × Option (List Byte)) :=
  match args with
  | [] => some (-13, none)
  | _ :: _ =>
    match arg_loop args ⟨0, -1, 0, false⟩ Hex2Bin.init with
    | none => none
    | some (.inl code, _) => some (code, none)
    | some (.inr v, s) => some (write_output env now v s)

end JesFs

namespace JesFs

/-! ## Vocabulary of the statements -/

/-- Header of a candidate file: the struct overlaid on its first 32 bytes. -/
def candidate_header (content : List Byte) : HDR0_TYPE := hdr_of_bytes (content.take 32)

/-- Payload of a candidate file: the `binsize` bytes that follow the header
(fewer when the file ends before). -/
def candidate_payload (content : List Byte) : List Byte :=
  (content.drop 32).take (candidate_header content).binsize

/-- A type-0 image as the build tool lays it out: header, then payload, the
header's `crc32` and `binsize` taken from the payload. -/
def mk_image (binload timestamp hdrsize : Nat) (payload : List Byte) : List Byte :=
  hdr_bytes { hdrmagic := HDR0_MAGIC, hdrsize := hdrsize, binsize := payload.length,
              binload := binload, crc32 := fs_track_crc32 payload 0xFFFFFFFF,
              timestamp := timestamp, binary_start := binload, resv0 := 0xFFFFFFFF } ++ payload

/-- Erased program memory. -/
def blank_memory : Memory := fun _ => 0xFF

/-- Program memory holding `payload` at `binload` and the matching record at
the settings address, all other cells erased. -/
def installed_memory (P : Platform) (binload timestamp : Nat) (payload : List Byte) : Memory :=
  (nvmc P).write_words ((nvmc P).write_words blank_memory binload payload)
    P.BOOTLOADER_SETTINGS_ADDRESS ((mk_image binload timestamp 32 payload).take 32)

/-- Number of bytes a storage read returned (0 for any other call). -/
def Event.read_len : Event → Nat
  | .fs_read _ _ lres => lres
  | _ => 0

/-- Total number of bytes returned by the reads of a trace. -/
def read_total (t : List Event) : Nat := (t.map Event.read_len).sum

/-- A read into `sbuffer` that returned as many bytes as were asked for. -/
def Event.is_full_read : Event → Prop
  | .fs_read into_buffer len lres => into_buffer = true ∧ lres = len
  | _ => False

/-- The candidate's `timestamp` and `crc32` equal those of the installed
record and the installed image was found valid (condition of line 200). -/
def identical_candidate (P : Platform) (w : Device) (content : List Byte) : Prop :=
  (candidate_header content).timestamp = (pbl_memory P w.mem).timestamp
    ∧ (candidate_header content).crc32 = (pbl_memory P w.mem).crc32
    ∧ cpu_firmware_check P w.mem = true

instance (P : Platform) (w : Device) (content : List Byte) :
    Decidable (identical_candidate P w content) := by
  unfold identical_candidate; infer_instance

instance (e : Event) : Decidable e.is_full_read := by
  cases e <;> unfold Event.is_full_read <;> infer_instance

/-- The integrity loop as `check_system` runs it on a candidate file whose
header was read in full: descriptor behind the header, CRC reset. -/
def integrity_pass (P : Platform) (w : Device) (content : List Byte) :
    LoopExit × FS_DESC × List Byte × List Event :=
  integrity_loop P (candidate_header content).binsize (candidate_header content).binsize
    ⟨content, 32, 0xFFFFFFFF⟩ w.sbuffer

/-- The flashing loop as `check_system` runs it after a successful integrity
loop: file rewound, header skipped. -/
def flash_pass (P : Platform) (F : Flash) (w : Device) (content : List Byte) :
    LoopExit × Memory × List Event :=
  flash_loop P F (candidate_header content).binsize (candidate_header content).binsize
    (candidate_header content).binload
    (fs_read (fs_rewind (integrity_pass P w content).2.1) false 32).2
    (integrity_pass P w content).2.2.1 w.mem

/-- Program memory after the flashing loop and the write of the record at
`BOOTLOADER_SETTINGS_ADDRESS` (lines 248-249). -/
def flashed_memory (P : Platform) (F : Flash) (w : Device) (content : List Byte) : Memory :=
  F.write_words (F.page_erase (flash_pass P F w content).2.1 P.BOOTLOADER_SETTINGS_ADDRESS)
    P.BOOTLOADER_SETTINGS_ADDRESS (content.take 32)

/-- A device with erased program memory and a well-formed candidate file
(five payload bytes for address `0x1000`). -/
def fresh_device : Device :=
  ⟨blank_memory, some (mk_image 0x1000 77 32 [1, 2, 3, 4, 5]), List.replicate 8 0⟩

/-- A device with a valid installed image (timestamp 5) and the given
candidate file. -/
def running_device (disk : Option (List Byte)) : Device :=
  ⟨installed_memory nrf52840 0x2000 5 [9, 8, 7], disk, List.replicate 8 0⟩

/-- A device whose installed record matches the image of `running_device`
but whose first payload byte in program memory is damaged. -/
def damaged_device (disk : Option (List Byte)) : Device :=
  ⟨(nvmc nrf52840).write_words (installed_memory nrf52840 0x2000 5 [9, 8, 7]) 0x2000 [0],
    disk, List.replicate 8 0⟩

/-- A device without valid installed image and the given candidate file. -/
def empty_device (disk : Option (List Byte)) : Device :=
  ⟨blank_memory, disk, List.replicate 8 0⟩

/-- A candidate file whose header declares `binsize = 100` while only 90
payload bytes follow. -/
def truncated_image : List Byte :=
  (mk_image 0x1000 77 32 (List.replicate 100 0x55)).take (32 + 90)

/-- A candidate file whose payload was altered after the header was built. -/
def corrupt_image : List Byte :=
  (mk_image 0x1000 77 32 [1, 2, 3, 4, 5]).take 32 ++ [1, 2, 3, 4, 6]

/-- What `main` does after `check_system` returned `res` (release build). -/
def boot_tail (res : Int) : List Event :=
  (main_classify res).2 ++ main_finish (main_classify res).1

/-- Erase discipline of the events of a flashing loop: they come in passes
`fs_read`, `page_erase a`, `write_words a src`, and the whole chunk read in a
pass has its destination `[a, a + len)` in the page of `a`, the page erased
just before the write. -/
def chunks_erased (ps : Nat) : List Event → Bool
  | [] => true
  | .fs_read _ len _ :: .page_erase a :: .write_words b _ :: rest =>
    decide (b = a) && decide (len = 0 ∨ (a + len - 1) / ps = a / ps) && chunks_erased ps rest
  | _ => false

/-- Bounds kept by `write_byte`: both address marks stay inside the buffer. -/
def addr_bounds (s : Hex2Bin) : Prop :=
  0 ≤ s.min_bin_addr ∧ 0 ≤ s.max_bin_addr ∧ s.max_bin_addr < MAX_BUF

/-- Step from `s` to `s1` that keeps the bounds of the address marks and the
output floor. -/
def keeps_bounds (s s1 : Hex2Bin) : Prop :=
  (addr_bounds s → addr_bounds s1) ∧ s1.lowest_output_addr = s.lowest_output_addr

/-- The globals after `write_byte` stored the bytes of `data` at `addr`,
`addr + 1`, ... -/
def store_bytes (s : Hex2Bin) (addr : Int) : List Byte → Hex2Bin
  | [] => s
  | b :: data => store_bytes (write_byte s addr b.val).2 (addr + 1) data

/-- The globals with the read pointer and the running line sum replaced. -/
def with_parse (s : Hex2Bin) (pbyte fcs : Nat) : Hex2Bin := { s with pbyte := pbyte, fcs := fcs }

/-- Upper-case hex digit of a value below 16. -/
def hex_char (n : Nat) : Char := "0123456789ABCDEF".toList.getD n '0'

/-- The two hex digits of a byte. -/
def hex_pair (b : Byte) : List Char := [hex_char (b.val / 16), hex_char (b.val % 16)]

/-- Hex text of a sequence of bytes. -/
def hex_text : List Byte → List Char
  | [] => []
  | b :: bs => hex_pair b ++ hex_text bs

/-- Sum of a sequence of bytes. -/
def byte_sum : List Byte → Nat
  | [] => 0
  | b :: bs => b.val + byte_sum bs

/-- Checksum byte of a record: two's complement of the low byte of the sum of
the bytes from the count to the last payload byte. -/
def record_checksum (bytes : List Byte) : Byte := Fin.ofNat (256 - byte_sum bytes % 256)

/-- Text of an Intel-HEX record: marker, count, 16-bit address, type, payload,
checksum, newline. -/
def hex_record (addr : Nat) (rtyp : Byte) (payload : List Byte) : List Char :=
  let body : List Byte :=
    [Fin.ofNat payload.length, Fin.ofNat (addr / 256), Fin.ofNat addr, rtyp] ++ payload
  ':' :: (hex_text body ++ hex_pair (record_checksum body) ++ ['\n'])

/-- Command line `FILE.HEX -h0 -oOUT.BIN` for an input file that holds one
data record with `data` at address 0 and the end record. -/
def scenario_args (data : List Byte) : List Arg :=
  [Arg.infile (some (hex_record 0 0 data ++ hex_record 0 1 [])), Arg.opt_h 0 none,
    Arg.opt_o false]

/-- An environment in which the output file can be opened and written. -/
def good_env : OutEnv := ⟨true, true, true⟩

end JesFs

namespace JesFs

/-! ## Vocabulary for the statements about the parser of the build tool -/

/-- Bytes spelled by a text of hex-digit pairs, the digits in either case;
`none` when a character is no hex digit or a single digit is left over. -/
def decode_hex : List Char → Option (List Byte)
  | [] => some []
  | [_] => none
  | c0 :: c1 :: cs =>
    match hex_digit c0, hex_digit c1, decode_hex cs with
    | some n0, some n1, some bs => some (Fin.ofNat (n0 * 16 + n1) :: bs)
    | _, _, _ => none

/-- The globals after `write_byte` was called for the one address `addr` with
each value of the list in turn. -/
def write_repeat (s : Hex2Bin) (addr : Int) : List Int → Hex2Bin
  | [] => s
  | v :: vs => write_repeat (write_byte s addr v).2 addr vs

/-- Step from `s` to `s1` that touches nothing but the line buffer, the read
pointer, the line sum and the line counters. -/
def same_data (s s1 : Hex2Bin) : Prop :=
  s1.binbuf = s.binbuf ∧ s1.usedbuf = s.usedbuf ∧ s1.min_bin_addr = s.min_bin_addr
    ∧ s1.max_bin_addr = s.max_bin_addr ∧ s1.bin_bytes_cnt = s.bin_bytes_cnt
    ∧ s1.warnings_cnt = s.warnings_cnt ∧ s1.lowest_output_addr = s.lowest_output_addr

/-- Step from `s` to `s1` that leaves every cell of `binbuf` and `usedbuf`
with an index from `MAX_BUF` on as it was. -/
def same_outside (s s1 : Hex2Bin) : Prop :=
  ∀ x, MAX_BUF.toNat ≤ x → s1.binbuf x = s.binbuf x ∧ s1.usedbuf x = s.usedbuf x

end JesFs

namespace JesFs

/-! ## Vocabulary for the last claims about the build tool -/

/-- The globals after a sequence of calls `write_byte(addr, val)`, given as
pairs `(addr, val)` in program order. -/
def write_seq (s : Hex2Bin) : List (Int × Int) → Hex2Bin
  | [] => s
  | c :: cs => write_seq (write_byte s c.1 c.2).2 cs

/-- One of the calls was a successful write to the cell `a`. -/
def written_by (calls : List (Int × Int)) (a : Nat) : Prop :=
  ∃ c ∈ calls, 0 ≤ c.1 ∧ c.1 < MAX_BUF ∧ c.1.toNat = a

/-- Number of calls with an address inside the buffer. -/
def successful_writes (calls : List (Int × Int)) : Nat :=
  (calls.filter (fun c => decide (0 ≤ c.1 ∧ c.1 < MAX_BUF))).length

/-- The invariant of the buffer globals, `W` being the set of cells written
so far: unused cells hold the default value, the usage counter is positive
exactly on `W` and at most 255, `W` lies between the marks, and the marks are
the initial ones before the first write and written cells afterwards. -/
def buf_inv (s : Hex2Bin) (W : Nat → Prop) : Prop :=
  (∀ a, s.usedbuf a = 0 → s.binbuf a = 0xFF)
  ∧ (∀ a, 0 < s.usedbuf a ↔ W a)
  ∧ (∀ a, s.usedbuf a ≤ 255)
  ∧ (∀ a, W a → s.min_bin_addr ≤ (a : Int) ∧ (a : Int) ≤ s.max_bin_addr)
  ∧ 0 ≤ s.bin_bytes_cnt
  ∧ (s.bin_bytes_cnt = 0 → s.min_bin_addr = MAX_BUF - 1 ∧ s.max_bin_addr = 0 ∧ ∀ a, ¬ W a)
  ∧ (0 < s.bin_bytes_cnt → 0 ≤ s.min_bin_addr ∧ s.max_bin_addr < MAX_BUF
      ∧ W s.min_bin_addr.toNat ∧ W s.max_bin_addr.toNat)

/-- The passes of the loop of `read_infile` over lines each of which lets the
loop go on: the offset and the globals after the last of them, `none` when a
pass returns or reads outside the line buffer. -/
def pass_lines : List (List Char) → Int → Hex2Bin → Option (Int × Hex2Bin)
  | [], boffset, s => some (boffset, s)
  | line :: rest, boffset, s =>
    match read_line (fgets_store s line) boffset with
    | some (.inr boffset1, s1) => pass_lines rest boffset1 (count_line s1)
    | _ => none

/-- Text of a file of data records: for each pair `(addr, data)` the line
`hex_record addr 0 data`. -/
def data_file : List (Nat × List Byte) → List Char
  | [] => []
  | r :: rs => hex_record r.1 0 r.2 ++ data_file rs

end JesFs

namespace JesFs

/-! ## CRC32 -/

theorem fs_track_crc32_append (A B : List Byte) (s : Nat) :
    fs_track_crc32 (A ++ B) s = fs_track_crc32 B (fs_track_crc32 A s) := by
  induction A generalizing s with
  | nil => rfl
  | cons a A ih => simp [fs_track_crc32, ih]

theorem crc_chunked_join (chunks : List (List Byte)) (s : Nat) :
    crc_chunked chunks s = fs_track_crc32 chunks.flatten s := by
  induction chunks generalizing s with
  | nil => rfl
  | cons c cs ih => simp [crc_chunked, fs_track_crc32_append, ih]

/-- C1: chunking invariance of `fs_track_crc32`: running it over `B` from the
value it returned for `A` equals one run over `A ++ B`, for every running
value; hence feeding any list of consecutive chunks from the seed `0xFFFFFFFF`
equals one call over their concatenation. -/
theorem C1_chunking_invariance :
    (∀ (A B : List Byte) (s : Nat),
        fs_track_crc32 B (fs_track_crc32 A s) = fs_track_crc32 (A ++ B) s) ∧
    (∀ chunks : List (List Byte),
        crc_chunked chunks 0xFFFFFFFF = fs_track_crc32 chunks.flatten 0xFFFFFFFF) :=
  ⟨fun A B s => (fs_track_crc32_append A B s).symm, fun chunks => crc_chunked_join chunks _⟩

end JesFs

namespace JesFs

/-- The shift-xor step written with `%` and `/`. -/
theorem crc_shift_eq (c : Nat) :
    crc_shift c = if c % 2 = 1 then POLY32 ^^^ (c / 2) else c / 2 := by
  unfold crc_shift
  rw [Nat.and_one_is_mod, Nat.shiftRight_one]
  by_cases h : c % 2 = 1
  · simp [h, Nat.xor_comm]
  · have h0 : c % 2 = 0 := by omega
    simp [h0]

theorem xor_pair_cancel (p a b : Nat) : p ^^^ a ^^^ (p ^^^ b) = a ^^^ b := by
  apply Nat.eq_of_testBit_eq
  intro i
  simp only [Nat.testBit_xor]
  cases p.testBit i <;> cases a.testBit i <;> cases b.testBit i <;> rfl

theorem xor_left_swap (p a b : Nat) : p ^^^ (a ^^^ b) = a ^^^ (p ^^^ b) := by
  rw [← Nat.xor_assoc, Nat.xor_comm p a, Nat.xor_assoc]

theorem crc_shift_xor (a b : Nat) : crc_shift (a ^^^ b) = crc_shift a ^^^ crc_shift b := by
  simp only [crc_shift_eq, Nat.xor_div_two, Nat.xor_mod_two_eq_one]
  by_cases ha : a % 2 = 1 <;> by_cases hb : b % 2 = 1 <;> simp [ha, hb]
  · rw [xor_pair_cancel, Nat.xor_comm]
  · rw [Nat.xor_assoc]
  · rw [xor_left_swap]

theorem crc_shift_iter_xor (k a b : Nat) :
    crc_shift^[k] (a ^^^ b) = crc_shift^[k] a ^^^ crc_shift^[k] b := by
  induction k generalizing a b with
  | zero => rfl
  | succ k ih => simp only [Function.iterate_succ, Function.comp, crc_shift_xor, ih]

theorem crc_shift_iter_shift (k y : Nat) : crc_shift^[k] (2 ^ k * y) = y := by
  induction k with
  | zero => simp
  | succ k ih =>
    rw [Function.iterate_succ, Function.comp, crc_shift_eq]
    have h0 : 2 ^ (k + 1) * y = 2 * (2 ^ k * y) := by ring
    have h1 : 2 ^ (k + 1) * y % 2 = 0 := by rw [h0]; omega
    have h2 : 2 ^ (k + 1) * y / 2 = 2 ^ k * y := by rw [h0]; omega
    simp [h1, h2, ih]

theorem split_low_high (x : Nat) : x = (x % 256) ^^^ (2 ^ 8 * (x / 256)) := by
  apply Nat.eq_of_testBit_eq
  intro i
  have e : (256 : Nat) = 2 ^ 8 := by norm_num
  rw [Nat.testBit_xor, e, Nat.testBit_mod_two_pow, Nat.testBit_mul_pow_two,
    ← Nat.shiftRight_eq_div_pow, Nat.testBit_shiftRight]
  by_cases h : i < 8
  · have : ¬ 8 ≤ i := by omega
    simp [h, this]
  · have h8 : 8 ≤ i := by omega
    have e2 : 8 + (i - 8) = i := by omega
    simp [h, h8, e2]

/-- Eight shift-xor steps split into a table look-up on the low byte and a
shift of the remaining bits. -/
theorem crc_shift8_split (x : Nat) :
    crc_shift^[8] x = crc_shift^[8] (x % 256) ^^^ (x / 256) := by
  conv_lhs => rw [split_low_high x]
  rw [crc_shift_iter_xor, crc_shift_iter_shift]

theorem std_crc_table_eq (n : Nat) : std_crc_table n = crc_shift^[8] n := by
  have : (fun c => if c % 2 = 1 then 0xedb88320 ^^^ (c / 2) else c / 2) = crc_shift := by
    funext c; rw [crc_shift_eq]; rfl
  unfold std_crc_table
  rw [this]

theorem std_fold_eq (buf : List Byte) (c : Nat) :
    buf.foldl (fun c b => std_crc_table ((c ^^^ b.val) % 256) ^^^ (c / 256)) c
      = fs_track_crc32 buf c := by
  induction buf generalizing c with
  | nil => rfl
  | cons b buf ih =>
    rw [List.foldl_cons, ih, fs_track_crc32, crc_byte, crc_shift8_split (c ^^^ b.val),
      std_crc_table_eq]
    congr 2
    -- the byte only touches the low eight bits
    have e : ∀ x : Nat, x / 256 = x >>> 8 := fun x => (Nat.shiftRight_eq_div_pow x 8).symm
    rw [e, e]
    apply Nat.eq_of_testBit_eq
    intro i
    rw [Nat.testBit_shiftRight, Nat.testBit_shiftRight, Nat.testBit_xor]
    have hle : 2 ^ 8 ≤ 2 ^ (8 + i) := Nat.pow_le_pow_right (by norm_num) (Nat.le_add_right 8 i)
    have : (b.val).testBit (8 + i) = false :=
      Nat.testBit_lt_two_pow (lt_of_lt_of_le b.isLt hle)
    simp [this]

/-- C2: `fs_track_crc32` seeded with `0xFFFFFFFF` is the reflected CRC-32 with
polynomial `0xEDB88320` without the final complement: its result is the
standard CRC-32 (RFC 1952) of the same bytes XOR `0xFFFFFFFF`; the empty
sequence gives `0xFFFFFFFF` and the ASCII bytes of "123456789" give
`0x340BC6D9`, the complement of the standard check value `0xCBF43926`. -/
theorem C2_crc32_no_final_complement :
    (∀ P : List Byte, fs_track_crc32 P 0xFFFFFFFF = std_crc32 P ^^^ 0xFFFFFFFF) ∧
    fs_track_crc32 [] 0xFFFFFFFF = 0xFFFFFFFF ∧
    fs_track_crc32 [0x31, 0x32, 0x33, 0x34, 0x35, 0x36, 0x37, 0x38, 0x39] 0xFFFFFFFF
      = 0x340BC6D9 ∧
    std_crc32 [0x31, 0x32, 0x33, 0x34, 0x35, 0x36, 0x37, 0x38, 0x39] = 0xCBF43926 ∧
    0xCBF43926 ^^^ 0xFFFFFFFF = 0x340BC6D9 := by
  refine ⟨?_, by decide, by decide, by decide, by decide⟩
  intro P
  unfold std_crc32 std_update_crc
  rw [std_fold_eq, Nat.xor_cancel_right]
  rfl

end JesFs

namespace JesFs

/-! ## The CRC step is a bijection of the 32-bit values -/

theorem crc_shift_lt (c : Nat) (h : c < 2 ^ 32) : crc_shift c < 2 ^ 32 := by
  rw [crc_shift_eq]
  have h2 : c / 2 < 2 ^ 32 := by omega
  split
  · exact Nat.xor_lt_two_pow (by decide) h2
  · exact h2

theorem crc_shift_iter_lt (k c : Nat) (h : c < 2 ^ 32) : crc_shift^[k] c < 2 ^ 32 := by
  induction k generalizing c with
  | zero => exact h
  | succ k ih => rw [Function.iterate_succ, Function.comp]; exact ih _ (crc_shift_lt c h)

/-- Inverse of `crc_shift` on 32-bit values: bit 31 of the result tells
whether the polynomial was applied. -/
theorem crc_shift_inj (a b : Nat) (ha : a < 2 ^ 32) (hb : b < 2 ^ 32)
    (h : crc_shift a = crc_shift b) : a = b := by
  have key : ∀ c : Nat, c < 2 ^ 32 →
      c = if (crc_shift c).testBit 31 then 2 * (crc_shift c ^^^ POLY32) + 1
          else 2 * crc_shift c := by
    intro c hc
    have h2 : c / 2 < 2 ^ 31 := by omega
    have ht : (c / 2).testBit 31 = false := Nat.testBit_lt_two_pow h2
    have hp : POLY32.testBit 31 = true := by decide
    rw [crc_shift_eq]
    by_cases hodd : c % 2 = 1
    · rw [if_pos hodd, Nat.testBit_xor, hp, ht]
      simp only [Bool.xor_false, if_true]
      rw [Nat.xor_comm POLY32, Nat.xor_cancel_right]
      omega
    · rw [if_neg hodd, ht]
      simp only [Bool.false_eq_true, if_false]
      omega
  rw [key a ha, key b hb, h]

theorem crc_shift_iter_inj (k a b : Nat) (ha : a < 2 ^ 32) (hb : b < 2 ^ 32)
    (h : crc_shift^[k] a = crc_shift^[k] b) : a = b := by
  induction k generalizing a b with
  | zero => exact h
  | succ k ih =>
    rw [Function.iterate_succ, Function.comp, Function.comp] at h
    exact crc_shift_inj a b ha hb (ih _ _ (crc_shift_lt a ha) (crc_shift_lt b hb) h)

theorem byte_lt_word (x : Byte) : x.val < 2 ^ 32 := lt_trans x.isLt (by decide)

theorem crc_byte_lt (s : Nat) (x : Byte) (hs : s < 2 ^ 32) : crc_byte s x < 2 ^ 32 :=
  crc_shift_iter_lt 8 _ (Nat.xor_lt_two_pow hs (byte_lt_word x))

theorem crc_byte_inj_state (s t : Nat) (x : Byte) (hs : s < 2 ^ 32) (ht : t < 2 ^ 32)
    (h : crc_byte s x = crc_byte t x) : s = t := by
  have := crc_shift_iter_inj 8 _ _ (Nat.xor_lt_two_pow hs (byte_lt_word x))
    (Nat.xor_lt_two_pow ht (byte_lt_word x)) h
  exact Nat.xor_left_inj.1 this

theorem crc_byte_inj_byte (s : Nat) (x y : Byte) (hs : s < 2 ^ 32)
    (h : crc_byte s x = crc_byte s y) : x = y := by
  have := crc_shift_iter_inj 8 _ _ (Nat.xor_lt_two_pow hs (byte_lt_word x))
    (Nat.xor_lt_two_pow hs (byte_lt_word y)) h
  exact Fin.ext (Nat.xor_right_inj.1 this)

theorem fs_track_crc32_lt (data : List Byte) (s : Nat) (hs : s < 2 ^ 32) :
    fs_track_crc32 data s < 2 ^ 32 := by
  induction data generalizing s with
  | nil => exact hs
  | cons x data ih => exact ih _ (crc_byte_lt s x hs)

theorem fs_track_crc32_inj_state (data : List Byte) (s t : Nat) (hs : s < 2 ^ 32)
    (ht : t < 2 ^ 32) (h : fs_track_crc32 data s = fs_track_crc32 data t) : s = t := by
  induction data generalizing s t with
  | nil => exact h
  | cons x data ih =>
    exact crc_byte_inj_state s t x hs ht (ih _ _ (crc_byte_lt s x hs) (crc_byte_lt t x ht) h)

/-- Replacing one byte of the data changes the CRC. -/
theorem fs_track_crc32_set_ne (Q : List Byte) (j : Nat) (hj : j < Q.length) (c : Byte)
    (s : Nat) (hs : s < 2 ^ 32) (hc : c ≠ Q[j]) :
    fs_track_crc32 (Q.set j c) s ≠ fs_track_crc32 Q s := by
  induction Q generalizing j s with
  | nil => simp at hj
  | cons q Q ih =>
    cases j with
    | zero =>
      intro h
      simp only [List.set_cons_zero, fs_track_crc32] at h
      have h1 := fs_track_crc32_inj_state Q _ _ (crc_byte_lt s c hs) (crc_byte_lt s q hs) h
      exact hc (crc_byte_inj_byte s c q hs h1)
    | succ j =>
      simp only [List.set_cons_succ, fs_track_crc32]
      exact ih j (by simpa using hj) _ (crc_byte_lt s q hs) (by simpa using hc)

end JesFs

namespace JesFs

/-! ## Storage reads and the two loops of `check_system` -/

theorem fs_read_data (d : FS_DESC) (b : Bool) (len : Nat) :
    (fs_read d b len).1 = (d.content.drop d.pos).take len := rfl

theorem fs_read_length (d : FS_DESC) (b : Bool) (len : Nat) :
    (fs_read d b len).1.length = min len (d.content.length - d.pos) := by
  simp [fs_read]

theorem fs_read_content (d : FS_DESC) (b : Bool) (len : Nat) :
    (fs_read d b len).2.content = d.content := rfl

theorem fs_read_pos (d : FS_DESC) (b : Bool) (len : Nat) :
    (fs_read d b len).2.pos = d.pos + min len (d.content.length - d.pos) := by
  simp [fs_read]

theorem fs_read_crc (d : FS_DESC) (len : Nat) :
    (fs_read d true len).2.file_crc32
      = fs_track_crc32 ((d.content.drop d.pos).take len) d.file_crc32 := rfl

theorem block_len_le (P : Platform) (total_len : Nat) : block_len P total_len ≤ total_len := by
  unfold block_len; split <;> omega

theorem block_len_le_page (P : Platform) (total_len : Nat) :
    block_len P total_len ≤ P.CODE_PAGE_SIZE := by
  unfold block_len SBUF_SIZE; split <;> omega

theorem block_len_pos (P : Platform) (total_len : Nat) (hps : 0 < P.CODE_PAGE_SIZE)
    (h : total_len ≠ 0) : 0 < block_len P total_len := by
  unfold block_len SBUF_SIZE; split <;> omega

theorem block_len_eq_page (P : Platform) (total_len : Nat)
    (h : block_len P total_len < total_len) : block_len P total_len = P.CODE_PAGE_SIZE := by
  unfold block_len SBUF_SIZE at *
  by_cases hc : total_len > P.CODE_PAGE_SIZE
  · rw [if_pos hc]
  · rw [if_neg hc] at h; omega

theorem integrity_loop_zero (P : Platform) (fuel : Nat) (d : FS_DESC) (sb : List Byte) :
    integrity_loop P fuel 0 d sb = (LoopExit.done, d, sb, []) := by
  cases fuel <;> simp [integrity_loop]

theorem integrity_loop_short (P : Platform) (fuel total_len : Nat) (d : FS_DESC)
    (sb : List Byte) (h0 : total_len ≠ 0)
    (hs : (fs_read d true (block_len P total_len)).1.length ≠ block_len P total_len) :
    integrity_loop P (fuel + 1) total_len d sb
      = (LoopExit.short_read, (fs_read d true (block_len P total_len)).2,
          buf_store sb (fs_read d true (block_len P total_len)).1,
          [Event.fs_read true (block_len P total_len)
            (fs_read d true (block_len P total_len)).1.length]) := by
  rw [integrity_loop, if_neg h0]
  simp only []
  rw [if_pos hs]

theorem integrity_loop_step (P : Platform) (fuel total_len : Nat) (d : FS_DESC)
    (sb : List Byte) (h0 : total_len ≠ 0)
    (hs : (fs_read d true (block_len P total_len)).1.length = block_len P total_len) :
    integrity_loop P (fuel + 1) total_len d sb
      = ((integrity_loop P fuel (total_len - block_len P total_len)
            (fs_read d true (block_len P total_len)).2
            (buf_store sb (fs_read d true (block_len P total_len)).1)).1,
         (integrity_loop P fuel (total_len - block_len P total_len)
            (fs_read d true (block_len P total_len)).2
            (buf_store sb (fs_read d true (block_len P total_len)).1)).2.1,
         (integrity_loop P fuel (total_len - block_len P total_len)
            (fs_read d true (block_len P total_len)).2
            (buf_store sb (fs_read d true (block_len P total_len)).1)).2.2.1,
         Event.fs_read true (block_len P total_len) (block_len P total_len) ::
         (integrity_loop P fuel (total_len - block_len P total_len)
            (fs_read d true (block_len P total_len)).2
            (buf_store sb (fs_read d true (block_len P total_len)).1)).2.2.2) := by
  rw [integrity_loop, if_neg h0]
  simp only []
  rw [if_neg (not_not.2 hs), hs]

theorem integrity_loop_no_fuel (P : Platform) (total_len : Nat) (d : FS_DESC) (sb : List Byte)
    (h0 : total_len ≠ 0) :
    integrity_loop P 0 total_len d sb = (LoopExit.no_exit, d, sb, []) := by
  rw [integrity_loop, if_neg h0]

theorem integrity_loop_content (P : Platform) (fuel total_len : Nat) (d : FS_DESC)
    (sb : List Byte) : (integrity_loop P fuel total_len d sb).2.1.content = d.content := by
  induction fuel generalizing total_len d sb with
  | zero =>
    by_cases h0 : total_len = 0
    · subst h0; rw [integrity_loop_zero]
    · rw [integrity_loop_no_fuel P _ _ _ h0]
  | succ fuel ih =>
    by_cases h0 : total_len = 0
    · subst h0; rw [integrity_loop_zero]
    · by_cases hs : (fs_read d true (block_len P total_len)).1.length = block_len P total_len
      · rw [integrity_loop_step P _ _ _ _ h0 hs]
        simp only []
        rw [ih]; rfl
      · rw [integrity_loop_short P _ _ _ _ h0 hs]; rfl

theorem integrity_loop_events (P : Platform) (fuel total_len : Nat) (d : FS_DESC)
    (sb : List Byte) :
    ∀ e ∈ (integrity_loop P fuel total_len d sb).2.2.2, ∃ n m, e = Event.fs_read true n m := by
  induction fuel generalizing total_len d sb with
  | zero =>
    by_cases h0 : total_len = 0
    · subst h0; rw [integrity_loop_zero]; simp
    · rw [integrity_loop_no_fuel P _ _ _ h0]; simp
  | succ fuel ih =>
    by_cases h0 : total_len = 0
    · subst h0; rw [integrity_loop_zero]; simp
    · by_cases hs : (fs_read d true (block_len P total_len)).1.length = block_len P total_len
      · rw [integrity_loop_step P _ _ _ _ h0 hs]
        intro e he
        rcases List.mem_cons.1 he with h | h
        · exact ⟨_, _, h⟩
        · exact ih _ _ _ e h
      · rw [integrity_loop_short P _ _ _ _ h0 hs]
        intro e he
        exact ⟨_, _, List.mem_singleton.1 he⟩

/-- A loop that ran to its end read exactly `total_len` bytes in full reads
and carried the CRC over them. -/
theorem integrity_loop_done (P : Platform) (fuel total_len : Nat) (d : FS_DESC)
    (sb : List Byte) (hp : d.pos ≤ d.content.length)
    (h : (integrity_loop P fuel total_len d sb).1 = LoopExit.done) :
    d.pos + total_len ≤ d.content.length
    ∧ (integrity_loop P fuel total_len d sb).2.1.pos = d.pos + total_len
    ∧ (integrity_loop P fuel total_len d sb).2.1.file_crc32
        = fs_track_crc32 ((d.content.drop d.pos).take total_len) d.file_crc32
    ∧ (∀ e ∈ (integrity_loop P fuel total_len d sb).2.2.2, e.is_full_read)
    ∧ read_total (integrity_loop P fuel total_len d sb).2.2.2 = total_len := by
  induction fuel generalizing total_len d sb with
  | zero =>
    by_cases h0 : total_len = 0
    · subst h0; rw [integrity_loop_zero]; simp [fs_track_crc32, read_total, hp]
    · rw [integrity_loop_no_fuel P _ _ _ h0] at h; simp at h
  | succ fuel ih =>
    by_cases h0 : total_len = 0
    · subst h0; rw [integrity_loop_zero]; simp [fs_track_crc32, read_total, hp]
    · by_cases hs : (fs_read d true (block_len P total_len)).1.length = block_len P total_len
      · rw [integrity_loop_step P _ _ _ _ h0 hs] at h ⊢
        simp only [] at h ⊢
        have hlen := fs_read_length d true (block_len P total_len)
        have hble := block_len_le P total_len
        obtain ⟨i1, i2, i3, i4, i5⟩ := ih _ _ _ (by rw [fs_read_content, fs_read_pos]; omega) h
        rw [fs_read_content, fs_read_pos] at i1
        rw [fs_read_pos] at i2
        rw [fs_read_crc, fs_read_content, fs_read_pos] at i3
        rw [hs] at hlen
        rw [← hlen] at i1 i2 i3
        generalize block_len P total_len = bl at *
        refine ⟨by omega, by rw [i2]; omega, ?_, ?_, ?_⟩
        · rw [i3, ← fs_track_crc32_append]
          congr 1
          rw [← List.drop_drop]
          have : total_len = bl + (total_len - bl) := by omega
          conv_rhs => rw [this]
          rw [List.take_add]
        · intro e he
          rcases List.mem_cons.1 he with h1 | h1
          · subst h1
            exact ⟨rfl, rfl⟩
          · exact i4 e h1
        · simp only [read_total, List.map_cons, List.sum_cons, Event.read_len] at i5 ⊢
          rw [i5]
          omega
      · rw [integrity_loop_short P _ _ _ _ h0 hs] at h; simp at h

/-- With a positive chunk size the loop ends within `total_len` passes. -/
theorem integrity_loop_exit (P : Platform) (hps : 0 < P.CODE_PAGE_SIZE) (fuel total_len : Nat)
    (d : FS_DESC) (sb : List Byte) (hf : total_len ≤ fuel) (hp : d.pos ≤ d.content.length) :
    (d.pos + total_len ≤ d.content.length →
        (integrity_loop P fuel total_len d sb).1 = LoopExit.done)
    ∧ (d.content.length < d.pos + total_len →
        (integrity_loop P fuel total_len d sb).1 = LoopExit.short_read) := by
  induction fuel generalizing total_len d sb with
  | zero =>
    have : total_len = 0 := by omega
    subst this
    rw [integrity_loop_zero]
    exact ⟨fun _ => rfl, fun h => by omega⟩
  | succ fuel ih =>
    by_cases h0 : total_len = 0
    · subst h0; rw [integrity_loop_zero]; exact ⟨fun _ => rfl, fun h => by omega⟩
    · have hlen := fs_read_length d true (block_len P total_len)
      have hpos := fs_read_pos d true (block_len P total_len)
      have hble := block_len_le P total_len
      have hbpos := block_len_pos P total_len hps h0
      have hcont := fs_read_content d true (block_len P total_len)
      by_cases hs : (fs_read d true (block_len P total_len)).1.length = block_len P total_len
      · rw [integrity_loop_step P _ _ _ _ h0 hs]
        simp only []
        rw [hs] at hlen
        rw [← hlen] at hpos
        have := ih (total_len - block_len P total_len) (fs_read d true (block_len P total_len)).2
          (buf_store sb (fs_read d true (block_len P total_len)).1) (by omega)
          (by rw [hcont, hpos]; omega)
        rw [hcont, hpos] at this
        constructor
        · intro hle
          exact this.1 (by omega)
        · intro hlt
          exact this.2 (by omega)
      · rw [integrity_loop_short P _ _ _ _ h0 hs]
        simp only []
        constructor
        · intro hle
          exfalso
          apply hs
          rw [hlen]
          omega
        · intro _
          trivial

end JesFs

namespace JesFs

/-! ## Paths through `check_system` -/

theorem flash_loop_zero (P : Platform) (F : Flash) (fuel fadr : Nat) (d : FS_DESC)
    (sb : List Byte) (mem : Memory) :
    flash_loop P F fuel 0 fadr d sb mem = (LoopExit.done, mem, []) := by
  cases fuel <;> simp [flash_loop]

theorem flash_loop_no_fuel (P : Platform) (F : Flash) (total_len fadr : Nat) (d : FS_DESC)
    (sb : List Byte) (mem : Memory) (h0 : total_len ≠ 0) :
    flash_loop P F 0 total_len fadr d sb mem = (LoopExit.no_exit, mem, []) := by
  rw [flash_loop, if_neg h0]

theorem flash_loop_short (P : Platform) (F : Flash) (fuel total_len fadr : Nat) (d : FS_DESC)
    (sb : List Byte) (mem : Memory) (h0 : total_len ≠ 0)
    (hs : (fs_read d true (block_len P total_len)).1.length ≠ block_len P total_len) :
    flash_loop P F (fuel + 1) total_len fadr d sb mem
      = (LoopExit.short_read, mem,
          [Event.fs_read true (block_len P total_len)
            (fs_read d true (block_len P total_len)).1.length]) := by
  rw [flash_loop, if_neg h0]
  simp only []
  rw [if_pos hs]

theorem flash_loop_step (P : Platform) (F : Flash) (fuel total_len fadr : Nat) (d : FS_DESC)
    (sb : List Byte) (mem : Memory) (h0 : total_len ≠ 0)
    (hs : (fs_read d true (block_len P total_len)).1.length = block_len P total_len) :
    flash_loop P F (fuel + 1) total_len fadr d sb mem
      = ((flash_loop P F fuel (total_len - block_len P total_len)
            ((fadr + block_len P total_len) % 2 ^ 32) (fs_read d true (block_len P total_len)).2
            (buf_store sb (fs_read d true (block_len P total_len)).1)
            (F.write_words (F.page_erase mem fadr) fadr
              ((buf_store sb (fs_read d true (block_len P total_len)).1).take
                (4 * ((block_len P total_len + 3) / 4))))).1,
         (flash_loop P F fuel (total_len - block_len P total_len)
            ((fadr + block_len P total_len) % 2 ^ 32) (fs_read d true (block_len P total_len)).2
            (buf_store sb (fs_read d true (block_len P total_len)).1)
            (F.write_words (F.page_erase mem fadr) fadr
              ((buf_store sb (fs_read d true (block_len P total_len)).1).take
                (4 * ((block_len P total_len + 3) / 4))))).2.1,
         Event.fs_read true (block_len P total_len) (block_len P total_len)
           :: Event.page_erase fadr
           :: Event.write_words fadr
                ((buf_store sb (fs_read d true (block_len P total_len)).1).take
                  (4 * ((block_len P total_len + 3) / 4)))
           :: (flash_loop P F fuel (total_len - block_len P total_len)
            ((fadr + block_len P total_len) % 2 ^ 32) (fs_read d true (block_len P total_len)).2
            (buf_store sb (fs_read d true (block_len P total_len)).1)
            (F.write_words (F.page_erase mem fadr) fadr
              ((buf_store sb (fs_read d true (block_len P total_len)).1).take
                (4 * ((block_len P total_len + 3) / 4))))).2.2) := by
  rw [flash_loop, if_neg h0]
  simp only []
  rw [if_neg (not_not.2 hs), hs]

/-- With a positive chunk size and enough bytes left in the file the flashing
loop runs to its end, whatever the flash does. -/
theorem flash_loop_exit (P : Platform) (F : Flash) (hps : 0 < P.CODE_PAGE_SIZE)
    (fuel total_len fadr : Nat) (d : FS_DESC) (sb : List Byte) (mem : Memory)
    (hf : total_len ≤ fuel) (hle : d.pos + total_len ≤ d.content.length) :
    (flash_loop P F fuel total_len fadr d sb mem).1 = LoopExit.done := by
  induction fuel generalizing total_len fadr d sb mem with
  | zero =>
    have : total_len = 0 := by omega
    subst this
    rw [flash_loop_zero]
  | succ fuel ih =>
    by_cases h0 : total_len = 0
    · subst h0; rw [flash_loop_zero]
    · have hlen := fs_read_length d true (block_len P total_len)
      have hpos := fs_read_pos d true (block_len P total_len)
      have hble := block_len_le P total_len
      have hbpos := block_len_pos P total_len hps h0
      have hcont := fs_read_content d true (block_len P total_len)
      have hs : (fs_read d true (block_len P total_len)).1.length = block_len P total_len := by
        rw [hlen]; omega
      rw [flash_loop_step P F _ _ _ _ _ _ h0 hs]
      simp only []
      apply ih
      · omega
      · rw [hcont, hpos]; omega

theorem fs_open_some (content : List Byte) :
    fs_open (some content) = (0, ⟨content, 0, 0xFFFFFFFF⟩) := rfl

theorem hdr_read_eq (content : List Byte) (s : Nat) :
    fs_read ⟨content, 0, s⟩ true 32
      = (content.take 32, ⟨content, min 32 content.length, fs_track_crc32 (content.take 32) s⟩) := by
  simp [fs_read]

/-- No candidate file: line 263-266. -/
theorem check_system_absent (P : Platform) (F : Flash) (w : Device) (h : w.disk = none) :
    (check_system P F w).res = some (if cpu_firmware_check P w.mem = true then 0 else -206)
    ∧ (check_system P F w).mem = w.mem
    ∧ (check_system P F w).trace = [Event.fs_open (-1)] := by
  unfold check_system
  rw [h]
  simp only [fs_open]
  cases cpu_firmware_check P w.mem <;> simp

/-- Malformed header: line 196-199. -/
theorem check_system_bad_header (P : Platform) (F : Flash) (w : Device) (content : List Byte)
    (h : w.disk = some content)
    (hbad : content.length < 32 ∨ (candidate_header content).hdrmagic ≠ HDR0_MAGIC) :
    (check_system P F w).res = some (if cpu_firmware_check P w.mem = true then -101 else -1)
    ∧ (check_system P F w).mem = w.mem
    ∧ (check_system P F w).trace
        = [Event.fs_open 0, Event.fs_read true 32 (min 32 content.length)] := by
  unfold check_system
  rw [h]
  simp only [fs_open_some, hdr_read_eq, List.length_take]
  have hc : (min 32 content.length ≠ 32 ∨ (hdr_of_bytes (content.take 32)).hdrmagic ≠ HDR0_MAGIC) := by
    rcases hbad with h1 | h1
    · left; omega
    · right; exact h1
  simp only [if_true, if_pos hc]
  simp

/-- Identical candidate: line 200-202. -/
theorem check_system_identical (P : Platform) (F : Flash) (w : Device) (content : List Byte)
    (h : w.disk = some content) (hlen : 32 ≤ content.length)
    (hmagic : (candidate_header content).hdrmagic = HDR0_MAGIC)
    (hid : identical_candidate P w content) :
    (check_system P F w).res = some 0
    ∧ (check_system P F w).mem = w.mem
    ∧ (check_system P F w).trace = [Event.fs_open 0, Event.fs_read true 32 32] := by
  unfold check_system
  rw [h]
  simp only [fs_open_some, hdr_read_eq, List.length_take]
  have hm : min 32 content.length = 32 := by omega
  have hc : ¬ (min 32 content.length ≠ 32 ∨ (hdr_of_bytes (content.take 32)).hdrmagic ≠ HDR0_MAGIC) := by
    rw [hm]
    intro h1
    rcases h1 with h1 | h1
    · exact h1 rfl
    · exact h1 hmagic
  simp only [if_true, if_neg hc]
  unfold identical_candidate candidate_header at hid
  rw [if_pos hid, hm]
  simp

end JesFs

namespace JesFs

/-- The run behind the identical-candidate test, for a candidate file with a
full header and the right magic that is not identical to the installed image. -/
theorem check_system_pass (P : Platform) (F : Flash) (w : Device) (content : List Byte)
    (h : w.disk = some content) (hlen : 32 ≤ content.length)
    (hmagic : (candidate_header content).hdrmagic = HDR0_MAGIC)
    (hid : ¬ identical_candidate P w content) :
    check_system P F w =
      match (integrity_pass P w content).1 with
      | .no_exit => ⟨none, w.mem,
          [Event.fs_open 0, Event.fs_read true 32 32] ++ (integrity_pass P w content).2.2.2⟩
      | .short_read => ⟨some (if cpu_firmware_check P w.mem = true then -102 else -2), w.mem,
          [Event.fs_open 0, Event.fs_read true 32 32] ++ (integrity_pass P w content).2.2.2⟩
      | .done =>
        if (integrity_pass P w content).2.1.file_crc32 ≠ (candidate_header content).crc32 then
          ⟨some (if cpu_firmware_check P w.mem = true then -103 else -3), w.mem,
            [Event.fs_open 0, Event.fs_read true 32 32] ++ (integrity_pass P w content).2.2.2⟩
        else
          match (flash_pass P F w content).1 with
          | .no_exit => ⟨none, (flash_pass P F w content).2.1,
              [Event.fs_open 0, Event.fs_read true 32 32] ++ (integrity_pass P w content).2.2.2
                ++ [Event.fs_rewind, Event.fs_read false 32 32]
                ++ (flash_pass P F w content).2.2⟩
          | .short_read => ⟨some (-4), (flash_pass P F w content).2.1,
              [Event.fs_open 0, Event.fs_read true 32 32] ++ (integrity_pass P w content).2.2.2
                ++ [Event.fs_rewind, Event.fs_read false 32 32]
                ++ (flash_pass P F w content).2.2⟩
          | .done =>
            ⟨some (if cpu_firmware_check P (flashed_memory P F w content) = true then 1 else -5),
              flashed_memory P F w content,
              [Event.fs_open 0, Event.fs_read true 32 32] ++ (integrity_pass P w content).2.2.2
                ++ [Event.fs_rewind, Event.fs_read false 32 32]
                ++ (flash_pass P F w content).2.2
                ++ [Event.page_erase P.BOOTLOADER_SETTINGS_ADDRESS,
                    Event.write_words P.BOOTLOADER_SETTINGS_ADDRESS (content.take 32)]⟩ := by
  unfold check_system
  rw [h]
  simp only [fs_open_some, hdr_read_eq, List.length_take]
  have hm : min 32 content.length = 32 := by omega
  have hc : ¬ (min 32 content.length ≠ 32 ∨ (hdr_of_bytes (content.take 32)).hdrmagic ≠ HDR0_MAGIC) := by
    rw [hm]
    intro h1
    rcases h1 with h1 | h1
    · exact h1 rfl
    · exact h1 hmagic
  simp only [if_true, if_neg hc]
  unfold identical_candidate candidate_header at hid
  rw [if_neg hid, hm]
  have hskip : (fs_read (fs_rewind (integrity_pass P w content).2.1) false 32).1.length = 32 := by
    rw [fs_read_length]
    unfold integrity_pass fs_rewind
    simp only [integrity_loop_content]
    omega
  unfold flashed_memory flash_pass at *
  unfold integrity_pass candidate_header at *
  simp only [hskip]
  cases hip : (integrity_loop P (hdr_of_bytes (List.take 32 content)).binsize
      (hdr_of_bytes (List.take 32 content)).binsize ⟨content, 32, 0xFFFFFFFF⟩ w.sbuffer).1
  · simp only []
    split
    · rfl
    · cases hfp : (flash_loop P F (hdr_of_bytes (List.take 32 content)).binsize
          (hdr_of_bytes (List.take 32 content)).binsize (hdr_of_bytes (List.take 32 content)).binload
          (fs_read (fs_rewind (integrity_loop P (hdr_of_bytes (List.take 32 content)).binsize
            (hdr_of_bytes (List.take 32 content)).binsize ⟨content, 32, 0xFFFFFFFF⟩ w.sbuffer).2.1)
            false 32).2
          (integrity_loop P (hdr_of_bytes (List.take 32 content)).binsize
            (hdr_of_bytes (List.take 32 content)).binsize ⟨content, 32, 0xFFFFFFFF⟩ w.sbuffer).2.2.1
          w.mem).1
      · simp only []
        split <;> simp_all
      · simp
      · simp
  · simp
  · simp

end JesFs

namespace JesFs

/-! ## Facts about the two passes -/

theorem candidate_payload_length (content : List Byte) (hlen : 32 ≤ content.length) :
    (candidate_payload content).length = (candidate_header content).binsize
      ↔ 32 + (candidate_header content).binsize ≤ content.length := by
  unfold candidate_payload
  rw [List.length_take, List.length_drop]
  omega

theorem integrity_pass_done (P : Platform) (w : Device) (content : List Byte)
    (hlen : 32 ≤ content.length) (h : (integrity_pass P w content).1 = LoopExit.done) :
    (candidate_payload content).length = (candidate_header content).binsize
    ∧ (integrity_pass P w content).2.1.file_crc32
        = fs_track_crc32 (candidate_payload content) 0xFFFFFFFF
    ∧ (∀ e ∈ (integrity_pass P w content).2.2.2, e.is_full_read)
    ∧ read_total (integrity_pass P w content).2.2.2 = (candidate_header content).binsize := by
  unfold integrity_pass at *
  obtain ⟨h1, _, h3, h4, h5⟩ := integrity_loop_done P _ _ ⟨content, 32, 0xFFFFFFFF⟩ w.sbuffer hlen h
  exact ⟨(candidate_payload_length content hlen).2 h1, h3, h4, h5⟩

theorem integrity_pass_exit (P : Platform) (hps : 0 < P.CODE_PAGE_SIZE) (w : Device)
    (content : List Byte) (hlen : 32 ≤ content.length) :
    ((candidate_payload content).length = (candidate_header content).binsize →
        (integrity_pass P w content).1 = LoopExit.done)
    ∧ ((candidate_payload content).length ≠ (candidate_header content).binsize →
        (integrity_pass P w content).1 = LoopExit.short_read) := by
  have := integrity_loop_exit P hps (candidate_header content).binsize
    (candidate_header content).binsize ⟨content, 32, 0xFFFFFFFF⟩ w.sbuffer (le_refl _) hlen
  have hiff := candidate_payload_length content hlen
  unfold integrity_pass
  constructor
  · intro h
    exact this.1 (hiff.1 h)
  · intro h
    apply this.2
    show content.length < 32 + (candidate_header content).binsize
    by_contra hc
    exact h (hiff.2 (by omega))

theorem integrity_pass_events (P : Platform) (w : Device) (content : List Byte) :
    ∀ e ∈ (integrity_pass P w content).2.2.2, e.is_flash = false := by
  intro e he
  obtain ⟨n, m, rfl⟩ := integrity_loop_events P _ _ _ _ e he
  rfl

theorem flash_pass_exit (P : Platform) (F : Flash) (hps : 0 < P.CODE_PAGE_SIZE) (w : Device)
    (content : List Byte) (hlen : 32 ≤ content.length)
    (hfull : (candidate_payload content).length = (candidate_header content).binsize) :
    (flash_pass P F w content).1 = LoopExit.done := by
  unfold flash_pass
  apply flash_loop_exit P F hps _ _ _ _ _ _ (le_refl _)
  rw [fs_read_content, fs_read_pos]
  unfold fs_rewind integrity_pass
  simp only [integrity_loop_content]
  have := (candidate_payload_length content hlen).1 hfull
  omega

theorem full_read_not_flash (e : Event) (h : e.is_full_read) : e.is_flash = false := by
  cases e <;> first | rfl | exact absurd h (by simp [Event.is_full_read])

/-! ## Claims about `check_system` -/

/-- C4: the device never flashes an unverified candidate. If the run of
`check_system` contains a page erase or a word write, then the candidate file
exists, has a full 32-byte header with the magic `0xE79B9C4F` and all
`binsize` payload bytes, the CRC of exactly those payload bytes from the seed
`0xFFFFFFFF` equals the declared `crc32`, and the run starts with the open,
the header read and full payload reads of `binsize` bytes in all, every erase
and write coming after them. -/
theorem C4_no_flash_of_unverified_candidate (P : Platform) (F : Flash) (w : Device)
    (h : ∃ e ∈ (check_system P F w).trace, e.is_flash = true) :
    ∃ content reads rest,
      w.disk = some content ∧ 32 ≤ content.length
      ∧ (candidate_header content).hdrmagic = HDR0_MAGIC
      ∧ (candidate_payload content).length = (candidate_header content).binsize
      ∧ fs_track_crc32 (candidate_payload content) 0xFFFFFFFF = (candidate_header content).crc32
      ∧ (check_system P F w).trace
          = Event.fs_open 0 :: Event.fs_read true 32 32 :: (reads ++ rest)
      ∧ (∀ e ∈ reads, e.is_full_read ∧ e.is_flash = false)
      ∧ read_total reads = (candidate_header content).binsize := by
  obtain ⟨e, he, hfl⟩ := h
  cases hd : w.disk with
  | none =>
    rw [(check_system_absent P F w hd).2.2] at he
    simp at he
    subst he
    simp [Event.is_flash] at hfl
  | some content =>
    by_cases hbad : content.length < 32 ∨ (candidate_header content).hdrmagic ≠ HDR0_MAGIC
    · rw [(check_system_bad_header P F w content hd hbad).2.2] at he
      simp at he
      rcases he with he | he <;> subst he <;> simp [Event.is_flash] at hfl
    · have hlen : 32 ≤ content.length := by
        by_contra hc; exact hbad (Or.inl (by omega))
      have hmagic : (candidate_header content).hdrmagic = HDR0_MAGIC := by
        by_contra hc; exact hbad (Or.inr hc)
      by_cases hid : identical_candidate P w content
      · rw [(check_system_identical P F w content hd hlen hmagic hid).2.2] at he
        simp at he
        rcases he with he | he <;> subst he <;> simp [Event.is_flash] at hfl
      · have hpass := check_system_pass P F w content hd hlen hmagic hid
        have hnf := integrity_pass_events P w content
        have noflash : ∀ e ∈ [Event.fs_open 0, Event.fs_read true 32 32]
            ++ (integrity_pass P w content).2.2.2, e.is_flash = false := by
          intro e he
          rcases List.mem_append.1 he with h1 | h1
          · simp at h1
            rcases h1 with h1 | h1 <;> subst h1 <;> rfl
          · exact hnf e h1
        cases hip : (integrity_pass P w content).1 with
        | no_exit =>
          rw [hpass, hip] at he
          simp only [] at he
          rw [noflash e he] at hfl
          exact absurd hfl (by simp)
        | short_read =>
          rw [hpass, hip] at he
          simp only [] at he
          rw [noflash e he] at hfl
          exact absurd hfl (by simp)
        | done =>
          obtain ⟨d1, d2, d3, d4⟩ := integrity_pass_done P w content hlen hip
          by_cases hcrc : (integrity_pass P w content).2.1.file_crc32
              ≠ (candidate_header content).crc32
          · rw [hpass, hip] at he
            simp only [] at he
            rw [if_pos hcrc] at he
            rw [noflash e he] at hfl
            exact absurd hfl (by simp)
          · have hcrc2 := not_not.1 hcrc
            rw [d2] at hcrc2
            have hreads : ∀ e ∈ (integrity_pass P w content).2.2.2,
                e.is_full_read ∧ e.is_flash = false :=
              fun e he => ⟨d3 e he, hnf e he⟩
            rw [hpass, hip]
            simp only []
            rw [if_neg hcrc]
            cases (flash_pass P F w content).1 with
            | no_exit =>
              exact ⟨content, (integrity_pass P w content).2.2.2, _, rfl, hlen, hmagic, d1, hcrc2,
                by simp only [List.cons_append, List.nil_append, List.append_assoc]; rfl,
                hreads, d4⟩
            | short_read =>
              exact ⟨content, (integrity_pass P w content).2.2.2, _, rfl, hlen, hmagic, d1, hcrc2,
                by simp only [List.cons_append, List.nil_append, List.append_assoc]; rfl,
                hreads, d4⟩
            | done =>
              exact ⟨content, (integrity_pass P w content).2.2.2, _, rfl, hlen, hmagic, d1, hcrc2,
                by simp only [List.cons_append, List.nil_append, List.append_assoc]; rfl,
                hreads, d4⟩

end JesFs

namespace JesFs

theorem C4_witness :
    (∃ e ∈ (check_system nrf52840 (nvmc nrf52840) fresh_device).trace, e.is_flash = true)
    ∧ ∃ content reads rest,
      fresh_device.disk = some content ∧ 32 ≤ content.length
      ∧ (candidate_header content).hdrmagic = HDR0_MAGIC
      ∧ (candidate_payload content).length = (candidate_header content).binsize
      ∧ fs_track_crc32 (candidate_payload content) 0xFFFFFFFF = (candidate_header content).crc32
      ∧ (check_system nrf52840 (nvmc nrf52840) fresh_device).trace
          = Event.fs_open 0 :: Event.fs_read true 32 32 :: (reads ++ rest)
      ∧ (∀ e ∈ reads, e.is_full_read ∧ e.is_flash = false)
      ∧ read_total reads = (candidate_header content).binsize :=
  ⟨by decide, C4_no_flash_of_unverified_candidate nrf52840 (nvmc nrf52840) fresh_device
    (by decide)⟩

/-- The three results of a run that got as far as the flashing loop. -/
theorem check_system_flashing (P : Platform) (F : Flash) (w : Device) (content : List Byte)
    (h : w.disk = some content) (hlen : 32 ≤ content.length)
    (hmagic : (candidate_header content).hdrmagic = HDR0_MAGIC)
    (hid : ¬ identical_candidate P w content)
    (hip : (integrity_pass P w content).1 = LoopExit.done)
    (hcrc : (integrity_pass P w content).2.1.file_crc32 = (candidate_header content).crc32) :
    ((flash_pass P F w content).1 = LoopExit.no_exit ∧ (check_system P F w).res = none)
    ∨ ((flash_pass P F w content).1 = LoopExit.short_read
        ∧ (check_system P F w).res = some (-4))
    ∨ ((flash_pass P F w content).1 = LoopExit.done
        ∧ (check_system P F w).res
            = some (if cpu_firmware_check P (flashed_memory P F w content) = true then 1 else -5)
        ∧ (check_system P F w).mem = flashed_memory P F w content
        ∧ (check_system P F w).trace
            = [Event.fs_open 0, Event.fs_read true 32 32] ++ (integrity_pass P w content).2.2.2
                ++ [Event.fs_rewind, Event.fs_read false 32 32]
                ++ (flash_pass P F w content).2.2
                ++ [Event.page_erase P.BOOTLOADER_SETTINGS_ADDRESS,
                    Event.write_words P.BOOTLOADER_SETTINGS_ADDRESS (content.take 32)]) := by
  rw [check_system_pass P F w content h hlen hmagic hid, hip]
  simp only []
  rw [if_neg (not_not.2 hcrc)]
  cases (flash_pass P F w content).1 with
  | no_exit => left; exact ⟨rfl, rfl⟩
  | short_read => right; left; exact ⟨rfl, rfl⟩
  | done => right; right; exact ⟨rfl, rfl, rfl, rfl⟩

/-- The results of a run that stopped in the integrity pass. -/
theorem check_system_rejected (P : Platform) (F : Flash) (w : Device) (content : List Byte)
    (h : w.disk = some content) (hlen : 32 ≤ content.length)
    (hmagic : (candidate_header content).hdrmagic = HDR0_MAGIC)
    (hid : ¬ identical_candidate P w content) :
    ((integrity_pass P w content).1 = LoopExit.no_exit → (check_system P F w).res = none)
    ∧ ((integrity_pass P w content).1 = LoopExit.short_read →
        (check_system P F w).res
          = some (if cpu_firmware_check P w.mem = true then -102 else -2))
    ∧ ((integrity_pass P w content).1 = LoopExit.done →
        (integrity_pass P w content).2.1.file_crc32 ≠ (candidate_header content).crc32 →
        (check_system P F w).res
          = some (if cpu_firmware_check P w.mem = true then -103 else -3))
    ∧ (((integrity_pass P w content).1 = LoopExit.done →
        (integrity_pass P w content).2.1.file_crc32 ≠ (candidate_header content).crc32) →
        (check_system P F w).mem = w.mem
        ∧ ∀ e ∈ (check_system P F w).trace, e.is_flash = false) := by
  have hnf := integrity_pass_events P w content
  have noflash : ∀ e ∈ [Event.fs_open 0, Event.fs_read true 32 32]
      ++ (integrity_pass P w content).2.2.2, e.is_flash = false := by
    intro e he
    rcases List.mem_append.1 he with h1 | h1
    · simp at h1
      rcases h1 with h1 | h1 <;> subst h1 <;> rfl
    · exact hnf e h1
  rw [check_system_pass P F w content h hlen hmagic hid]
  cases hip : (integrity_pass P w content).1 with
  | no_exit => exact ⟨fun _ => rfl, by simp, by simp, fun _ => ⟨rfl, noflash⟩⟩
  | short_read => exact ⟨by simp, fun _ => rfl, by simp, fun _ => ⟨rfl, noflash⟩⟩
  | done =>
    refine ⟨by simp, by simp, ?_, ?_⟩
    · intro _ hc
      simp only []
      rw [if_pos hc]
    · intro hc
      simp only []
      rw [if_pos (hc rfl)]
      exact ⟨rfl, noflash⟩

/-- C5: fallback rule of `check_system`. For an absent candidate, a malformed
header (fewer than 32 bytes read or wrong magic), a short read in the
integrity pass, or a streamed CRC different from the declared one, the result
is 0, -101, -102, -103 when the installed image is valid and -206, -1, -2, -3
when it is not; in all these cases program memory is unchanged and the run
contains no erase and no write. A header declaring `binsize = 100` followed by
90 payload bytes gives -102 with and -2 without a valid installed image. -/
theorem C5_fallback_rule (P : Platform) (F : Flash) (w : Device)
    (hps : 0 < P.CODE_PAGE_SIZE) :
    ((check_system P F w).res ∈ [some 0, some (-101), some (-102), some (-103),
        some (-206), some (-1), some (-2), some (-3)] →
      (check_system P F w).mem = w.mem
      ∧ ∀ e ∈ (check_system P F w).trace, e.is_flash = false)
    ∧ (w.disk = none →
        (check_system P F w).res = some (if cpu_firmware_check P w.mem = true then 0 else -206))
    ∧ (∀ content, w.disk = some content →
        ((content.length < 32 ∨ (candidate_header content).hdrmagic ≠ HDR0_MAGIC) →
          (check_system P F w).res
            = some (if cpu_firmware_check P w.mem = true then -101 else -1))
        ∧ (32 ≤ content.length → (candidate_header content).hdrmagic = HDR0_MAGIC →
            ¬ identical_candidate P w content →
            ((candidate_payload content).length ≠ (candidate_header content).binsize →
              (check_system P F w).res
                = some (if cpu_firmware_check P w.mem = true then -102 else -2))
            ∧ ((candidate_payload content).length = (candidate_header content).binsize →
                fs_track_crc32 (candidate_payload content) 0xFFFFFFFF
                  ≠ (candidate_header content).crc32 →
                (check_system P F w).res
                  = some (if cpu_firmware_check P w.mem = true then -103 else -3))
            ∧ ((candidate_header content).binsize = 100 →
                (content.drop 32).length = 90 →
                (check_system P F w).res
                  = some (if cpu_firmware_check P w.mem = true then -102 else -2)))) := by
  refine ⟨?_, fun hd => (check_system_absent P F w hd).1, ?_⟩
  · intro hres
    cases hd : w.disk with
    | none =>
      obtain ⟨_, h2, h3⟩ := check_system_absent P F w hd
      refine ⟨h2, ?_⟩
      rw [h3]
      intro e he
      simp at he
      subst he
      rfl
    | some content =>
      by_cases hbad : content.length < 32 ∨ (candidate_header content).hdrmagic ≠ HDR0_MAGIC
      · obtain ⟨_, h2, h3⟩ := check_system_bad_header P F w content hd hbad
        refine ⟨h2, ?_⟩
        rw [h3]
        intro e he
        simp at he
        rcases he with he | he <;> subst he <;> rfl
      · have hlen : 32 ≤ content.length := by
          by_contra hc; exact hbad (Or.inl (by omega))
        have hmagic : (candidate_header content).hdrmagic = HDR0_MAGIC := by
          by_contra hc; exact hbad (Or.inr hc)
        by_cases hid : identical_candidate P w content
        · obtain ⟨_, h2, h3⟩ := check_system_identical P F w content hd hlen hmagic hid
          refine ⟨h2, ?_⟩
          rw [h3]
          intro e he
          simp at he
          rcases he with he | he <;> subst he <;> rfl
        · obtain ⟨_, _, _, r4⟩ := check_system_rejected P F w content hd hlen hmagic hid
          apply r4
          intro hip hcrc
          rcases check_system_flashing P F w content hd hlen hmagic hid hip hcrc with
            ⟨_, h1⟩ | ⟨_, h1⟩ | ⟨_, h1, _⟩
          · rw [h1] at hres; simp at hres
          · rw [h1] at hres; simp at hres
          · rw [h1] at hres
            split at hres <;> simp at hres
  · intro content hd
    refine ⟨fun hbad => (check_system_bad_header P F w content hd hbad).1, ?_⟩
    intro hlen hmagic hid
    obtain ⟨_, r2, r3, _⟩ := check_system_rejected P F w content hd hlen hmagic hid
    have hex := integrity_pass_exit P hps w content hlen
    refine ⟨fun hshort => r2 (hex.2 hshort), ?_, ?_⟩
    · intro hfull hcrc
      have hdone := hex.1 hfull
      apply r3 hdone
      rw [(integrity_pass_done P w content hlen hdone).2.1]
      exact hcrc
    · intro h100 h90
      apply r2
      apply hex.2
      unfold candidate_payload
      rw [List.length_take, h90, h100]
      decide

end JesFs

namespace JesFs

theorem C5_witness :
    (0 < nrf52840.CODE_PAGE_SIZE
      ∧ cpu_firmware_check nrf52840 (running_device (some truncated_image)).mem = true
      ∧ (candidate_header truncated_image).binsize = 100
      ∧ (truncated_image.drop 32).length = 90
      ∧ (check_system nrf52840 (nvmc nrf52840) (running_device (some truncated_image))).res
          = some (if cpu_firmware_check nrf52840 (running_device (some truncated_image)).mem
              = true then -102 else -2))
    ∧ (cpu_firmware_check nrf52840 (empty_device (some truncated_image)).mem = false
      ∧ (check_system nrf52840 (nvmc nrf52840) (empty_device (some truncated_image))).res
          = some (if cpu_firmware_check nrf52840 (empty_device (some truncated_image)).mem
              = true then -102 else -2)) :=
  ⟨⟨by decide, by decide, by decide, by decide,
    ((((C5_fallback_rule nrf52840 (nvmc nrf52840) (running_device (some truncated_image))
      (by decide)).2.2 truncated_image rfl).2 (by decide) (by decide) (by decide)).2.2
      (by decide) (by decide))⟩,
   ⟨by decide,
    ((((C5_fallback_rule nrf52840 (nvmc nrf52840) (empty_device (some truncated_image))
      (by decide)).2.2 truncated_image rfl).2 (by decide) (by decide) (by decide)).2.2
      (by decide) (by decide))⟩⟩

/-- C6: identical-candidate shortcut. When the candidate file opens, its
header is read in full with the right magic, and its `timestamp` and `crc32`
equal those of the installed record, then with a valid installed image
`check_system` returns 0 after the open and the header read alone (no erase,
no write, no read of the payload) and leaves program memory as it was; with an
invalid installed image the shortcut is not taken and the result is not 0. -/
theorem C6_identical_shortcut (P : Platform) (F : Flash) (w : Device) (content : List Byte)
    (hd : w.disk = some content) (hlen : 32 ≤ content.length)
    (hmagic : (candidate_header content).hdrmagic = HDR0_MAGIC)
    (hts : (candidate_header content).timestamp = (pbl_memory P w.mem).timestamp)
    (hcrc : (candidate_header content).crc32 = (pbl_memory P w.mem).crc32) :
    (cpu_firmware_check P w.mem = true →
      (check_system P F w).res = some 0
      ∧ (check_system P F w).trace = [Event.fs_open 0, Event.fs_read true 32 32]
      ∧ (check_system P F w).mem = w.mem
      ∧ pbl_memory P (check_system P F w).mem = pbl_memory P w.mem)
    ∧ (cpu_firmware_check P w.mem = false →
      ¬ identical_candidate P w content ∧ (check_system P F w).res ≠ some 0) := by
  constructor
  · intro hv
    obtain ⟨h1, h2, h3⟩ := check_system_identical P F w content hd hlen hmagic ⟨hts, hcrc, hv⟩
    exact ⟨h1, h3, h2, by rw [h2]⟩
  · intro hv
    have hid : ¬ identical_candidate P w content := by
      intro h
      rw [h.2.2] at hv
      exact absurd hv (by simp)
    refine ⟨hid, ?_⟩
    obtain ⟨r1, r2, r3, _⟩ := check_system_rejected P F w content hd hlen hmagic hid
    cases hip : (integrity_pass P w content).1 with
    | no_exit => rw [r1 hip]; simp
    | short_read => rw [r2 hip, hv]; simp
    | done =>
      by_cases hc : (integrity_pass P w content).2.1.file_crc32 = (candidate_header content).crc32
      · rcases check_system_flashing P F w content hd hlen hmagic hid hip hc with
          ⟨_, h1⟩ | ⟨_, h1⟩ | ⟨_, h1, _⟩
        · rw [h1]; simp
        · rw [h1]; simp
        · rw [h1]
          split <;> simp
      · rw [r3 hip hc, hv]; simp

end JesFs

namespace JesFs

theorem C6_witness :
    ((running_device (some (mk_image 0x2000 5 32 [9, 8, 7]))).disk
        = some (mk_image 0x2000 5 32 [9, 8, 7])
      ∧ cpu_firmware_check nrf52840 (running_device (some (mk_image 0x2000 5 32 [9, 8, 7]))).mem
          = true
      ∧ (check_system nrf52840 (nvmc nrf52840)
          (running_device (some (mk_image 0x2000 5 32 [9, 8, 7])))).res = some 0)
    ∧ (cpu_firmware_check nrf52840 (damaged_device (some (mk_image 0x2000 5 32 [9, 8, 7]))).mem
          = false
      ∧ (check_system nrf52840 (nvmc nrf52840)
          (damaged_device (some (mk_image 0x2000 5 32 [9, 8, 7])))).res ≠ some 0) :=
  ⟨⟨rfl, by decide,
    ((C6_identical_shortcut nrf52840 (nvmc nrf52840)
      (running_device (some (mk_image 0x2000 5 32 [9, 8, 7]))) (mk_image 0x2000 5 32 [9, 8, 7])
      rfl (by decide) (by decide) (by decide) (by decide)).1 (by decide)).1⟩,
   ⟨by decide,
    ((C6_identical_shortcut nrf52840 (nvmc nrf52840)
      (damaged_device (some (mk_image 0x2000 5 32 [9, 8, 7]))) (mk_image 0x2000 5 32 [9, 8, 7])
      rfl (by decide) (by decide) (by decide) (by decide)).2 (by decide)).2⟩⟩

/-! ## `main` -/

theorem wait_loop_length (i : Nat) : (wait_loop i).length = 2 * i := by
  induction i with
  | zero => rfl
  | succ i ih => simp [wait_loop, ih]; omega

theorem app_start_not_mem_wait_loop (i : Nat) : Event.app_start ∉ wait_loop i := by
  induction i with
  | zero => simp [wait_loop]
  | succ i ih => simp [wait_loop, ih]

theorem app_start_not_mem_blink_loop (i : Nat) : Event.app_start ∉ blink_loop i := by
  induction i with
  | zero => simp [blink_loop]
  | succ i ih => simp [blink_loop, ih]

theorem system_reset_not_mem_blink_loop (i : Nat) : Event.system_reset ∉ blink_loop i := by
  induction i with
  | zero => simp [blink_loop]
  | succ i ih => simp [blink_loop, ih]

theorem boot_tail_nonneg (r : Int) (h : 0 ≤ r) :
    boot_tail r = [Event.delay_ms 5, Event.app_start] := by
  have h1 : ¬ r < 0 := by omega
  simp [boot_tail, main_classify, main_finish, h1]

theorem boot_tail_recoverable (r : Int) (h1 : -199 ≤ r) (h2 : r ≤ -100) :
    main_classify r = (2, blink_loop 5)
    ∧ boot_tail r = blink_loop 5 ++ [Event.delay_ms 5, Event.app_start] := by
  have a1 : r < 0 := by omega
  have a2 : ¬ r ≤ -200 := by omega
  simp [boot_tail, main_classify, main_finish, a1, a2, h2]

theorem boot_tail_fatal (r : Int) (h : r ≤ -200 ∨ (-99 ≤ r ∧ r ≤ -1)) :
    main_classify r = (r, []) ∧ boot_tail r = wait_loop 60 ++ [Event.system_reset] := by
  rcases h with h | ⟨h1, h2⟩
  · have a1 : r < 0 := by omega
    simp [boot_tail, main_classify, main_finish, a1, h]
  · have a1 : r < 0 := by omega
    have a2 : ¬ r ≤ -200 := by omega
    have a3 : ¬ r ≤ -100 := by omega
    simp [boot_tail, main_classify, main_finish, a1, a2, a3]

theorem blink_loop_eq (i : Nat) :
    blink_loop i
      = (List.replicate i [Event.led_invert, Event.delay_ms 100, Event.led_invert,
          Event.delay_ms 100, Event.led_invert, Event.delay_ms 800]).flatten := by
  induction i with
  | zero => rfl
  | succ i ih => rw [blink_loop, ih, List.replicate_succ, List.flatten_cons]

theorem wait_loop_eq (i : Nat) :
    wait_loop i = (List.replicate i [Event.led_invert, Event.delay_ms 1000]).flatten := by
  induction i with
  | zero => rfl
  | succ i ih => rw [wait_loop, ih, List.replicate_succ, List.flatten_cons]

theorem boot_main_eq (P : Platform) (F : Flash) (w : Device) (r : Int)
    (h : (check_system P F w).res = some r) :
    boot_main P F w = some ((check_system P F w).trace ++ boot_tail r) := by
  unfold boot_main boot_tail
  rw [h]
  simp only [List.append_assoc]

/-- C8: boot-or-halt classification in `main` (release build). For every
result `r` of `check_system`, `main` goes on with the calls `boot_tail r`, and
it starts the application exactly when `r >= 0` or `-199 <= r <= -100`.
For `r >= 0` it does so directly (5 ms delay, start). For `-199 <= r <= -100`
it first runs five blink cycles, each one LED toggle, 100 ms, LED toggle,
100 ms, LED toggle, 800 ms (15 toggles and 5000 ms in all), rewrites `res` to
2 and then starts the application. For every other `r` (`r <= -200` or
`-99 <= r <= -1`) `res` stays as it is, `main` runs the wait loop of 60
passes, each one LED toggle and a delay of 1000 ms, then calls
`NVIC_SystemReset` and never starts the application. A run of `check_system`
that returns -5 (verify failed) or -4 ends in that wait and reset, whatever
the state of the installed image before. -/
theorem C8_boot_or_halt (r : Int) :
    (∀ (P : Platform) (F : Flash) (w : Device), (check_system P F w).res = some r →
        boot_main P F w = some ((check_system P F w).trace ++ boot_tail r))
    ∧ (Event.app_start ∈ boot_tail r ↔ (0 ≤ r ∨ (-199 ≤ r ∧ r ≤ -100)))
    ∧ (Event.system_reset ∈ boot_tail r ↔ (r ≤ -200 ∨ (-99 ≤ r ∧ r ≤ -1)))
    ∧ (0 ≤ r → main_classify r = (r, [])
        ∧ boot_tail r = [Event.delay_ms 5, Event.app_start])
    ∧ (-199 ≤ r ∧ r ≤ -100 →
        main_classify r
          = (2, (List.replicate 5 [Event.led_invert, Event.delay_ms 100, Event.led_invert,
              Event.delay_ms 100, Event.led_invert, Event.delay_ms 800]).flatten)
        ∧ boot_tail r
          = (List.replicate 5 [Event.led_invert, Event.delay_ms 100, Event.led_invert,
              Event.delay_ms 100, Event.led_invert, Event.delay_ms 800]).flatten
            ++ [Event.delay_ms 5, Event.app_start]
        ∧ (boot_tail r).length = 32
        ∧ (boot_tail r).count Event.led_invert = 15
        ∧ (boot_tail r).count (Event.delay_ms 100) = 10
        ∧ (boot_tail r).count (Event.delay_ms 800) = 5)
    ∧ (r ≤ -200 ∨ (-99 ≤ r ∧ r ≤ -1) →
        main_classify r = (r, [])
        ∧ boot_tail r
          = (List.replicate 60 [Event.led_invert, Event.delay_ms 1000]).flatten
            ++ [Event.system_reset]
        ∧ (boot_tail r).length = 121
        ∧ (boot_tail r).count Event.led_invert = 60
        ∧ (boot_tail r).count (Event.delay_ms 1000) = 60)
    ∧ (∀ (P : Platform) (F : Flash) (w : Device),
        (check_system P F w).res = some (-5) ∨ (check_system P F w).res = some (-4) →
        boot_main P F w
          = some ((check_system P F w).trace
              ++ (List.replicate 60 [Event.led_invert, Event.delay_ms 1000]).flatten
              ++ [Event.system_reset])) := by
  have hcases : 0 ≤ r ∨ (-199 ≤ r ∧ r ≤ -100) ∨ (r ≤ -200 ∨ (-99 ≤ r ∧ r ≤ -1)) := by omega
  have hnn : 0 ≤ r → main_classify r = (r, []) := by
    intro h
    have h1 : ¬ r < 0 := by omega
    simp [main_classify, h1]
  refine ⟨fun P F w h => boot_main_eq P F w r h, ?_, ?_,
    fun h => ⟨hnn h, boot_tail_nonneg r h⟩, fun h => ?_, fun h => ?_, ?_⟩
  · rcases hcases with h | h | h
    · rw [boot_tail_nonneg r h]
      simp [h]
    · rw [(boot_tail_recoverable r h.1 h.2).2]
      simp [h]
    · rw [(boot_tail_fatal r h).2]
      have := app_start_not_mem_wait_loop 60
      simp [this]
      omega
  · rcases hcases with h | h | h
    · rw [boot_tail_nonneg r h]
      simp
      omega
    · rw [(boot_tail_recoverable r h.1 h.2).2]
      have := system_reset_not_mem_blink_loop 5
      simp [this]
      omega
    · rw [(boot_tail_fatal r h).2]
      simp [h]
  · have h1 := (boot_tail_recoverable r h.1 h.2).1
    have h2 := (boot_tail_recoverable r h.1 h.2).2
    rw [blink_loop_eq] at h1 h2
    rw [h2]
    exact ⟨h1, rfl, by decide, by decide, by decide, by decide⟩
  · have h1 := (boot_tail_fatal r h).1
    have h2 := (boot_tail_fatal r h).2
    rw [wait_loop_eq] at h2
    rw [h2]
    exact ⟨h1, rfl, by decide, by decide, by decide⟩
  · intro P F w h
    rw [← wait_loop_eq]
    unfold boot_main
    rcases h with h | h
    · rw [h]
      have := boot_tail_fatal (-5) (Or.inr (by decide))
      simp only [this.1, List.append_nil]
      simp [main_finish]
    · rw [h]
      have := boot_tail_fatal (-4) (Or.inr (by decide))
      simp only [this.1, List.append_nil]
      simp [main_finish]

end JesFs

namespace JesFs

/-- C7: post-write verify failure. For a candidate that is not identical to
the installed image and passes the integrity pass, and any behaviour of the
flash: if after the run the installed record holds the candidate header and
the region `[binload, binload + binsize)` read back differs from the candidate
payload in exactly one byte, then the recomputed CRC differs from the stored
`crc32` and `check_system` returns -5. In general, replacing any one byte of
any payload by a different byte changes `fs_track_crc32` from the seed
`0xFFFFFFFF`. -/
theorem C7_single_byte_fault_gives_verify_failure (P : Platform) (F : Flash) (w : Device)
    (content : List Byte) (i : Nat) (b : Byte)
    (hps : 0 < P.CODE_PAGE_SIZE)
    (hd : w.disk = some content) (hlen : 32 ≤ content.length)
    (hmagic : (candidate_header content).hdrmagic = HDR0_MAGIC)
    (hid : ¬ identical_candidate P w content)
    (hfull : (candidate_payload content).length = (candidate_header content).binsize)
    (hcrc : fs_track_crc32 (candidate_payload content) 0xFFFFFFFF
      = (candidate_header content).crc32)
    (hi : i < (candidate_payload content).length)
    (hb : b ≠ (candidate_payload content)[i])
    (hrec : mem_read (check_system P F w).mem P.BOOTLOADER_SETTINGS_ADDRESS 32
      = content.take 32)
    (hmem : mem_read (check_system P F w).mem (candidate_header content).binload
      (candidate_header content).binsize = (candidate_payload content).set i b) :
    fs_track_crc32 (mem_read (check_system P F w).mem (candidate_header content).binload
        (candidate_header content).binsize) 0xFFFFFFFF ≠ (candidate_header content).crc32
    ∧ (check_system P F w).res = some (-5)
    ∧ (∀ (Q : List Byte) (j : Nat) (hj : j < Q.length) (c : Byte), c ≠ Q[j] →
        fs_track_crc32 (Q.set j c) 0xFFFFFFFF ≠ fs_track_crc32 Q 0xFFFFFFFF) := by
  have hne : fs_track_crc32 (mem_read (check_system P F w).mem (candidate_header content).binload
      (candidate_header content).binsize) 0xFFFFFFFF ≠ (candidate_header content).crc32 := by
    rw [hmem, ← hcrc]
    exact fs_track_crc32_set_ne _ i hi b _ (by decide) hb
  refine ⟨hne, ?_, fun Q j hj c hc => fs_track_crc32_set_ne Q j hj c _ (by decide) hc⟩
  have hdone := (integrity_pass_exit P hps w content hlen).1 hfull
  have hc2 : (integrity_pass P w content).2.1.file_crc32 = (candidate_header content).crc32 := by
    rw [(integrity_pass_done P w content hlen hdone).2.1]; exact hcrc
  have hfl := flash_pass_exit P F hps w content hlen hfull
  rcases check_system_flashing P F w content hd hlen hmagic hid hdone hc2 with
    ⟨h1, _⟩ | ⟨h1, _⟩ | ⟨_, h1, h2, _⟩
  · rw [hfl] at h1; exact absurd h1 (by simp)
  · rw [hfl] at h1; exact absurd h1 (by simp)
  · rw [h1]
    rw [h2] at hrec hne
    have hchk : cpu_firmware_check P (flashed_memory P F w content) = false := by
      unfold cpu_firmware_check pbl_memory
      rw [hrec]
      unfold candidate_header at hne
      simp only [hne, if_false]
      split <;> rfl
    rw [hchk]
    rfl

end JesFs

namespace JesFs

theorem C7_witness :
    mem_read (check_system nrf52840 (nvmc_stuck nrf52840 0x1002 0xEE) fresh_device).mem
        nrf52840.BOOTLOADER_SETTINGS_ADDRESS 32
      = (mk_image 0x1000 77 32 [1, 2, 3, 4, 5]).take 32
    ∧ mem_read (check_system nrf52840 (nvmc_stuck nrf52840 0x1002 0xEE) fresh_device).mem
        (candidate_header (mk_image 0x1000 77 32 [1, 2, 3, 4, 5])).binload
        (candidate_header (mk_image 0x1000 77 32 [1, 2, 3, 4, 5])).binsize
      = (candidate_payload (mk_image 0x1000 77 32 [1, 2, 3, 4, 5])).set 2 0xEE
    ∧ (check_system nrf52840 (nvmc_stuck nrf52840 0x1002 0xEE) fresh_device).res = some (-5) :=
  ⟨by decide, by decide,
    (C7_single_byte_fault_gives_verify_failure nrf52840 (nvmc_stuck nrf52840 0x1002 0xEE)
      fresh_device (mk_image 0x1000 77 32 [1, 2, 3, 4, 5]) 2 0xEE (by decide) rfl (by decide)
      (by decide) (by decide) (by decide) (by decide) (by decide) (by decide) (by decide)
      (by decide)).2.1⟩

theorem C8_witness :
    (check_system nrf52840 (nvmc nrf52840)
        (running_device (some (mk_image 0x2000 77 64 [1, 2, 3, 4, 5])))).res = some (-5)
    ∧ boot_main nrf52840 (nvmc nrf52840)
        (running_device (some (mk_image 0x2000 77 64 [1, 2, 3, 4, 5])))
      = some ((check_system nrf52840 (nvmc nrf52840)
          (running_device (some (mk_image 0x2000 77 64 [1, 2, 3, 4, 5])))).trace
          ++ (List.replicate 60 [Event.led_invert, Event.delay_ms 1000]).flatten
          ++ [Event.system_reset])
    ∧ boot_tail (-103)
      = (List.replicate 5 [Event.led_invert, Event.delay_ms 100, Event.led_invert,
          Event.delay_ms 100, Event.led_invert, Event.delay_ms 800]).flatten
        ++ [Event.delay_ms 5, Event.app_start]
    ∧ boot_tail (-103)
      = [Event.led_invert, Event.delay_ms 100, Event.led_invert, Event.delay_ms 100,
          Event.led_invert, Event.delay_ms 800,
         Event.led_invert, Event.delay_ms 100, Event.led_invert, Event.delay_ms 100,
          Event.led_invert, Event.delay_ms 800,
         Event.led_invert, Event.delay_ms 100, Event.led_invert, Event.delay_ms 100,
          Event.led_invert, Event.delay_ms 800,
         Event.led_invert, Event.delay_ms 100, Event.led_invert, Event.delay_ms 100,
          Event.led_invert, Event.delay_ms 800,
         Event.led_invert, Event.delay_ms 100, Event.led_invert, Event.delay_ms 100,
          Event.led_invert, Event.delay_ms 800,
         Event.delay_ms 5, Event.app_start]
    ∧ (boot_tail (-5)).take 4
      = [Event.led_invert, Event.delay_ms 1000, Event.led_invert, Event.delay_ms 1000]
    ∧ (boot_tail (-5)).drop 118
      = [Event.led_invert, Event.delay_ms 1000, Event.system_reset] :=
  ⟨by decide,
   (C8_boot_or_halt 0).2.2.2.2.2.2 nrf52840 (nvmc nrf52840)
     (running_device (some (mk_image 0x2000 77 64 [1, 2, 3, 4, 5]))) (Or.inl (by decide)),
   ((C8_boot_or_halt (-103)).2.2.2.2.1 (by decide)).2.1,
   by decide, by decide, by decide⟩

/-- C10: a candidate header with the right magic but `hdrsize` 64 instead of
32, on a device with a valid installed image: `check_system` does not reject
it as malformed (a wrong magic gives -101 without any erase or write) but
erases and writes program memory, then fails its own re-check of the record
it wrote and returns -5, and the installed image is no longer valid. -/
theorem C10_candidate_hdrsize_not_checked :
    (candidate_header (mk_image 0x2000 77 64 [1, 2, 3, 4, 5])).hdrmagic = HDR0_MAGIC
    ∧ (candidate_header (mk_image 0x2000 77 64 [1, 2, 3, 4, 5])).hdrsize = 64
    ∧ cpu_firmware_check nrf52840
        (running_device (some (mk_image 0x2000 77 64 [1, 2, 3, 4, 5]))).mem = true
    ∧ (check_system nrf52840 (nvmc nrf52840)
        (running_device (some (mk_image 0x2000 77 64 [1, 2, 3, 4, 5])))).res = some (-5)
    ∧ (∃ e ∈ (check_system nrf52840 (nvmc nrf52840)
        (running_device (some (mk_image 0x2000 77 64 [1, 2, 3, 4, 5])))).trace,
        e.is_flash = true)
    ∧ cpu_firmware_check nrf52840 (check_system nrf52840 (nvmc nrf52840)
        (running_device (some (mk_image 0x2000 77 64 [1, 2, 3, 4, 5])))).mem = false
    ∧ (check_system nrf52840 (nvmc nrf52840)
        (running_device (some ((0 : Byte) :: (mk_image 0x2000 77 64 [1, 2, 3, 4, 5]).tail)))).res
        = some (-101)
    ∧ (check_system nrf52840 (nvmc nrf52840)
        (running_device (some ((0 : Byte) :: (mk_image 0x2000 77 64 [1, 2, 3, 4, 5]).tail)))).trace
        = [Event.fs_open 0, Event.fs_read true 32 32] := by
  refine ⟨by decide, by decide, by decide, by decide, by decide, by decide, by decide, by decide⟩

end JesFs

namespace JesFs

/-! ## The flash model and the flashing loop on page-aligned images -/

theorem nvmc_write_inside (P : Platform) (m : Memory) (a : Nat) (src : List Byte) (x : Nat)
    (ha : a + src.length ≤ 2 ^ 32) (h1 : a ≤ x) (h2 : x < a + src.length) :
    (nvmc P).write_words m a src x = src.getD (x - a) 0 := by
  have hmod : a % 2 ^ 32 = a := Nat.mod_eq_of_lt (by omega)
  simp only [nvmc, hmod]
  rw [if_pos ⟨h1, h2, by omega⟩]

theorem nvmc_write_outside (P : Platform) (m : Memory) (a : Nat) (src : List Byte) (x : Nat)
    (ha : a + src.length ≤ 2 ^ 32) (h : x < a ∨ a + src.length ≤ x) :
    (nvmc P).write_words m a src x = m x := by
  by_cases hz : src.length = 0
  · simp only [nvmc, hz]
    rw [if_neg (by omega), if_neg (by omega)]
  · have hmod : a % 2 ^ 32 = a := Nat.mod_eq_of_lt (by omega)
    simp only [nvmc, hmod]
    rw [if_neg (by omega), if_neg (by omega)]

theorem nvmc_erase_other (P : Platform) (m : Memory) (a x : Nat)
    (h : x / P.CODE_PAGE_SIZE ≠ a / P.CODE_PAGE_SIZE) : (nvmc P).page_erase m a x = m x := by
  simp only [nvmc]
  rw [if_neg h]

theorem aligned_add_div (ps a k : Nat) (hps : 0 < ps) (ha : a % ps = 0) (hk : k < ps) :
    (a + k) / ps = a / ps := by
  have h1 : a = ps * (a / ps) := by
    have := Nat.div_add_mod a ps
    omega
  conv_lhs => rw [h1, Nat.add_comm, Nat.add_mul_div_left _ _ hps, Nat.div_eq_of_lt hk]
  simp

theorem lt_of_page_lt (ps x a : Nat) (h : x / ps < a / ps) : x < a :=
  Nat.lt_of_div_lt_div h

theorem round4_le (ps bl : Nat) (h4 : 4 ∣ ps) (h : bl ≤ ps) : 4 * ((bl + 3) / 4) ≤ ps := by
  obtain ⟨q, rfl⟩ := h4
  omega

theorem buf_store_getD (sb data : List Byte) (k : Nat) (hk : k < data.length) :
    ((buf_store sb data).take (4 * ((data.length + 3) / 4))).getD k 0 = data.getD k 0 := by
  unfold buf_store
  have h1 : k < 4 * ((data.length + 3) / 4) := by omega
  rw [List.getD_eq_getElem?_getD, List.getD_eq_getElem?_getD, List.getElem?_take_of_lt h1,
    List.getElem?_append_left hk]

theorem buf_store_take_length (sb data : List Byte) :
    data.length ≤ ((buf_store sb data).take (4 * ((data.length + 3) / 4))).length
    ∧ ((buf_store sb data).take (4 * ((data.length + 3) / 4))).length
        ≤ 4 * ((data.length + 3) / 4) := by
  unfold buf_store
  rw [List.length_take, List.length_append]
  omega

theorem fs_read_getD (d : FS_DESC) (len k : Nat) (hk : k < len) :
    (fs_read d true len).1.getD k 0 = d.content.getD (d.pos + k) 0 := by
  rw [fs_read_data, List.getD_eq_getElem?_getD, List.getD_eq_getElem?_getD,
    List.getElem?_take_of_lt hk, List.getElem?_drop]

/-- One pass of the flashing loop on an aligned address: the chunk is in
memory afterwards and lower pages are untouched. -/
theorem flash_chunk (P : Platform) (h4 : 4 ∣ P.CODE_PAGE_SIZE)
    (fadr : Nat) (d : FS_DESC) (sb : List Byte) (mem : Memory) (bl : Nat)
    (hbl : bl ≤ P.CODE_PAGE_SIZE) (ha : fadr % P.CODE_PAGE_SIZE = 0)
    (hw : fadr + bl ≤ 2 ^ 32)
    (hs : (fs_read d true bl).1.length = bl) :
    (∀ k, k < bl →
      (nvmc P).write_words ((nvmc P).page_erase mem fadr) fadr
        ((buf_store sb (fs_read d true bl).1).take (4 * ((bl + 3) / 4))) (fadr + k)
        = d.content.getD (d.pos + k) 0)
    ∧ (∀ x, x / P.CODE_PAGE_SIZE < fadr / P.CODE_PAGE_SIZE →
      (nvmc P).write_words ((nvmc P).page_erase mem fadr) fadr
        ((buf_store sb (fs_read d true bl).1).take (4 * ((bl + 3) / 4))) x = mem x) := by
  have hlen := buf_store_take_length sb (fs_read d true bl).1
  rw [hs] at hlen
  have hr := round4_le P.CODE_PAGE_SIZE bl h4 hbl
  have h4a : fadr % 4 = 0 :=
    Nat.mod_eq_zero_of_dvd (Nat.dvd_trans h4 (Nat.dvd_of_mod_eq_zero ha))
  have hfit : fadr + ((buf_store sb (fs_read d true bl).1).take (4 * ((bl + 3) / 4))).length
      ≤ 2 ^ 32 := by omega
  constructor
  · intro k hk
    rw [nvmc_write_inside P _ _ _ _ hfit (by omega) (by omega)]
    have e : fadr + k - fadr = k := by omega
    rw [e]
    have := buf_store_getD sb (fs_read d true bl).1 k (by rw [hs]; exact hk)
    rw [hs] at this
    rw [this, fs_read_getD d bl k hk]
  · intro x hx
    have hlt := lt_of_page_lt _ _ _ hx
    rw [nvmc_write_outside P _ _ _ _ hfit (Or.inl hlt), nvmc_erase_other P _ _ _ (by omega)]

/-- The flashing loop with the faithful flash on a page-aligned destination:
it ends, the bytes read are in memory at their destination, lower pages are
untouched, and every chunk lies in the page erased for it. -/
theorem flash_loop_nvmc (P : Platform) (hps : 0 < P.CODE_PAGE_SIZE) (h4 : 4 ∣ P.CODE_PAGE_SIZE)
    (fuel total_len fadr : Nat) (d : FS_DESC) (sb : List Byte) (mem : Memory)
    (hf : total_len ≤ fuel) (ha : fadr % P.CODE_PAGE_SIZE = 0)
    (hw : fadr + total_len ≤ 2 ^ 32) (hle : d.pos + total_len ≤ d.content.length) :
    (∀ k, k < total_len →
      (flash_loop P (nvmc P) fuel total_len fadr d sb mem).2.1 (fadr + k)
        = d.content.getD (d.pos + k) 0)
    ∧ (∀ x, x / P.CODE_PAGE_SIZE < fadr / P.CODE_PAGE_SIZE →
      (flash_loop P (nvmc P) fuel total_len fadr d sb mem).2.1 x = mem x)
    ∧ chunks_erased P.CODE_PAGE_SIZE
        (flash_loop P (nvmc P) fuel total_len fadr d sb mem).2.2 = true := by
  induction fuel generalizing total_len fadr d sb mem with
  | zero =>
    have : total_len = 0 := by omega
    subst this
    rw [flash_loop_zero]
    exact ⟨fun k hk => absurd hk (by omega), fun _ _ => rfl, rfl⟩
  | succ fuel ih =>
    by_cases h0 : total_len = 0
    · subst h0
      rw [flash_loop_zero]
      exact ⟨fun k hk => absurd hk (by omega), fun _ _ => rfl, rfl⟩
    · have hlen := fs_read_length d true (block_len P total_len)
      have hpos := fs_read_pos d true (block_len P total_len)
      have hble := block_len_le P total_len
      have hblp := block_len_le_page P total_len
      have hbpos := block_len_pos P total_len hps h0
      have hcont := fs_read_content d true (block_len P total_len)
      have hs : (fs_read d true (block_len P total_len)).1.length = block_len P total_len := by
        rw [hlen]; omega
      rw [hs] at hlen
      rw [← hlen] at hpos
      obtain ⟨c1, c2⟩ := flash_chunk P h4 fadr d sb mem (block_len P total_len) hblp ha
        (by omega) hs
      rw [flash_loop_step P (nvmc P) _ _ _ _ _ _ h0 hs]
      simp only []
      have hpage : (fadr + block_len P total_len - 1) / P.CODE_PAGE_SIZE
          = fadr / P.CODE_PAGE_SIZE := by
        have e : fadr + block_len P total_len - 1 = fadr + (block_len P total_len - 1) := by
          omega
        rw [e]
        exact aligned_add_div _ _ _ hps ha (by omega)
      by_cases hlast : total_len - block_len P total_len = 0
      · rw [hlast, flash_loop_zero]
        simp only []
        have hbt : block_len P total_len = total_len := by omega
        refine ⟨?_, c2, ?_⟩
        · intro k hk
          exact c1 k (by omega)
        · simp [chunks_erased, hpage]
      · have hfull : block_len P total_len = P.CODE_PAGE_SIZE :=
          block_len_eq_page P total_len (by omega)
        have hnext : (fadr + block_len P total_len) % 2 ^ 32 = fadr + block_len P total_len :=
          Nat.mod_eq_of_lt (by omega)
        rw [hnext]
        have hal : (fadr + block_len P total_len) % P.CODE_PAGE_SIZE = 0 := by
          rw [hfull, Nat.add_mod_right]; exact ha
        obtain ⟨i1, i2, i3⟩ := ih (total_len - block_len P total_len)
          (fadr + block_len P total_len) (fs_read d true (block_len P total_len)).2
          (buf_store sb (fs_read d true (block_len P total_len)).1)
          ((nvmc P).write_words ((nvmc P).page_erase mem fadr) fadr
            ((buf_store sb (fs_read d true (block_len P total_len)).1).take
              (4 * ((block_len P total_len + 3) / 4))))
          (by omega) hal (by omega) (by rw [hcont, hpos]; omega)
        have hpg : (fadr + block_len P total_len) / P.CODE_PAGE_SIZE
            = fadr / P.CODE_PAGE_SIZE + 1 := by
          rw [hfull]; exact Nat.add_div_right fadr hps
        refine ⟨?_, ?_, ?_⟩
        · intro k hk
          by_cases hk1 : k < block_len P total_len
          · rw [i2 (fadr + k) (by
              rw [hpg, aligned_add_div _ _ _ hps ha (by omega)]; omega)]
            exact c1 k hk1
          · have e : fadr + k = fadr + block_len P total_len + (k - block_len P total_len) := by
              omega
            rw [e, i1 (k - block_len P total_len) (by omega), hpos]
            congr 1
            omega
        · intro x hx
          rw [i2 x (by rw [hpg]; omega)]
          exact c2 x hx
        · simp [chunks_erased, hpage, i3]

theorem flash_desc_content (P : Platform) (w : Device) (content : List Byte) :
    (fs_read (fs_rewind (integrity_pass P w content).2.1) false 32).2.content = content := by
  rw [fs_read_content]
  unfold fs_rewind integrity_pass
  simp only [integrity_loop_content]

theorem flash_desc_pos (P : Platform) (w : Device) (content : List Byte)
    (hlen : 32 ≤ content.length) :
    (fs_read (fs_rewind (integrity_pass P w content).2.1) false 32).2.pos = 32 := by
  rw [fs_read_pos]
  unfold fs_rewind integrity_pass
  simp only [integrity_loop_content]
  omega

theorem mem_read_eq_of_forall (m : Memory) (a : Nat) (l : List Byte)
    (ha : a + l.length ≤ 2 ^ 32) (h : ∀ k, k < l.length → m (a + k) = l.getD k 0) :
    mem_read m a l.length = l := by
  unfold mem_read
  apply List.ext_getElem
  · simp
  · intro n h1 h2
    simp only [List.getElem_map, List.getElem_range]
    rw [Nat.mod_eq_of_lt (by omega), h n h2, List.getD_eq_getElem?_getD,
      List.getElem?_eq_getElem h2]
    rfl

theorem candidate_payload_getD (content : List Byte) (k : Nat)
    (hk : k < (candidate_header content).binsize) :
    (candidate_payload content).getD k 0 = content.getD (32 + k) 0 := by
  unfold candidate_payload
  rw [List.getD_eq_getElem?_getD, List.getD_eq_getElem?_getD, List.getElem?_take_of_lt hk,
    List.getElem?_drop]

/-- Program memory after a run of `check_system` that flashed a page-aligned
image away from the settings page, with the faithful flash. -/
theorem flashed_memory_nvmc (P : Platform) (w : Device) (content : List Byte)
    (hps : 0 < P.CODE_PAGE_SIZE) (h4 : 4 ∣ P.CODE_PAGE_SIZE) (h32 : 32 ≤ P.CODE_PAGE_SIZE)
    (hS : P.BOOTLOADER_SETTINGS_ADDRESS % P.CODE_PAGE_SIZE = 0)
    (hSw : P.BOOTLOADER_SETTINGS_ADDRESS + 32 ≤ 2 ^ 32)
    (hlen : 32 ≤ content.length)
    (hfull : (candidate_payload content).length = (candidate_header content).binsize)
    (halign : (candidate_header content).binload % P.CODE_PAGE_SIZE = 0)
    (hwrap : (candidate_header content).binload + (candidate_header content).binsize ≤ 2 ^ 32)
    (hdisj : ∀ k, k < (candidate_header content).binsize →
      ((candidate_header content).binload + k) / P.CODE_PAGE_SIZE
        ≠ P.BOOTLOADER_SETTINGS_ADDRESS / P.CODE_PAGE_SIZE) :
    mem_read (flashed_memory P (nvmc P) w content) (candidate_header content).binload
        (candidate_header content).binsize = candidate_payload content
    ∧ mem_read (flashed_memory P (nvmc P) w content) P.BOOTLOADER_SETTINGS_ADDRESS 32
        = content.take 32
    ∧ chunks_erased P.CODE_PAGE_SIZE (flash_pass P (nvmc P) w content).2.2 = true := by
  have hfit := (candidate_payload_length content hlen).1 hfull
  have hdc := flash_desc_content P w content
  have hdp := flash_desc_pos P w content hlen
  obtain ⟨l1, _, l3⟩ := flash_loop_nvmc P hps h4 (candidate_header content).binsize
    (candidate_header content).binsize (candidate_header content).binload
    (fs_read (fs_rewind (integrity_pass P w content).2.1) false 32).2
    (integrity_pass P w content).2.2.1 w.mem (le_refl _) halign hwrap
    (by rw [hdc, hdp]; omega)
  rw [hdc, hdp] at l1
  have htl : (content.take 32).length = 32 := by
    rw [List.length_take]; omega
  have hSfit : P.BOOTLOADER_SETTINGS_ADDRESS + (content.take 32).length ≤ 2 ^ 32 := by
    rw [htl]; exact hSw
  refine ⟨?_, ?_, l3⟩
  · have := mem_read_eq_of_forall (flashed_memory P (nvmc P) w content)
      (candidate_header content).binload (candidate_payload content) (by rw [hfull]; exact hwrap)
    rw [hfull] at this
    apply this
    intro k hk
    have hpg := hdisj k hk
    unfold flashed_memory
    rw [nvmc_write_outside P _ _ _ _ hSfit, nvmc_erase_other P _ _ _ hpg]
    · unfold flash_pass
      rw [l1 k hk, candidate_payload_getD content k hk]
    · rw [htl]
      by_contra hc
      have hin : P.BOOTLOADER_SETTINGS_ADDRESS ≤ (candidate_header content).binload + k
          ∧ (candidate_header content).binload + k < P.BOOTLOADER_SETTINGS_ADDRESS + 32 := by
        omega
      apply hpg
      have e : (candidate_header content).binload + k
          = P.BOOTLOADER_SETTINGS_ADDRESS
            + ((candidate_header content).binload + k - P.BOOTLOADER_SETTINGS_ADDRESS) := by
        omega
      rw [e]
      exact aligned_add_div _ _ _ hps hS (by omega)
  · have := mem_read_eq_of_forall (flashed_memory P (nvmc P) w content)
      P.BOOTLOADER_SETTINGS_ADDRESS (content.take 32) hSfit
    rw [htl] at this
    apply this
    intro k hk
    unfold flashed_memory
    rw [nvmc_write_inside P _ _ _ _ hSfit (by omega) (by rw [htl]; omega)]
    congr 1
    omega

/-- C9 (amended): flashing postcondition for page-aligned images. For a
candidate that is not identical to the installed image and passes the
integrity pass, whose `binload` is a multiple of `CODE_PAGE_SIZE`, whose
destination `[binload, binload + binsize)` ends below `2 ^ 32` and shares no
page with the settings record, on a platform whose page size is a multiple of
4 and at least 32 with a page-aligned settings address: after the run with
the faithful flash, program memory at `[binload, binload + binsize)` equals the
payload, the 32 bytes at `BOOTLOADER_SETTINGS_ADDRESS` equal the candidate
header, and the run consists of the open, the header read, the integrity
reads, the rewind and header skip, passes `fs_read`, `page_erase a`,
`write_words a` whose chunk lies in the page of `a`, and the erase and write of
the record. -/
theorem C9_flash_postcondition_aligned (P : Platform) (w : Device) (content : List Byte)
    (hps : 0 < P.CODE_PAGE_SIZE) (h4 : 4 ∣ P.CODE_PAGE_SIZE) (h32 : 32 ≤ P.CODE_PAGE_SIZE)
    (hS : P.BOOTLOADER_SETTINGS_ADDRESS % P.CODE_PAGE_SIZE = 0)
    (hSw : P.BOOTLOADER_SETTINGS_ADDRESS + 32 ≤ 2 ^ 32)
    (hd : w.disk = some content) (hlen : 32 ≤ content.length)
    (hmagic : (candidate_header content).hdrmagic = HDR0_MAGIC)
    (hid : ¬ identical_candidate P w content)
    (hfull : (candidate_payload content).length = (candidate_header content).binsize)
    (hcrc : fs_track_crc32 (candidate_payload content) 0xFFFFFFFF
      = (candidate_header content).crc32)
    (halign : (candidate_header content).binload % P.CODE_PAGE_SIZE = 0)
    (hwrap : (candidate_header content).binload + (candidate_header content).binsize ≤ 2 ^ 32)
    (hdisj : ∀ k, k < (candidate_header content).binsize →
      ((candidate_header content).binload + k) / P.CODE_PAGE_SIZE
        ≠ P.BOOTLOADER_SETTINGS_ADDRESS / P.CODE_PAGE_SIZE) :
    mem_read (check_system P (nvmc P) w).mem (candidate_header content).binload
        (candidate_header content).binsize = candidate_payload content
    ∧ mem_read (check_system P (nvmc P) w).mem P.BOOTLOADER_SETTINGS_ADDRESS 32
        = content.take 32
    ∧ ∃ reads chunks,
        (check_system P (nvmc P) w).trace
          = [Event.fs_open 0, Event.fs_read true 32 32] ++ reads
              ++ [Event.fs_rewind, Event.fs_read false 32 32] ++ chunks
              ++ [Event.page_erase P.BOOTLOADER_SETTINGS_ADDRESS,
                  Event.write_words P.BOOTLOADER_SETTINGS_ADDRESS (content.take 32)]
        ∧ (∀ e ∈ reads, e.is_flash = false)
        ∧ chunks_erased P.CODE_PAGE_SIZE chunks = true := by
  have hdone := (integrity_pass_exit P hps w content hlen).1 hfull
  have hc2 : (integrity_pass P w content).2.1.file_crc32 = (candidate_header content).crc32 := by
    rw [(integrity_pass_done P w content hlen hdone).2.1]; exact hcrc
  have hfl := flash_pass_exit P (nvmc P) hps w content hlen hfull
  obtain ⟨m1, m2, m3⟩ := flashed_memory_nvmc P w content hps h4 h32 hS hSw hlen hfull halign
    hwrap hdisj
  rcases check_system_flashing P (nvmc P) w content hd hlen hmagic hid hdone hc2 with
    ⟨h1, _⟩ | ⟨h1, _⟩ | ⟨_, _, h2, h3⟩
  · rw [hfl] at h1; exact absurd h1 (by simp)
  · rw [hfl] at h1; exact absurd h1 (by simp)
  · rw [h2]
    exact ⟨m1, m2, _, _, h3, integrity_pass_events P w content, m3⟩

end JesFs

namespace JesFs

/-- With the faithful flash the record written last reads back as the 32
header bytes of the candidate. -/
theorem flashed_record_nvmc (P : Platform) (w : Device) (content : List Byte)
    (hSw : P.BOOTLOADER_SETTINGS_ADDRESS + 32 ≤ 2 ^ 32) (hlen : 32 ≤ content.length) :
    mem_read (flashed_memory P (nvmc P) w content) P.BOOTLOADER_SETTINGS_ADDRESS 32
      = content.take 32 := by
  have htl : (content.take 32).length = 32 := by
    rw [List.length_take]; omega
  have hSfit : P.BOOTLOADER_SETTINGS_ADDRESS + (content.take 32).length ≤ 2 ^ 32 := by
    rw [htl]; exact hSw
  have := mem_read_eq_of_forall (flashed_memory P (nvmc P) w content)
    P.BOOTLOADER_SETTINGS_ADDRESS (content.take 32) hSfit
  rw [htl] at this
  apply this
  intro k hk
  unfold flashed_memory
  rw [nvmc_write_inside P _ _ _ _ hSfit (by omega) (by rw [htl]; omega)]
  congr 1
  omega

/-- Every candidate with the right magic and a header size other than 32 that
is not identical to the installed image and passes the integrity pass is
flashed, and the run then returns -5. -/
theorem check_system_wrong_hdrsize (P : Platform) (w : Device) (content : List Byte)
    (hps : 0 < P.CODE_PAGE_SIZE) (hSw : P.BOOTLOADER_SETTINGS_ADDRESS + 32 ≤ 2 ^ 32)
    (hd : w.disk = some content) (hlen : 32 ≤ content.length)
    (hmagic : (candidate_header content).hdrmagic = HDR0_MAGIC)
    (hsize : (candidate_header content).hdrsize ≠ 32)
    (hid : ¬ identical_candidate P w content)
    (hfull : (candidate_payload content).length = (candidate_header content).binsize)
    (hcrc : fs_track_crc32 (candidate_payload content) 0xFFFFFFFF
      = (candidate_header content).crc32) :
    (check_system P (nvmc P) w).res = some (-5)
    ∧ Event.page_erase P.BOOTLOADER_SETTINGS_ADDRESS ∈ (check_system P (nvmc P) w).trace := by
  have hdone := (integrity_pass_exit P hps w content hlen).1 hfull
  have hc2 : (integrity_pass P w content).2.1.file_crc32 = (candidate_header content).crc32 := by
    rw [(integrity_pass_done P w content hlen hdone).2.1]; exact hcrc
  have hfl := flash_pass_exit P (nvmc P) hps w content hlen hfull
  rcases check_system_flashing P (nvmc P) w content hd hlen hmagic hid hdone hc2 with
    ⟨h1, _⟩ | ⟨h1, _⟩ | ⟨_, h1, _, h3⟩
  · rw [hfl] at h1; exact absurd h1 (by simp)
  · rw [hfl] at h1; exact absurd h1 (by simp)
  · have hchk : cpu_firmware_check P (flashed_memory P (nvmc P) w content) = false := by
      unfold cpu_firmware_check pbl_memory
      rw [flashed_record_nvmc P w content hSw hlen]
      unfold candidate_header at hsize
      rw [if_neg (fun h => hsize h.2)]
    rw [h1, h3, hchk]
    exact ⟨rfl, by simp⟩

theorem C9_witness :
    (candidate_header (mk_image 0x1000 77 32 [1, 2, 3, 4, 5])).binload
        % nrf52840.CODE_PAGE_SIZE = 0
    ∧ mem_read (check_system nrf52840 (nvmc nrf52840) fresh_device).mem
        (candidate_header (mk_image 0x1000 77 32 [1, 2, 3, 4, 5])).binload
        (candidate_header (mk_image 0x1000 77 32 [1, 2, 3, 4, 5])).binsize
      = candidate_payload (mk_image 0x1000 77 32 [1, 2, 3, 4, 5])
    ∧ mem_read (check_system nrf52840 (nvmc nrf52840) fresh_device).mem
        nrf52840.BOOTLOADER_SETTINGS_ADDRESS 32
      = (mk_image 0x1000 77 32 [1, 2, 3, 4, 5]).take 32 :=
  ⟨by decide,
   (C9_flash_postcondition_aligned nrf52840 fresh_device (mk_image 0x1000 77 32 [1, 2, 3, 4, 5])
      (by decide) (by decide) (by decide) (by decide) (by decide) rfl (by decide) (by decide)
      (by decide) (by decide) (by decide) (by decide) (by decide) (by decide)).1,
   (C9_flash_postcondition_aligned nrf52840 fresh_device (mk_image 0x1000 77 32 [1, 2, 3, 4, 5])
      (by decide) (by decide) (by decide) (by decide) (by decide) rfl (by decide) (by decide)
      (by decide) (by decide) (by decide) (by decide) (by decide) (by decide)).2.1⟩

/-- C9 as stated fails for some `binload`. (1) A candidate that passes the
integrity pass and loads to the settings page: after the flashing loop and the
record write, the memory at `[binload, binload + binsize)` holds the start of
the header, not the payload. (2) A candidate that passes the integrity pass
and loads to `0x1FFE`: its single chunk `[0x1FFE, 0x2003)` reaches into page 2,
and the only pages erased in the run are page 1 and the settings page. -/
theorem C9_counterexample :
    ((candidate_payload (mk_image 0xFF000 77 32 [1, 2, 3, 4, 5])).length
        = (candidate_header (mk_image 0xFF000 77 32 [1, 2, 3, 4, 5])).binsize
      ∧ fs_track_crc32 (candidate_payload (mk_image 0xFF000 77 32 [1, 2, 3, 4, 5])) 0xFFFFFFFF
        = (candidate_header (mk_image 0xFF000 77 32 [1, 2, 3, 4, 5])).crc32
      ∧ (candidate_header (mk_image 0xFF000 77 32 [1, 2, 3, 4, 5])).binload = 0xFF000
      ∧ candidate_payload (mk_image 0xFF000 77 32 [1, 2, 3, 4, 5]) = [1, 2, 3, 4, 5]
      ∧ mem_read (check_system nrf52840 (nvmc nrf52840)
          (empty_device (some (mk_image 0xFF000 77 32 [1, 2, 3, 4, 5])))).mem 0xFF000 5
        = [0x4F, 0x9C, 0x9B, 0xE7, 0x20])
    ∧ ((candidate_payload (mk_image 0x1FFE 77 32 [1, 2, 3, 4, 5])).length
        = (candidate_header (mk_image 0x1FFE 77 32 [1, 2, 3, 4, 5])).binsize
      ∧ fs_track_crc32 (candidate_payload (mk_image 0x1FFE 77 32 [1, 2, 3, 4, 5])) 0xFFFFFFFF
        = (candidate_header (mk_image 0x1FFE 77 32 [1, 2, 3, 4, 5])).crc32
      ∧ (check_system nrf52840 (nvmc nrf52840)
          (empty_device (some (mk_image 0x1FFE 77 32 [1, 2, 3, 4, 5])))).trace
        = [Event.fs_open 0, Event.fs_read true 32 32, Event.fs_read true 5 5, Event.fs_rewind,
            Event.fs_read false 32 32, Event.fs_read true 5 5, Event.page_erase 0x1FFE,
            Event.write_words 0x1FFE [1, 2, 3, 4, 5, 0, 0, 0], Event.page_erase 0xFF000,
            Event.write_words 0xFF000 ((mk_image 0x1FFE 77 32 [1, 2, 3, 4, 5]).take 32)]
      ∧ 0x1FFE / nrf52840.CODE_PAGE_SIZE = 1
      ∧ (0x1FFE + 4) / nrf52840.CODE_PAGE_SIZE = 2
      ∧ 0xFF000 / nrf52840.CODE_PAGE_SIZE = 255
      ∧ chunks_erased nrf52840.CODE_PAGE_SIZE
          (flash_pass nrf52840 (nvmc nrf52840)
            (empty_device (some (mk_image 0x1FFE 77 32 [1, 2, 3, 4, 5])))
            (mk_image 0x1FFE 77 32 [1, 2, 3, 4, 5])).2.2 = false) := by
  refine ⟨⟨by decide, by decide, by decide, by decide, by decide⟩,
    ⟨by decide, by decide, by decide, by decide, by decide, by decide, by decide⟩⟩

end JesFs

namespace JesFs

/-! ## Build tool: the address marks stay inside the buffer -/

theorem getbyte_fields (s : Hex2Bin) (v : Int) (s1 : Hex2Bin) (h : getbyte s = some (v, s1)) :
    s1.binbuf = s.binbuf ∧ s1.usedbuf = s.usedbuf ∧ s1.min_bin_addr = s.min_bin_addr
    ∧ s1.max_bin_addr = s.max_bin_addr ∧ s1.bin_bytes_cnt = s.bin_bytes_cnt
    ∧ s1.in_line = s.in_line ∧ s1.lowest_output_addr = s.lowest_output_addr := by
  unfold getbyte at h
  split at h
  · simp at h
  · split at h
    · simp at h
      obtain ⟨_, rfl⟩ := h
      simp
    · split at h
      · simp at h
      · split at h
        · simp at h
          obtain ⟨_, rfl⟩ := h
          simp
        · simp at h
          obtain ⟨_, rfl⟩ := h
          simp

theorem getuint16_fields (s : Hex2Bin) (v : Int) (s1 : Hex2Bin)
    (h : getuint16 s = some (v, s1)) :
    s1.binbuf = s.binbuf ∧ s1.usedbuf = s.usedbuf ∧ s1.min_bin_addr = s.min_bin_addr
    ∧ s1.max_bin_addr = s.max_bin_addr ∧ s1.bin_bytes_cnt = s.bin_bytes_cnt
    ∧ s1.in_line = s.in_line ∧ s1.lowest_output_addr = s.lowest_output_addr := by
  unfold getuint16 at h
  split at h
  · simp at h
  · rename_i a sa ha
    have f1 := getbyte_fields s a sa ha
    split at h
    · simp at h
      obtain ⟨_, rfl⟩ := h
      exact f1
    · split at h
      · simp at h
      · rename_i b sb hb
        have f2 := getbyte_fields sa b sb hb
        have f12 : s1 = sb := by
          split at h <;> simp at h <;> exact h.2.symm
        rw [f12]
        obtain ⟨a1, a2, a3, a4, a5, a6, a7⟩ := f1
        obtain ⟨b1, b2, b3, b4, b5, b6, b7⟩ := f2
        exact ⟨b1.trans a1, b2.trans a2, b3.trans a3, b4.trans a4, b5.trans a5, b6.trans a6,
          b7.trans a7⟩

theorem addr_bounds_of_fields (s s1 : Hex2Bin) (h : addr_bounds s)
    (h1 : s1.min_bin_addr = s.min_bin_addr) (h2 : s1.max_bin_addr = s.max_bin_addr) :
    addr_bounds s1 := by
  unfold addr_bounds at *
  rw [h1, h2]
  exact h

theorem write_byte_bounds (s : Hex2Bin) (addr val : Int) (h : addr_bounds s) :
    addr_bounds (write_byte s addr val).2 := by
  unfold write_byte
  split
  · exact h
  · rename_i hc
    unfold addr_bounds at *
    simp only []
    have : 0 ≤ addr ∧ addr < MAX_BUF := by
      constructor
      · by_contra h1; exact hc (Or.inl (by omega))
      · by_contra h1; exact hc (Or.inr (by omega))
    refine ⟨?_, ?_, ?_⟩ <;> split <;> omega

theorem write_byte_lowest (s : Hex2Bin) (addr val : Int) :
    (write_byte s addr val).2.lowest_output_addr = s.lowest_output_addr := by
  unfold write_byte
  split <;> rfl

theorem data_loop_bounds (rlen : Nat) (badr boffset : Int) (s : Hex2Bin) (ok : Bool)
    (s1 : Hex2Bin) (h : data_loop rlen badr boffset s = some (ok, s1)) (hb : addr_bounds s) :
    addr_bounds s1 ∧ s1.lowest_output_addr = s.lowest_output_addr := by
  induction rlen generalizing badr s with
  | zero =>
    simp [data_loop] at h
    rw [← h.2]
    exact ⟨hb, rfl⟩
  | succ rlen ih =>
    unfold data_loop at h
    split at h
    · simp at h
    · rename_i bval sa ha
      have f := getbyte_fields s bval sa ha
      have hba : addr_bounds sa := addr_bounds_of_fields s sa hb f.2.2.1 f.2.2.2.1
      have hw := write_byte_bounds sa (wrap32 (badr + boffset)) bval hba
      have hl := write_byte_lowest sa (wrap32 (badr + boffset)) bval
      split at h
      · simp at h
        rw [← h.2]
        exact ⟨hw, by rw [hl, f.2.2.2.2.2.2]⟩
      · obtain ⟨i1, i2⟩ := ih _ _ h hw
        exact ⟨i1, by rw [i2, hl, f.2.2.2.2.2.2]⟩

end JesFs

namespace JesFs

theorem keeps_bounds_refl (s : Hex2Bin) : keeps_bounds s s := ⟨id, rfl⟩

theorem keeps_bounds_trans (s s1 s2 : Hex2Bin) (h1 : keeps_bounds s s1)
    (h2 : keeps_bounds s1 s2) : keeps_bounds s s2 :=
  ⟨fun h => h2.1 (h1.1 h), h2.2.trans h1.2⟩

theorem getbyte_keeps (s : Hex2Bin) (v : Int) (s1 : Hex2Bin) (h : getbyte s = some (v, s1)) :
    keeps_bounds s s1 := by
  have f := getbyte_fields s v s1 h
  exact ⟨fun hb => addr_bounds_of_fields s s1 hb f.2.2.1 f.2.2.2.1, f.2.2.2.2.2.2⟩

theorem getuint16_keeps (s : Hex2Bin) (v : Int) (s1 : Hex2Bin)
    (h : getuint16 s = some (v, s1)) : keeps_bounds s s1 := by
  have f := getuint16_fields s v s1 h
  exact ⟨fun hb => addr_bounds_of_fields s s1 hb f.2.2.1 f.2.2.2.1, f.2.2.2.2.2.2⟩

theorem data_loop_keeps (rlen : Nat) (badr boffset : Int) (s : Hex2Bin) (ok : Bool)
    (s1 : Hex2Bin) (h : data_loop rlen badr boffset s = some (ok, s1)) : keeps_bounds s s1 :=
  ⟨fun hb => (data_loop_bounds rlen badr boffset s ok s1 h hb).1, by
    induction rlen generalizing badr s with
    | zero =>
      simp [data_loop] at h
      rw [← h.2]
    | succ rlen ih =>
      unfold data_loop at h
      split at h
      · simp at h
      · rename_i bval sa ha
        have f := getbyte_fields s bval sa ha
        have hl := write_byte_lowest sa (wrap32 (badr + boffset)) bval
        split at h
        · simp at h
          rw [← h.2, hl, f.2.2.2.2.2.2]
        · rw [ih _ _ h, hl, f.2.2.2.2.2.2]⟩

theorem some_pair_snd {α β : Type} {a c : α} {b d : β} (h : some (a, b) = some (c, d)) :
    b = d := by
  cases h; rfl

theorem record_switch_keeps (rtyp rlen badr boffset : Int) (sc : Hex2Bin) (r : Int ⊕ Int)
    (s1 : Hex2Bin) (h : record_switch rtyp rlen badr boffset sc = some (r, s1)) :
    keeps_bounds sc s1 := by
  unfold record_switch at h
  split at h
  · -- data record
    split at h
    · cases h
    · rename_i sd hd
      rw [← some_pair_snd h]
      exact data_loop_keeps _ _ _ _ _ _ hd
    · rename_i sd hd
      have kd := data_loop_keeps _ _ _ _ _ _ hd
      split at h
      · cases h
      · rename_i v se he
        have ke := keeps_bounds_trans _ _ _ kd (getbyte_keeps _ _ _ he)
        split at h <;> rw [← some_pair_snd h] <;> exact ke
  · split at h
    · -- end record
      split at h
      · cases h
      · rename_i v sd hd
        have kd := getbyte_keeps _ _ _ hd
        split at h <;> rw [← some_pair_snd h] <;> exact kd
    · split at h
      · split at h
        · cases h
        · rename_i v sd hd
          have kd := getuint16_keeps _ _ _ hd
          split at h <;> rw [← some_pair_snd h] <;> exact kd
      · split at h
        · split at h
          · cases h
          · rename_i v sd hd
            have kd := getuint16_keeps _ _ _ hd
            split at h
            · cases h
            · rename_i v2 se he
              have ke := keeps_bounds_trans _ _ _ kd (getuint16_keeps _ _ _ he)
              split at h <;> rw [← some_pair_snd h] <;> exact ke
        · split at h
          · split at h
            · cases h
            · rename_i v sd hd
              have kd := getuint16_keeps _ _ _ hd
              split at h <;> rw [← some_pair_snd h] <;> exact kd
          · split at h
            · split at h
              · cases h
              · rename_i v sd hd
                have kd := getuint16_keeps _ _ _ hd
                split at h
                · cases h
                · rename_i v2 se he
                  have ke := keeps_bounds_trans _ _ _ kd (getuint16_keeps _ _ _ he)
                  split at h <;> rw [← some_pair_snd h] <;> exact ke
            · rw [← some_pair_snd h]
              exact keeps_bounds_refl sc

theorem read_line_keeps (s : Hex2Bin) (boffset : Int) (r : Int ⊕ Int) (s1 : Hex2Bin)
    (h : read_line s boffset = some (r, s1)) : keeps_bounds s s1 := by
  unfold read_line at h
  split at h
  · rw [← some_pair_snd h]
    exact keeps_bounds_refl s
  · split at h
    · cases h
    · rename_i rlen sa ha
      have ka : keeps_bounds s sa := by
        refine keeps_bounds_trans s _ sa ?_ (getbyte_keeps _ _ _ ha)
        exact ⟨id, rfl⟩
      split at h
      · rw [← some_pair_snd h]
        exact ka
      · split at h
        · cases h
        · rename_i badr sb hb
          have kb := keeps_bounds_trans _ _ _ ka (getuint16_keeps _ _ _ hb)
          split at h
          · rw [← some_pair_snd h]
            exact kb
          · split at h
            · cases h
            · rename_i rtyp sc hc
              have kc := keeps_bounds_trans _ _ _ kb (getbyte_keeps _ _ _ hc)
              exact keeps_bounds_trans _ _ _ kc (record_switch_keeps _ _ _ _ _ _ _ h)

theorem read_lines_keeps (lines : List (List Char)) (boffset : Int) (s : Hex2Bin) (code : Int)
    (s1 : Hex2Bin) (h : read_lines lines boffset s = some (code, s1)) : keeps_bounds s s1 := by
  induction lines generalizing boffset s with
  | nil =>
    simp only [read_lines] at h
    rw [← some_pair_snd h]
    exact keeps_bounds_refl s
  | cons line rest ih =>
    unfold read_lines at h
    split at h
    · cases h
    · rename_i c sa ha
      rw [← some_pair_snd h]
      refine keeps_bounds_trans s _ sa ?_ (read_line_keeps _ _ _ _ ha)
      exact ⟨id, rfl⟩
    · rename_i b sa ha
      have ka : keeps_bounds s sa := by
        refine keeps_bounds_trans s _ sa ?_ (read_line_keeps _ _ _ _ ha)
        exact ⟨id, rfl⟩
      refine keeps_bounds_trans _ _ _ ka (keeps_bounds_trans sa _ s1 ?_ (ih _ _ h))
      exact ⟨id, rfl⟩

theorem read_infile_keeps (infile : Option (List Char)) (s : Hex2Bin) (code : Int)
    (s1 : Hex2Bin) (h : read_infile infile s = some (code, s1)) : keeps_bounds s s1 := by
  unfold read_infile at h
  split at h
  · rw [← some_pair_snd h]
    exact keeps_bounds_refl s
  · refine keeps_bounds_trans s _ s1 ?_ (read_lines_keeps _ _ _ _ _ h)
    exact ⟨id, rfl⟩

/-- Every state the argument loop of `main` can leave behind has its address
marks inside the buffer. -/
theorem arg_loop_bounds (args : List Arg) (v : MainVars) (s : Hex2Bin) (r : Int ⊕ MainVars)
    (s1 : Hex2Bin) (h : arg_loop args v s = some (r, s1)) (hb : addr_bounds s) :
    addr_bounds s1 := by
  induction args generalizing v s with
  | nil =>
    simp only [arg_loop] at h
    rw [← some_pair_snd h]
    exact hb
  | cons a rest ih =>
    cases a with
    | opt_c x => exact ih _ _ h hb
    | opt_h t p =>
      cases p with
      | none => exact ih _ _ h hb
      | some p => exact ih _ _ h hb
    | opt_h_malformed t =>
      simp only [arg_loop] at h
      rw [← some_pair_snd h]
      exact hb
    | opt_o e =>
      unfold arg_loop at h
      split at h
      · rw [← some_pair_snd h]
        exact hb
      · exact ih _ _ h hb
    | opt_unknown =>
      simp only [arg_loop] at h
      rw [← some_pair_snd h]
      exact hb
    | infile text =>
      unfold arg_loop at h
      split at h
      · cases h
      · rename_i res sa ha
        have ka := (read_infile_keeps _ _ _ _ ha).1 hb
        split at h
        · rw [← some_pair_snd h]
          exact ka
        · exact ih _ _ h ka

theorem init_bounds : addr_bounds Hex2Bin.init := by
  unfold addr_bounds Hex2Bin.init MAX_BUF
  simp

end JesFs

namespace JesFs

/-! ## Header layout -/

theorem word_bytes_value (w : Nat) (hw : w < 2 ^ 32) :
    ((Fin.ofNat w : Byte).val + 256 * (Fin.ofNat (w / 256) : Byte).val
      + 65536 * (Fin.ofNat (w / 65536) : Byte).val
      + 16777216 * (Fin.ofNat (w / 16777216) : Byte).val) = w := by
  simp only [Fin.ofNat, Nat.reduceAdd]
  omega

theorem hdr_bytes_length (h : HDR0_TYPE) : (hdr_bytes h).length = 32 := by
  simp [hdr_bytes, bytes_of_word]

/-- Decoding the 32 bytes written for a header gives the header back. -/
theorem hdr_of_hdr_bytes (h : HDR0_TYPE)
    (h0 : h.hdrmagic < 2 ^ 32) (h1 : h.hdrsize < 2 ^ 32) (h2 : h.binsize < 2 ^ 32)
    (h3 : h.binload < 2 ^ 32) (h4 : h.crc32 < 2 ^ 32) (h5 : h.timestamp < 2 ^ 32)
    (h6 : h.binary_start < 2 ^ 32) (h7 : h.resv0 < 2 ^ 32) :
    hdr_of_bytes (hdr_bytes h) = h := by
  cases h
  simp only [hdr_of_bytes, hdr_bytes, bytes_of_word, word_at, List.cons_append, List.nil_append,
    List.getD_cons_zero, List.getD_cons_succ, Nat.reduceMul, Nat.reduceAdd] at *
  simp only [word_bytes_value _ h0, word_bytes_value _ h1, word_bytes_value _ h2,
    word_bytes_value _ h3, word_bytes_value _ h4, word_bytes_value _ h5,
    word_bytes_value _ h6, word_bytes_value _ h7]

theorem binbuf_slice_length (s : Hex2Bin) (addr len : Nat) :
    (binbuf_slice s addr len).length = len := by
  simp [binbuf_slice]

/-- The output file written with header type 0 from a state whose address
marks are inside the buffer: a header that describes the bytes behind it. -/
theorem write_output_header (env : OutEnv) (now : Nat) (v : MainVars) (s : Hex2Bin)
    (file : List Byte) (hb : addr_bounds s) (ht : v.hdrtype = 0)
    (h : write_output env now v s = (0, some file)) :
    (hdr_of_bytes (file.take 32)).hdrmagic = HDR0_MAGIC
    ∧ (hdr_of_bytes (file.take 32)).hdrsize = 32
    ∧ (hdr_of_bytes (file.take 32)).crc32 = fs_track_crc32 (file.drop 32) 0xFFFFFFFF
    ∧ (hdr_of_bytes (file.take 32)).binsize = (file.drop 32).length
    ∧ file.drop 32
        = binbuf_slice s (hdr_of_bytes (file.take 32)).binload (file.drop 32).length
    ∧ (hdr_of_bytes (file.take 32)).timestamp = now % 2 ^ 32
    ∧ (hdr_of_bytes (file.take 32)).binary_start = v.par1 % 2 ^ 32
    ∧ (hdr_of_bytes (file.take 32)).resv0 = 0xFFFFFFFF
    ∧ file.length = 32 + (hdr_of_bytes (file.take 32)).binsize := by
  obtain ⟨b1, b2, b3⟩ := hb
  unfold MAX_BUF at b3
  unfold write_output at h
  simp only [] at h
  generalize hmin : (if s.lowest_output_addr ≥ 0 then s.lowest_output_addr
    else s.min_bin_addr) = m at h
  have hm0 : 0 ≤ m := by
    rw [← hmin]; split <;> omega
  by_cases c1 : v.res ≠ 0
  · rw [if_pos c1] at h
    exact absurd (congrArg Prod.snd h) (by simp)
  rw [if_neg c1] at h
  by_cases c2 : s.bin_bytes_cnt = 0
  · rw [if_pos c2] at h
    exact absurd (congrArg Prod.snd h) (by simp)
  rw [if_neg c2] at h
  by_cases c3 : ¬ v.outfilename = true
  · rw [if_pos c3] at h
    exact absurd (congrArg Prod.snd h) (by simp)
  rw [if_neg c3] at h
  by_cases c4 : s.max_bin_addr - m + 1 ≤ 0
  · rw [if_pos c4] at h
    exact absurd (congrArg Prod.snd h) (by simp)
  rw [if_neg c4] at h
  by_cases c5 : ¬ env.fopen_ok = true
  · rw [if_pos c5] at h
    exact absurd (congrArg Prod.snd h) (by simp)
  rw [if_neg c5, ht] at h
  simp only [ge_iff_le, le_refl, if_true, write_header] at h
  by_cases hw : ¬ env.fwrite_hdr_ok = true
  · rw [if_pos hw] at h
    simp at h
  rw [if_neg hw] at h
  simp only [ne_eq, not_true_eq_false, if_false] at h
  by_cases c6 : ¬ env.fwrite_bin_ok = true
  · rw [if_pos c6] at h
    exact absurd (congrArg Prod.fst h) (by simp)
  rw [if_neg c6] at h
  have hfile := Option.some.inj (congrArg Prod.snd h)
  simp only [] at hfile
  have e1 : ((s.max_bin_addr - m + 1) % 2 ^ 32).toNat = (s.max_bin_addr - m + 1).toNat := by
    omega
  have e2 : (m % 2 ^ 32).toNat = m.toNat := by omega
  rw [e1, e2] at hfile
  have hdl := hdr_bytes_length
    { hdrmagic := HDR0_MAGIC, hdrsize := 32,
      binsize := (s.max_bin_addr - m + 1).toNat, binload := m.toNat,
      crc32 := fs_track_crc32
        (binbuf_slice s m.toNat (s.max_bin_addr - m + 1).toNat) 0xFFFFFFFF,
      timestamp := now % 2 ^ 32, binary_start := v.par1 % 2 ^ 32,
      resv0 := 0xFFFFFFFF }
  have htake : file.take 32 = hdr_bytes
    { hdrmagic := HDR0_MAGIC, hdrsize := 32,
      binsize := (s.max_bin_addr - m + 1).toNat, binload := m.toNat,
      crc32 := fs_track_crc32
        (binbuf_slice s m.toNat (s.max_bin_addr - m + 1).toNat) 0xFFFFFFFF,
      timestamp := now % 2 ^ 32, binary_start := v.par1 % 2 ^ 32,
      resv0 := 0xFFFFFFFF } := by
    rw [← hfile, List.take_append_of_le_length (by rw [hdl]), List.take_of_length_le
      (by rw [hdl])]
  have hdrop : file.drop 32
      = binbuf_slice s m.toNat (s.max_bin_addr - m + 1).toNat := by
    rw [← hfile, List.drop_append_of_le_length (by rw [hdl]),
      List.drop_of_length_le (by rw [hdl]), List.nil_append]
  have hcrc := fs_track_crc32_lt
    (binbuf_slice s m.toNat (s.max_bin_addr - m + 1).toNat) 0xFFFFFFFF (by decide)
  have hrt := hdr_of_hdr_bytes
    { hdrmagic := HDR0_MAGIC, hdrsize := 32,
      binsize := (s.max_bin_addr - m + 1).toNat, binload := m.toNat,
      crc32 := fs_track_crc32
        (binbuf_slice s m.toNat (s.max_bin_addr - m + 1).toNat) 0xFFFFFFFF,
      timestamp := now % 2 ^ 32, binary_start := v.par1 % 2 ^ 32,
      resv0 := 0xFFFFFFFF }
    (by simp only [HDR0_MAGIC]; omega) (by simp only []; omega) (by simp only []; omega)
    (by simp only []; omega)
    hcrc (Nat.mod_lt _ (by decide)) (Nat.mod_lt _ (by decide)) (by simp only []; omega)
  rw [htake, hrt, hdrop, binbuf_slice_length]
  refine ⟨rfl, rfl, rfl, rfl, rfl, rfl, rfl, rfl, ?_⟩
  rw [← hfile, List.length_append, hdl, binbuf_slice_length]

end JesFs

namespace JesFs

/-! ## Reading a well-formed data record -/

theorem hex_digit_hex_char (n : Nat) (h : n < 16) : hex_digit (hex_char n) = some n := by
  interval_cases n <;> decide

theorem hex_char_ne_newline (n : Nat) : hex_char n ≠ '\n' := by
  by_cases h : n < 16
  · interval_cases n <;> decide
  · unfold hex_char
    rw [List.getD_eq_default _ _ (by simp; omega)]
    decide

theorem get?_append_add {α : Type} (lead rest : List α) (k : Nat) :
    (lead ++ rest).get? (lead.length + k) = rest.get? k := by
  induction lead with
  | nil => simp
  | cons a lead ih =>
    have e : (a :: lead).length + k = (lead.length + k) + 1 := by simp; omega
    rw [e, List.cons_append, List.get?_cons_succ, ih]

theorem getbyte_hex_pair (s : Hex2Bin) (lead rest : List Char) (b : Byte)
    (hl : s.in_line = lead ++ hex_pair b ++ rest) (hp : s.pbyte = lead.length) :
    getbyte s = some ((b.val : Int),
      { s with pbyte := s.pbyte + 2, fcs := (s.fcs + b.val) % 256 }) := by
  have h0 : s.in_line.get? s.pbyte = some (hex_char (b.val / 16)) := by
    rw [hl, hp, List.append_assoc]
    have := get?_append_add lead (hex_pair b ++ rest) 0
    rw [Nat.add_zero] at this
    rw [this]
    rfl
  have h1 : s.in_line.get? (s.pbyte + 1) = some (hex_char (b.val % 16)) := by
    rw [hl, hp, List.append_assoc, get?_append_add lead (hex_pair b ++ rest) 1]
    rfl
  have hb := b.isLt
  unfold getbyte
  rw [h0]
  simp only []
  rw [hex_digit_hex_char _ (by omega)]
  simp only []
  rw [h1]
  simp only []
  rw [hex_digit_hex_char _ (by omega)]
  simp only []
  have e : b.val / 16 * 16 + b.val % 16 = b.val := by omega
  rw [e]

end JesFs

namespace JesFs

theorem wrap32_small (x : Int) (h0 : 0 ≤ x) (h1 : x < 2 ^ 31) : wrap32 x = x := by
  unfold wrap32
  omega

theorem write_byte_with_parse (s : Hex2Bin) (p f : Nat) (a v : Int) :
    write_byte (with_parse s p f) a v
      = ((write_byte s a v).1, with_parse (write_byte s a v).2 p f) := by
  unfold write_byte with_parse
  split <;> rfl

theorem write_byte_ok (s : Hex2Bin) (a v : Int) (h0 : 0 ≤ a) (h1 : a < MAX_BUF) :
    (write_byte s a v).1 = 0 := by
  unfold write_byte
  rw [if_neg (by omega)]

theorem store_bytes_with_parse (data : List Byte) (s : Hex2Bin) (p f : Nat) (a : Int) :
    store_bytes (with_parse s p f) a data = with_parse (store_bytes s a data) p f := by
  induction data generalizing s a with
  | nil => rfl
  | cons b data ih =>
    simp only [store_bytes]
    rw [write_byte_with_parse]
    exact ih _ _

theorem with_parse_with_parse (s : Hex2Bin) (p f q g : Nat) :
    with_parse (with_parse s p f) q g = with_parse s q g := rfl

theorem getbyte_hex_pair_wp (s : Hex2Bin) (lead rest : List Char) (b : Byte)
    (hl : s.in_line = lead ++ hex_pair b ++ rest) (hp : s.pbyte = lead.length) :
    getbyte s = some ((b.val : Int), with_parse s (s.pbyte + 2) ((s.fcs + b.val) % 256)) :=
  getbyte_hex_pair s lead rest b hl hp

theorem with_parse_self (s : Hex2Bin) : with_parse s s.pbyte s.fcs = s := by
  cases s; rfl

theorem write_byte_parse_fields (s : Hex2Bin) (a v : Int) :
    (write_byte s a v).2.pbyte = s.pbyte ∧ (write_byte s a v).2.fcs = s.fcs
    ∧ (write_byte s a v).2.in_line = s.in_line := by
  unfold write_byte
  split <;> exact ⟨rfl, rfl, rfl⟩

/-- The data loop on the hex text of `data`: all bytes are stored, the
pointer is behind the text and the line sum has grown by the bytes. -/
theorem data_loop_hex_text (data : List Byte) (s : Hex2Bin) (lead rest : List Char)
    (badr boffset : Int) (hl : s.in_line = lead ++ hex_text data ++ rest)
    (hp : s.pbyte = lead.length) (hf : s.fcs < 256) (h0 : 0 ≤ badr + boffset)
    (h1 : badr + boffset + data.length ≤ MAX_BUF) :
    data_loop data.length badr boffset s
      = some (true, with_parse (store_bytes s (badr + boffset) data)
          (s.pbyte + 2 * data.length) ((s.fcs + byte_sum data) % 256)) := by
  induction data generalizing s lead badr with
  | nil =>
    simp only [List.length_nil, data_loop, store_bytes, byte_sum, Nat.mul_zero, Nat.add_zero]
    rw [Nat.mod_eq_of_lt hf, with_parse_self]
  | cons b data ih =>
    have hmax : MAX_BUF = 2097152 := by decide
    simp only [List.length_cons, Nat.cast_add, Nat.cast_one] at h1
    have hg := getbyte_hex_pair_wp s lead (hex_text data ++ rest) b
      (by rw [hl]; simp [hex_text]) hp
    have hw : wrap32 (badr + boffset) = badr + boffset :=
      wrap32_small _ h0 (by omega)
    simp only [List.length_cons, data_loop]
    rw [hg]
    simp only []
    rw [hw, write_byte_with_parse]
    simp only []
    rw [write_byte_ok s (badr + boffset) b.val h0 (by omega)]
    simp only [ne_eq, not_true_eq_false, if_false]
    obtain ⟨q1, q2, q3⟩ := write_byte_parse_fields s (badr + boffset) (b.val : Int)
    have hih := ih (with_parse (write_byte s (badr + boffset) b.val).2 (s.pbyte + 2)
      ((s.fcs + b.val) % 256)) (lead ++ hex_pair b) (badr + 1)
      (by
        show (write_byte s (badr + boffset) b.val).2.in_line = _
        rw [q3, hl]
        simp [hex_text])
      (by
        show s.pbyte + 2 = _
        rw [hp]
        simp [hex_pair])
      (Nat.mod_lt _ (by decide)) (by omega) (by omega)
    rw [hih, store_bytes_with_parse, with_parse_with_parse]
    simp only [store_bytes, byte_sum]
    have e1 : badr + 1 + boffset = badr + boffset + 1 := by omega
    have e2 : (with_parse (write_byte s (badr + boffset) b.val).2 (s.pbyte + 2)
        ((s.fcs + b.val) % 256)).pbyte + 2 * data.length
        = s.pbyte + 2 * (data.length + 1) := by
      show s.pbyte + 2 + 2 * data.length = _
      omega
    have e3 : ((with_parse (write_byte s (badr + boffset) b.val).2 (s.pbyte + 2)
        ((s.fcs + b.val) % 256)).fcs + byte_sum data) % 256
        = (s.fcs + (b.val + byte_sum data)) % 256 := by
      show ((s.fcs + b.val) % 256 + byte_sum data) % 256 = _
      omega
    rw [e1, e2, e3]

end JesFs

namespace JesFs

/-! ## What a run of successful `write_byte` calls leaves in the globals -/

theorem toByte_val (b : Byte) : toByte (b.val : Int) = b := by
  apply Fin.ext
  show ((b.val : Int) % 256).toNat = b.val
  have := b.isLt
  omega

theorem write_byte_in_range (s : Hex2Bin) (a v : Int) (h0 : 0 ≤ a) (h1 : a < MAX_BUF) :
    (write_byte s a v).2.binbuf = Function.update s.binbuf a.toNat (toByte v)
    ∧ (write_byte s a v).2.min_bin_addr = (if a < s.min_bin_addr then a else s.min_bin_addr)
    ∧ (write_byte s a v).2.max_bin_addr = (if a > s.max_bin_addr then a else s.max_bin_addr)
    ∧ (write_byte s a v).2.bin_bytes_cnt = s.bin_bytes_cnt + 1
    ∧ (write_byte s a v).2.lowest_output_addr = s.lowest_output_addr := by
  unfold write_byte
  rw [if_neg (by omega)]
  exact ⟨rfl, rfl, rfl, rfl, rfl⟩

theorem store_bytes_lowest (data : List Byte) (s : Hex2Bin) (a : Int) :
    (store_bytes s a data).lowest_output_addr = s.lowest_output_addr := by
  induction data generalizing s a with
  | nil => rfl
  | cons b data ih =>
    simp only [store_bytes]
    rw [ih, write_byte_lowest]

theorem store_bytes_cnt (data : List Byte) (s : Hex2Bin) (a : Int) (h0 : 0 ≤ a)
    (h1 : a + data.length ≤ MAX_BUF) :
    (store_bytes s a data).bin_bytes_cnt = s.bin_bytes_cnt + data.length := by
  induction data generalizing s a with
  | nil => simp [store_bytes]
  | cons b data ih =>
    simp only [List.length_cons, Nat.cast_add, Nat.cast_one] at h1
    simp only [store_bytes, List.length_cons, Nat.cast_add, Nat.cast_one]
    rw [ih _ _ (by omega) (by omega),
      (write_byte_in_range s a b.val h0 (by omega)).2.2.2.1]
    omega

theorem store_bytes_min_keep (data : List Byte) (s : Hex2Bin) (a : Int) (h0 : 0 ≤ a)
    (h1 : a + data.length ≤ MAX_BUF) (hm : s.min_bin_addr ≤ a) :
    (store_bytes s a data).min_bin_addr = s.min_bin_addr := by
  induction data generalizing s a with
  | nil => rfl
  | cons b data ih =>
    simp only [List.length_cons, Nat.cast_add, Nat.cast_one] at h1
    have hw := (write_byte_in_range s a b.val h0 (by omega)).2.1
    simp only [store_bytes]
    rw [ih _ _ (by omega) (by omega) (by rw [hw]; split <;> omega), hw, if_neg (by omega)]

theorem store_bytes_min (b : Byte) (data : List Byte) (s : Hex2Bin) (a : Int) (h0 : 0 ≤ a)
    (h1 : a + (b :: data).length ≤ MAX_BUF) :
    (store_bytes s a (b :: data)).min_bin_addr
      = (if a < s.min_bin_addr then a else s.min_bin_addr) := by
  simp only [List.length_cons, Nat.cast_add, Nat.cast_one] at h1
  have hw := (write_byte_in_range s a b.val h0 (by omega)).2.1
  simp only [store_bytes]
  rw [store_bytes_min_keep data _ _ (by omega) (by omega) (by rw [hw]; split <;> omega), hw]

theorem store_bytes_max (data : List Byte) (s : Hex2Bin) (a : Int) (h0 : 0 ≤ a)
    (h1 : a + data.length ≤ MAX_BUF) (hd : data ≠ []) :
    (store_bytes s a data).max_bin_addr
      = (if a + data.length - 1 > s.max_bin_addr then a + data.length - 1
          else s.max_bin_addr) := by
  induction data generalizing s a with
  | nil => exact absurd rfl hd
  | cons b data ih =>
    simp only [List.length_cons, Nat.cast_add, Nat.cast_one] at h1 ⊢
    have hw := (write_byte_in_range s a b.val h0 (by omega)).2.2.1
    simp only [store_bytes]
    cases data with
    | nil =>
      simp only [store_bytes, List.length_nil, Nat.cast_zero]
      rw [hw]
      split <;> split <;> omega
    | cons c data =>
      simp only [List.length_cons, Nat.cast_add, Nat.cast_one] at h1
      rw [ih _ _ (by omega)
        (by simp only [List.length_cons, Nat.cast_add, Nat.cast_one]; omega) (by simp), hw]
      simp only [List.length_cons, Nat.cast_add, Nat.cast_one]
      split <;> split <;> split <;> omega

theorem store_bytes_binbuf_below (data : List Byte) (s : Hex2Bin) (a : Int) (x : Nat)
    (h0 : 0 ≤ a) (hx : x < a.toNat) : (store_bytes s a data).binbuf x = s.binbuf x := by
  induction data generalizing s a with
  | nil => rfl
  | cons b data ih =>
    simp only [store_bytes]
    rw [ih _ _ (by omega) (by omega)]
    unfold write_byte
    split
    · rfl
    · simp only []
      rw [Function.update_noteq (by omega)]

theorem store_bytes_binbuf (data : List Byte) (s : Hex2Bin) (a : Int) (k : Nat) (h0 : 0 ≤ a)
    (h1 : a + data.length ≤ MAX_BUF) (hk : k < data.length) :
    (store_bytes s a data).binbuf (a.toNat + k) = data.getD k 0 := by
  induction data generalizing s a k with
  | nil => simp at hk
  | cons b data ih =>
    simp only [List.length_cons, Nat.cast_add, Nat.cast_one] at h1
    simp only [store_bytes]
    cases k with
    | zero =>
      rw [Nat.add_zero, store_bytes_binbuf_below data _ _ _ (by omega) (by omega),
        (write_byte_in_range s a b.val h0 (by omega)).1, Function.update_same, toByte_val]
      rfl
    | succ k =>
      have e : a.toNat + (k + 1) = (a + 1).toNat + k := by omega
      rw [e, ih _ _ k (by omega) (by omega) (by simpa using hk)]
      rfl

theorem store_bytes_slice (data : List Byte) (s : Hex2Bin) (a : Int) (h0 : 0 ≤ a)
    (h1 : a + data.length ≤ MAX_BUF) :
    binbuf_slice (store_bytes s a data) a.toNat data.length = data := by
  unfold binbuf_slice
  apply List.ext_getElem
  · simp
  · intro n hn1 hn2
    simp only [List.getElem_map, List.getElem_range]
    rw [store_bytes_binbuf data s a n h0 h1 hn2, List.getD_eq_getElem?_getD,
      List.getElem?_eq_getElem hn2]
    rfl

end JesFs

namespace JesFs

theorem with_parse_fields (s : Hex2Bin) (p f : Nat) :
    (with_parse s p f).in_line = s.in_line ∧ (with_parse s p f).pbyte = p
    ∧ (with_parse s p f).fcs = f := ⟨rfl, rfl, rfl⟩

theorem store_bytes_in_line (data : List Byte) (s : Hex2Bin) (a : Int) :
    (store_bytes s a data).in_line = s.in_line := by
  induction data generalizing s a with
  | nil => rfl
  | cons b data ih =>
    simp only [store_bytes]
    rw [ih, (write_byte_parse_fields s a b.val).2.2]

theorem getuint16_hex (s : Hex2Bin) (lead rest : List Char) (hi lo : Byte)
    (hl : s.in_line = lead ++ hex_pair hi ++ hex_pair lo ++ rest) (hp : s.pbyte = lead.length) :
    getuint16 s = some ((hi.val : Int) * 256 + lo.val,
      with_parse s (s.pbyte + 4) (((s.fcs + hi.val) % 256 + lo.val) % 256)) := by
  have g1 := getbyte_hex_pair_wp s lead (hex_pair lo ++ rest) hi
    (by rw [hl]; simp) hp
  have g2 := getbyte_hex_pair_wp (with_parse s (s.pbyte + 2) ((s.fcs + hi.val) % 256))
    (lead ++ hex_pair hi) rest lo (by show s.in_line = _; rw [hl])
    (by show s.pbyte + 2 = _; rw [hp]; simp [hex_pair])
  unfold getuint16
  rw [g1]
  simp only []
  rw [if_neg (by omega), g2]
  simp only []
  rw [if_neg (by omega)]
  rfl

/-- One pass of `read_infile` over a well-formed data record whose bytes all
land inside the buffer: the payload is stored from `addr + boffset` on, the
line sum ends at 0 and the loop goes on with the same offset. -/
theorem read_line_data_record (s : Hex2Bin) (addr : Nat) (data : List Byte)
    (tail : List Char) (boffset : Int)
    (hl : s.in_line = hex_record addr 0 data ++ tail)
    (hlen : data.length < 256) (haddr : addr < 65536)
    (h0 : 0 ≤ (addr : Int) + boffset) (h1 : (addr : Int) + boffset + data.length ≤ MAX_BUF) :
    read_line s boffset
      = some (Sum.inr boffset,
          with_parse (store_bytes s ((addr : Int) + boffset) data) (11 + 2 * data.length) 0) := by
  have hline : s.in_line = [':'] ++ hex_pair (Fin.ofNat data.length)
      ++ (hex_pair (Fin.ofNat (addr / 256)) ++ hex_pair (Fin.ofNat addr)
        ++ (hex_pair 0 ++ (hex_text data
          ++ (hex_pair (record_checksum ([Fin.ofNat data.length, Fin.ofNat (addr / 256),
              Fin.ofNat addr, 0] ++ data)) ++ ('\n' :: tail))))) := by
    rw [hl]
    simp [hex_record, hex_text]
  have hc0 : s.in_line.get? 0 = some ':' := by rw [hline]; rfl
  have vL : ((Fin.ofNat data.length : Byte).val : Nat) = data.length := by
    show data.length % 256 = _
    omega
  have vH : ((Fin.ofNat (addr / 256) : Byte).val : Nat) = addr / 256 := by
    show addr / 256 % 256 = _
    omega
  have vLo : ((Fin.ofNat addr : Byte).val : Nat) = addr % 256 := rfl
  have v0 : ((0 : Byte).val : Nat) = 0 := rfl
  have htl : ∀ l : List Byte, (hex_text l).length = 2 * l.length := by
    intro l
    induction l with
    | nil => rfl
    | cons b l ih => simp [hex_text, hex_pair, ih]; omega
  -- count
  have g1 := getbyte_hex_pair_wp (with_parse s 1 0) [':']
    (hex_pair (Fin.ofNat (addr / 256)) ++ hex_pair (Fin.ofNat addr)
        ++ (hex_pair 0 ++ (hex_text data
          ++ (hex_pair (record_checksum ([Fin.ofNat data.length, Fin.ofNat (addr / 256),
              Fin.ofNat addr, 0] ++ data)) ++ ('\n' :: tail)))))
    (Fin.ofNat data.length) hline rfl
  -- address
  have g2 := getuint16_hex (with_parse s 3 (data.length % 256)) ([':'] ++ hex_pair
    (Fin.ofNat data.length))
    (hex_pair 0 ++ (hex_text data
          ++ (hex_pair (record_checksum ([Fin.ofNat data.length, Fin.ofNat (addr / 256),
              Fin.ofNat addr, 0] ++ data)) ++ ('\n' :: tail))))
    (Fin.ofNat (addr / 256)) (Fin.ofNat addr)
    (by show s.in_line = _
        rw [hline]; simp only [List.append_assoc, List.cons_append, List.nil_append])
    (by simp [with_parse, hex_pair])
  -- type
  have g3 := getbyte_hex_pair_wp
    (with_parse s 7 (((data.length % 256 + addr / 256) % 256 + addr % 256) % 256))
    ([':'] ++ hex_pair (Fin.ofNat data.length) ++ hex_pair (Fin.ofNat (addr / 256))
      ++ hex_pair (Fin.ofNat addr))
    (hex_text data
          ++ (hex_pair (record_checksum ([Fin.ofNat data.length, Fin.ofNat (addr / 256),
              Fin.ofNat addr, 0] ++ data)) ++ ('\n' :: tail)))
    (0 : Byte)
    (by show s.in_line = _
        rw [hline]; simp only [List.append_assoc, List.cons_append, List.nil_append])
    (by simp [with_parse, hex_pair])
  -- payload
  have g4 := data_loop_hex_text data
    (with_parse s 9 ((((data.length % 256 + addr / 256) % 256 + addr % 256) % 256 + 0) % 256))
    ([':'] ++ hex_pair (Fin.ofNat data.length) ++ hex_pair (Fin.ofNat (addr / 256))
      ++ hex_pair (Fin.ofNat addr) ++ hex_pair 0)
    (hex_pair (record_checksum ([Fin.ofNat data.length, Fin.ofNat (addr / 256),
              Fin.ofNat addr, 0] ++ data)) ++ ('\n' :: tail)) addr boffset
    (by show s.in_line = _
        rw [hline]; simp only [List.append_assoc, List.cons_append, List.nil_append])
    (by simp [with_parse, hex_pair])
    (Nat.mod_lt _ (by decide)) h0 h1
  -- checksum
  have g5 := getbyte_hex_pair_wp
    (with_parse (store_bytes s ((addr : Int) + boffset) data) (9 + 2 * data.length)
      ((((((data.length % 256 + addr / 256) % 256 + addr % 256) % 256 + 0) % 256)
        + byte_sum data) % 256))
    ([':'] ++ hex_pair (Fin.ofNat data.length) ++ hex_pair (Fin.ofNat (addr / 256))
      ++ hex_pair (Fin.ofNat addr) ++ hex_pair 0 ++ hex_text data)
    ('\n' :: tail)
    (record_checksum ([Fin.ofNat data.length, Fin.ofNat (addr / 256), Fin.ofNat addr, 0]
      ++ data))
    (by show (store_bytes s ((addr : Int) + boffset) data).in_line = _
        rw [store_bytes_in_line, hline]
        simp only [List.append_assoc, List.cons_append, List.nil_append])
    (by simp [with_parse, hex_pair, htl]; omega)
  have hbs : byte_sum ([Fin.ofNat data.length, Fin.ofNat (addr / 256), Fin.ofNat addr, 0]
      ++ data) = data.length + (addr / 256 + (addr % 256 + (0 + byte_sum data))) := by
    show (Fin.ofNat data.length : Byte).val + ((Fin.ofNat (addr / 256) : Byte).val
      + ((Fin.ofNat addr : Byte).val + ((0 : Byte).val + byte_sum data))) = _
    rw [vL, vH, vLo, v0]
  have hC : (record_checksum ([Fin.ofNat data.length, Fin.ofNat (addr / 256), Fin.ofNat addr, 0]
      ++ data)).val
      = (256 - (data.length + (addr / 256 + (addr % 256 + (0 + byte_sum data)))) % 256) % 256 := by
    show (256 - byte_sum _ % 256) % 256 = _
    rw [hbs]
  have hsum : ((((((data.length % 256 + addr / 256) % 256 + addr % 256) % 256 + 0) % 256)
        + byte_sum data) % 256
      + (record_checksum ([Fin.ofNat data.length, Fin.ofNat (addr / 256), Fin.ofNat addr, 0]
      ++ data)).val) % 256 = 0 := by
    rw [hC]
    generalize byte_sum data = S
    generalize data.length = n
    generalize addr / 256 = x
    generalize addr % 256 = y
    omega
  unfold read_line
  rw [if_neg (by rw [hc0]; simp)]
  have e0 : ({ s with pbyte := 1, fcs := 0 } : Hex2Bin) = with_parse s 1 0 := rfl
  rw [e0, g1]
  simp only []
  rw [if_neg (by omega)]
  have e1 : with_parse (with_parse s 1 0) ((with_parse s 1 0).pbyte + 2)
      (((with_parse s 1 0).fcs + (Fin.ofNat data.length : Byte).val) % 256)
      = with_parse s 3 (data.length % 256) := by
    rw [vL]
    show with_parse s (1 + 2) ((0 + data.length) % 256) = _
    rw [Nat.zero_add]
  rw [e1, g2]
  simp only []
  rw [if_neg (by omega)]
  have e2 : with_parse (with_parse s 3 (data.length % 256))
      ((with_parse s 3 (data.length % 256)).pbyte + 4)
      ((((with_parse s 3 (data.length % 256)).fcs + (Fin.ofNat (addr / 256) : Byte).val) % 256
        + (Fin.ofNat addr : Byte).val) % 256)
      = with_parse s 7 (((data.length % 256 + addr / 256) % 256 + addr % 256) % 256) := by
    rw [vH, vLo]
    rfl
  rw [e2, g3]
  simp only []
  have e3 : with_parse
      (with_parse s 7 (((data.length % 256 + addr / 256) % 256 + addr % 256) % 256))
      ((with_parse s 7 (((data.length % 256 + addr / 256) % 256 + addr % 256) % 256)).pbyte + 2)
      (((with_parse s 7 (((data.length % 256 + addr / 256) % 256 + addr % 256) % 256)).fcs
        + (0 : Byte).val) % 256)
      = with_parse s 9
        ((((data.length % 256 + addr / 256) % 256 + addr % 256) % 256 + 0) % 256) := rfl
  rw [e3]
  unfold record_switch
  rw [if_pos (by rfl)]
  have ertoNat : ((((Fin.ofNat data.length : Byte).val : Nat) : Int)).toNat = data.length := by
    rw [vL]; omega
  have ebadr : (((Fin.ofNat (addr / 256) : Byte).val : Nat) : Int) * 256
      + (((Fin.ofNat addr : Byte).val : Nat) : Int) = (addr : Int) := by
    rw [vH, vLo]; omega
  rw [ertoNat, ebadr, g4]
  simp only []
  rw [store_bytes_with_parse, with_parse_with_parse]
  have e4 : (with_parse s 9
      ((((data.length % 256 + addr / 256) % 256 + addr % 256) % 256 + 0) % 256)).pbyte = 9 := rfl
  have e5 : (with_parse s 9
      ((((data.length % 256 + addr / 256) % 256 + addr % 256) % 256 + 0) % 256)).fcs
      = (((data.length % 256 + addr / 256) % 256 + addr % 256) % 256 + 0) % 256 := rfl
  rw [e4, e5, g5]
  simp only []
  rw [with_parse_with_parse]
  have e6 : (with_parse (store_bytes s ((addr : Int) + boffset) data) (9 + 2 * data.length)
      ((((((data.length % 256 + addr / 256) % 256 + addr % 256) % 256 + 0) % 256)
        + byte_sum data) % 256)).pbyte + 2 = 11 + 2 * data.length := by
    show 9 + 2 * data.length + 2 = _
    omega
  have e7 : (with_parse (store_bytes s ((addr : Int) + boffset) data) (9 + 2 * data.length)
      ((((((data.length % 256 + addr / 256) % 256 + addr % 256) % 256 + 0) % 256)
        + byte_sum data) % 256)).fcs
      = (((((data.length % 256 + addr / 256) % 256 + addr % 256) % 256 + 0) % 256)
        + byte_sum data) % 256 := rfl
  rw [e6, e7, hsum]
  rfl

end JesFs

namespace JesFs

/-- One pass of `read_infile` over the end record `:00000001FF`. -/
theorem read_line_end_record (s : Hex2Bin) (tail : List Char) (boffset : Int)
    (hl : s.in_line = hex_record 0 1 [] ++ tail) :
    read_line s boffset = some (Sum.inl 0, with_parse s 11 0) := by
  have hline : s.in_line = [':'] ++ hex_pair 0 ++ (hex_pair 0 ++ hex_pair 0
      ++ (hex_pair 1 ++ (hex_pair 0xFF ++ ('\n' :: tail)))) := by
    rw [hl]
    rfl
  have hc0 : s.in_line.get? 0 = some ':' := by rw [hline]; rfl
  have g1 := getbyte_hex_pair_wp (with_parse s 1 0) [':']
    (hex_pair 0 ++ hex_pair 0 ++ (hex_pair 1 ++ (hex_pair 0xFF ++ ('\n' :: tail))))
    (0 : Byte) hline rfl
  have g2 := getuint16_hex (with_parse s 3 0) ([':'] ++ hex_pair 0)
    (hex_pair 1 ++ (hex_pair 0xFF ++ ('\n' :: tail))) (0 : Byte) (0 : Byte)
    (by show s.in_line = _
        rw [hline]; simp only [List.append_assoc, List.cons_append, List.nil_append])
    rfl
  have g3 := getbyte_hex_pair_wp (with_parse s 7 0)
    ([':'] ++ hex_pair 0 ++ hex_pair 0 ++ hex_pair 0)
    (hex_pair 0xFF ++ ('\n' :: tail)) (1 : Byte)
    (by show s.in_line = _
        rw [hline]; simp only [List.append_assoc, List.cons_append, List.nil_append])
    rfl
  have g4 := getbyte_hex_pair_wp (with_parse s 9 1)
    ([':'] ++ hex_pair 0 ++ hex_pair 0 ++ hex_pair 0 ++ hex_pair 1)
    ('\n' :: tail) (0xFF : Byte)
    (by show s.in_line = _
        rw [hline]; simp only [List.append_assoc, List.cons_append, List.nil_append])
    rfl
  unfold read_line
  rw [if_neg (by rw [hc0]; simp)]
  have e0 : ({ s with pbyte := 1, fcs := 0 } : Hex2Bin) = with_parse s 1 0 := rfl
  rw [e0, g1]
  simp only []
  rw [if_neg (by decide)]
  have e1 : with_parse (with_parse s 1 0) ((with_parse s 1 0).pbyte + 2)
      (((with_parse s 1 0).fcs + (0 : Byte).val) % 256) = with_parse s 3 0 := rfl
  rw [e1, g2]
  simp only []
  rw [if_neg (by decide)]
  have e2 : with_parse (with_parse s 3 0) ((with_parse s 3 0).pbyte + 4)
      ((((with_parse s 3 0).fcs + (0 : Byte).val) % 256 + (0 : Byte).val) % 256)
      = with_parse s 7 0 := rfl
  rw [e2, g3]
  simp only []
  have e3 : with_parse (with_parse s 7 0) ((with_parse s 7 0).pbyte + 2)
      (((with_parse s 7 0).fcs + (1 : Byte).val) % 256) = with_parse s 9 1 := rfl
  rw [e3]
  unfold record_switch
  rw [if_neg (by decide), if_pos (by rfl), g4]
  simp only []
  rw [if_neg (by decide), with_parse_with_parse]
  have e4 : (with_parse s 9 1).pbyte + 2 = 11 := rfl
  have e5 : ((with_parse s 9 1).fcs + (0xFF : Byte).val) % 256 = 0 := by
    show (1 + (0xFF : Byte).val) % 256 = 0
    decide
  rw [e4, e5]

theorem hex_text_no_newline (l : List Byte) : ∀ c ∈ hex_text l, c ≠ '\n' := by
  induction l with
  | nil => intro c hc; simp [hex_text] at hc
  | cons b l ih =>
    intro c hc
    simp only [hex_text, hex_pair, List.cons_append, List.nil_append, List.mem_cons] at hc
    rcases hc with h | h | h
    · rw [h]; exact hex_char_ne_newline _
    · rw [h]; exact hex_char_ne_newline _
    · exact ih c h

theorem hex_text_length (l : List Byte) : (hex_text l).length = 2 * l.length := by
  induction l with
  | nil => rfl
  | cons b l ih => simp [hex_text, hex_pair, ih]; omega

theorem fgets_take_line (n : Nat) (l rest : List Char) (hn : ∀ c ∈ l, c ≠ '\n')
    (hl : l.length < n) : fgets_take n (l ++ '\n' :: rest) = (l ++ ['\n'], rest) := by
  induction l generalizing n with
  | nil =>
    cases n with
    | zero => simp at hl
    | succ n => simp [fgets_take]
  | cons c l ih =>
    cases n with
    | zero => simp at hl
    | succ n =>
      have hc : c ≠ '\n' := hn c (List.mem_cons_self c l)
      have hi := ih n (fun x hx => hn x (List.mem_cons_of_mem c hx)) (by simpa using hl)
      show fgets_take (n + 1) (c :: (l ++ '\n' :: rest)) = (c :: (l ++ ['\n']), rest)
      rw [fgets_take, if_neg hc, hi]

theorem hex_record_split (addr : Nat) (rtyp : Byte) (payload : List Byte) :
    ∃ l, hex_record addr rtyp payload = l ++ ['\n'] ∧ (∀ c ∈ l, c ≠ '\n')
      ∧ l.length = 11 + 2 * payload.length := by
  refine ⟨':' :: (hex_text ([Fin.ofNat payload.length, Fin.ofNat (addr / 256), Fin.ofNat addr,
    rtyp] ++ payload) ++ hex_pair (record_checksum ([Fin.ofNat payload.length,
    Fin.ofNat (addr / 256), Fin.ofNat addr, rtyp] ++ payload))), ?_, ?_, ?_⟩
  · simp [hex_record]
  · intro c hc
    simp only [List.mem_cons, List.mem_append] at hc
    rcases hc with h | h | h
    · rw [h]; decide
    · exact hex_text_no_newline _ c h
    · simp only [hex_pair, List.mem_cons, List.mem_singleton, List.not_mem_nil, or_false] at h
      rcases h with h | h <;> rw [h] <;> exact hex_char_ne_newline _
  · simp [hex_text_length, hex_pair]
    omega

end JesFs

namespace JesFs

/-! ## Scenario A: one data record and the end record -/

theorem fgets_lines_record (fuel : Nat) (addr : Nat) (rtyp : Byte)
    (pl : List Byte) (stream : List Char) (hlen : pl.length ≤ 53) :
    fgets_lines (fuel + 1) (hex_record addr rtyp pl ++ stream)
      = hex_record addr rtyp pl :: fgets_lines fuel stream := by
  obtain ⟨l, h1, h2, h3⟩ := hex_record_split addr rtyp pl
  have hne : l ≠ [] := by
    intro h
    rw [h] at h3
    simp at h3
    omega
  obtain ⟨c, l', rfl⟩ := List.exists_cons_of_ne_nil hne
  have ht := fgets_take_line (MAXLINE - 1) (c :: l') stream h2
    (by rw [h3]; unfold MAXLINE; omega)
  rw [h1]
  have e : (c :: l') ++ ['\n'] ++ stream = (c :: l') ++ '\n' :: stream := by simp
  rw [e]
  show fgets_lines (fuel + 1) (c :: (l' ++ '\n' :: stream)) = _
  rw [fgets_lines]
  have e2 : c :: (l' ++ '\n' :: stream) = (c :: l') ++ '\n' :: stream := rfl
  rw [e2, ht]

theorem fgets_lines_nil (fuel : Nat) : fgets_lines fuel [] = [] := by
  cases fuel <;> rfl

theorem hex_record_length (addr : Nat) (rtyp : Byte) (pl : List Byte) :
    (hex_record addr rtyp pl).length = 12 + 2 * pl.length := by
  obtain ⟨l, h1, _, h3⟩ := hex_record_split addr rtyp pl
  rw [h1, List.length_append, h3]
  simp
  omega

theorem read_lines_continue (line : List Char) (rest : List (List Char)) (boffset b1 : Int)
    (s s1 : Hex2Bin) (h : read_line (fgets_store s line) boffset = some (Sum.inr b1, s1)) :
    read_lines (line :: rest) boffset s = read_lines rest b1 (count_line s1) := by
  rw [read_lines, h]

theorem read_lines_return (line : List Char) (rest : List (List Char)) (boffset code : Int)
    (s s1 : Hex2Bin) (h : read_line (fgets_store s line) boffset = some (Sum.inl code, s1)) :
    read_lines (line :: rest) boffset s = some (code, s1) := by
  rw [read_lines, h]

theorem with_parse_buffers (s : Hex2Bin) (p f : Nat) :
    (with_parse s p f).min_bin_addr = s.min_bin_addr
    ∧ (with_parse s p f).max_bin_addr = s.max_bin_addr
    ∧ (with_parse s p f).bin_bytes_cnt = s.bin_bytes_cnt
    ∧ (with_parse s p f).lowest_output_addr = s.lowest_output_addr
    ∧ (with_parse s p f).binbuf = s.binbuf := ⟨rfl, rfl, rfl, rfl, rfl⟩

theorem fgets_store_buffers (s : Hex2Bin) (line : List Char) :
    (fgets_store s line).min_bin_addr = s.min_bin_addr
    ∧ (fgets_store s line).max_bin_addr = s.max_bin_addr
    ∧ (fgets_store s line).bin_bytes_cnt = s.bin_bytes_cnt
    ∧ (fgets_store s line).lowest_output_addr = s.lowest_output_addr
    ∧ (fgets_store s line).binbuf = s.binbuf := ⟨rfl, rfl, rfl, rfl, rfl⟩

theorem count_line_buffers (s : Hex2Bin) :
    (count_line s).min_bin_addr = s.min_bin_addr
    ∧ (count_line s).max_bin_addr = s.max_bin_addr
    ∧ (count_line s).bin_bytes_cnt = s.bin_bytes_cnt
    ∧ (count_line s).lowest_output_addr = s.lowest_output_addr
    ∧ (count_line s).binbuf = s.binbuf := ⟨rfl, rfl, rfl, rfl, rfl⟩

theorem binbuf_slice_congr (s t : Hex2Bin) (h : s.binbuf = t.binbuf) (a n : Nat) :
    binbuf_slice s a n = binbuf_slice t a n := by
  unfold binbuf_slice
  rw [h]

/-- Reading the input file of scenario A from the initial globals. -/
theorem read_infile_scenario (data : List Byte) (hd : data.length = 16) :
    ∃ s, read_infile (some (hex_record 0 0 data ++ hex_record 0 1 [])) Hex2Bin.init
        = some (0, s)
      ∧ s.min_bin_addr = 0 ∧ s.max_bin_addr = 15 ∧ s.bin_bytes_cnt = 16
      ∧ s.lowest_output_addr = -1 ∧ binbuf_slice s 0 16 = data := by
  have hlines : fgets_lines (hex_record 0 0 data ++ hex_record 0 1 []).length
      (hex_record 0 0 data ++ hex_record 0 1 [])
      = [hex_record 0 0 data, hex_record 0 1 []] := by
    rw [List.length_append, hex_record_length, hex_record_length, hd]
    have e0 : 12 + 2 * 16 + (12 + 2 * ([] : List Byte).length) = 55 + 1 := rfl
    rw [e0, fgets_lines_record 55 0 0 data _ (by omega)]
    have e : hex_record 0 1 [] = hex_record 0 1 [] ++ [] := by simp
    have e1 : (55 : Nat) = 54 + 1 := rfl
    rw [e, e1, fgets_lines_record 54 0 1 [] _ (by simp), fgets_lines_nil]
    simp
  have h1 := read_line_data_record
    (fgets_store { Hex2Bin.init with in_line_cnt := 0 } (hex_record 0 0 data))
    0 data _ 0 rfl (by omega) (by decide) (by decide)
    (by rw [hd]; decide)
  have h2 := read_line_end_record
    (fgets_store (count_line
      (with_parse (store_bytes
        (fgets_store { Hex2Bin.init with in_line_cnt := 0 } (hex_record 0 0 data))
        (((0 : Nat) : Int) + 0) data) (11 + 2 * data.length) 0)) (hex_record 0 1 []))
    _ 0 rfl
  have hnil : data ≠ [] := by
    intro h
    rw [h] at hd
    simp at hd
  obtain ⟨b, data', rfl⟩ := List.exists_cons_of_ne_nil hnil
  have hs0 : ∀ l : List Char,
      (fgets_store { Hex2Bin.init with in_line_cnt := 0 } l).min_bin_addr = MAX_BUF - 1
      ∧ (fgets_store { Hex2Bin.init with in_line_cnt := 0 } l).max_bin_addr = 0
      ∧ (fgets_store { Hex2Bin.init with in_line_cnt := 0 } l).bin_bytes_cnt = 0
      ∧ (fgets_store { Hex2Bin.init with in_line_cnt := 0 } l).lowest_output_addr = -1 :=
    fun _ => ⟨rfl, rfl, rfl, rfl⟩
  generalize hsA : fgets_store { Hex2Bin.init with in_line_cnt := 0 }
    (hex_record 0 0 (b :: data')) = sA at h1 h2
  obtain ⟨a1, a2, a3, a4⟩ : sA.min_bin_addr = MAX_BUF - 1 ∧ sA.max_bin_addr = 0
      ∧ sA.bin_bytes_cnt = 0 ∧ sA.lowest_output_addr = -1 := by
    rw [← hsA]; exact hs0 _
  have hz : (((0 : Nat) : Int) + 0) = 0 := rfl
  rw [hz] at h1 h2
  refine ⟨with_parse (fgets_store (count_line
      (with_parse (store_bytes sA 0 (b :: data')) (11 + 2 * (b :: data').length) 0))
      (hex_record 0 1 [])) 11 0, ?_, ?_, ?_, ?_, ?_, ?_⟩
  · unfold read_infile
    simp only []
    rw [hlines, read_lines_continue _ _ _ _ _ _ (by rw [hsA]; exact h1),
      read_lines_return _ _ _ _ _ _ h2]
  · rw [(with_parse_buffers _ _ _).1, (fgets_store_buffers _ _).1, (count_line_buffers _).1,
      (with_parse_buffers _ _ _).1,
      store_bytes_min b data' _ _ (by decide) (by rw [hd]; decide), a1]
    decide
  · rw [(with_parse_buffers _ _ _).2.1, (fgets_store_buffers _ _).2.1,
      (count_line_buffers _).2.1, (with_parse_buffers _ _ _).2.1,
      store_bytes_max (b :: data') _ _ (by decide) (by rw [hd]; decide) (by simp), hd, a2]
    decide
  · rw [(with_parse_buffers _ _ _).2.2.1, (fgets_store_buffers _ _).2.2.1,
      (count_line_buffers _).2.2.1, (with_parse_buffers _ _ _).2.2.1,
      store_bytes_cnt (b :: data') _ _ (by decide) (by rw [hd]; decide), hd, a3]
    decide
  · rw [(with_parse_buffers _ _ _).2.2.2.1, (fgets_store_buffers _ _).2.2.2.1,
      (count_line_buffers _).2.2.2.1, (with_parse_buffers _ _ _).2.2.2.1,
      store_bytes_lowest, a4]
  · have := store_bytes_slice (b :: data') sA 0 (by decide) (by rw [hd]; decide)
    rw [hd] at this
    rw [binbuf_slice_congr _ (store_bytes sA 0 (b :: data')) _ 0 16]
    · exact this
    · rw [(with_parse_buffers _ _ _).2.2.2.2, (fgets_store_buffers _ _).2.2.2.2,
        (count_line_buffers _).2.2.2.2, (with_parse_buffers _ _ _).2.2.2.2]

end JesFs

namespace JesFs

theorem write_output_scenario (now : Nat) (s : Hex2Bin) (data : List Byte)
    (h1 : s.min_bin_addr = 0) (h2 : s.max_bin_addr = 15) (h3 : s.bin_bytes_cnt = 16)
    (h4 : s.lowest_output_addr = -1) (h5 : binbuf_slice s 0 16 = data) :
    write_output good_env now ⟨0, 0, 0, true⟩ s
      = (0, some (hdr_bytes
          { hdrmagic := HDR0_MAGIC, hdrsize := 32, binsize := 16, binload := 0,
            crc32 := fs_track_crc32 data 0xFFFFFFFF, timestamp := now % 2 ^ 32,
            binary_start := 0, resv0 := 0xFFFFFFFF } ++ data)) := by
  unfold write_output good_env write_header
  simp only [h1, h2, h3, h4]
  have e1 : ((15 : Int) - 0 + 1).toNat = 16 := by decide
  have e2 : (((15 : Int) - 0 + 1) % 2 ^ 32).toNat = 16 := by decide
  have e3 : ((0 : Int) % 2 ^ 32).toNat = 0 := by decide
  have e4 : (0 : Int).toNat = 0 := by decide
  simp [e1, e2, e3, e4, h5]

/-- C3: the header written by the build tool describes the payload behind it.
Whenever the tool, after its argument loop, has header type 0 and writes an
output file with result 0, the first 32 bytes of the file decode to a header
whose `crc32` is `fs_track_crc32` from the seed `0xFFFFFFFF` over exactly the
bytes behind the header, whose `binsize` is their number and whose `binload`
is the buffer address of the first of them. For an input file with one data
record of 16 bytes at address 0 and the end record `:00000001FF`, the marks
are `min_bin_addr = 0`, `max_bin_addr = 15`, and the output file is a header
with `binsize = 16`, `binload = 0`, `crc32 = fs_track_crc32` of the 16 bytes,
followed by these 16 bytes. -/
theorem C3_header_describes_payload :
    (∀ (env : OutEnv) (now : Nat) (args : List Arg) (v : MainVars) (s : Hex2Bin)
        (file : List Byte),
        arg_loop args ⟨0, -1, 0, false⟩ Hex2Bin.init = some (Sum.inr v, s) →
        v.hdrtype = 0 →
        hex2bin_main env now args = some (0, some file) →
        (hdr_of_bytes (file.take 32)).hdrmagic = HDR0_MAGIC
        ∧ (hdr_of_bytes (file.take 32)).hdrsize = 32
        ∧ (hdr_of_bytes (file.take 32)).crc32 = fs_track_crc32 (file.drop 32) 0xFFFFFFFF
        ∧ (hdr_of_bytes (file.take 32)).binsize = (file.drop 32).length
        ∧ file.drop 32
            = binbuf_slice s (hdr_of_bytes (file.take 32)).binload (file.drop 32).length
        ∧ file.length = 32 + (hdr_of_bytes (file.take 32)).binsize)
    ∧ (∀ (data : List Byte) (now : Nat), data.length = 16 →
        ∃ s file,
          arg_loop (scenario_args data) ⟨0, -1, 0, false⟩ Hex2Bin.init
            = some (Sum.inr ⟨0, 0, 0, true⟩, s)
          ∧ s.min_bin_addr = 0 ∧ s.max_bin_addr = 15
          ∧ hex2bin_main good_env now (scenario_args data) = some (0, some file)
          ∧ file.length = 32 + 16
          ∧ file.drop 32 = data
          ∧ (hdr_of_bytes (file.take 32)).binsize = 16
          ∧ (hdr_of_bytes (file.take 32)).binload = 0
          ∧ (hdr_of_bytes (file.take 32)).crc32 = fs_track_crc32 data 0xFFFFFFFF)
    ∧ (∀ data : List Byte, data.length = 16 →
        (hex_record 0 0 data).take 9 = ":10000000".toList)
    ∧ hex_record 0 1 [] = ":00000001FF\n".toList := by
  refine ⟨?_, ?_, ?_, by decide⟩
  · intro env now args v s file ha ht hm
    have hb := arg_loop_bounds args _ _ _ _ ha init_bounds
    cases args with
    | nil =>
      simp only [hex2bin_main] at hm
      exact absurd (congrArg Prod.snd (Option.some.inj hm)) (by simp)
    | cons a rest =>
      simp only [hex2bin_main] at hm
      rw [ha] at hm
      simp only [] at hm
      obtain ⟨p1, p2, p3, p4, p5, _, _, _, p9⟩ :=
        write_output_header env now v s file hb ht (Option.some.inj hm)
      exact ⟨p1, p2, p3, p4, p5, p9⟩
  · intro data now hd
    obtain ⟨s, r0, r1, r2, r3, r4, r5⟩ := read_infile_scenario data hd
    have ha : arg_loop (scenario_args data) ⟨0, -1, 0, false⟩ Hex2Bin.init
        = some (Sum.inr ⟨0, 0, 0, true⟩, s) := by
      unfold scenario_args
      rw [arg_loop, r0]
      simp [arg_loop]
    have hw := write_output_scenario now s data r1 r2 r3 r4 r5
    have hm : hex2bin_main good_env now (scenario_args data)
        = some (write_output good_env now ⟨0, 0, 0, true⟩ s) := by
      unfold hex2bin_main
      rw [ha]
      rfl
    rw [hw] at hm
    have hprops := write_output_header good_env now ⟨0, 0, 0, true⟩ s _
      (arg_loop_bounds _ _ _ _ _ ha init_bounds) rfl hw
    have hdl := hdr_bytes_length
      { hdrmagic := HDR0_MAGIC, hdrsize := 32, binsize := 16, binload := 0,
        crc32 := fs_track_crc32 data 0xFFFFFFFF, timestamp := now % 2 ^ 32,
        binary_start := 0, resv0 := 0xFFFFFFFF }
    have hdrop : (hdr_bytes
        { hdrmagic := HDR0_MAGIC, hdrsize := 32, binsize := 16, binload := 0,
          crc32 := fs_track_crc32 data 0xFFFFFFFF, timestamp := now % 2 ^ 32,
          binary_start := 0, resv0 := 0xFFFFFFFF } ++ data).drop 32 = data := by
      rw [List.drop_append_of_le_length (by rw [hdl]), List.drop_of_length_le (by rw [hdl]),
        List.nil_append]
    have hlen : (hdr_bytes
        { hdrmagic := HDR0_MAGIC, hdrsize := 32, binsize := 16, binload := 0,
          crc32 := fs_track_crc32 data 0xFFFFFFFF, timestamp := now % 2 ^ 32,
          binary_start := 0, resv0 := 0xFFFFFFFF } ++ data).length = 32 + 16 := by
      rw [List.length_append, hdl, hd]
    obtain ⟨_, _, p3, p4, _, _, _, _, p9⟩ := hprops
    rw [hdrop] at p3 p4
    rw [hd] at p4
    have hload : (hdr_of_bytes ((hdr_bytes
        { hdrmagic := HDR0_MAGIC, hdrsize := 32, binsize := 16, binload := 0,
          crc32 := fs_track_crc32 data 0xFFFFFFFF, timestamp := now % 2 ^ 32,
          binary_start := 0, resv0 := 0xFFFFFFFF } ++ data).take 32)).binload = 0 := by
      rw [List.take_append_of_le_length (by rw [hdl]), List.take_of_length_le (by rw [hdl]),
        hdr_of_hdr_bytes _ (by simp only [HDR0_MAGIC]; omega) (by simp only []; omega)
          (by simp only []; omega) (by simp only []; omega)
          (fs_track_crc32_lt _ _ (by decide)) (Nat.mod_lt _ (by decide))
          (by simp only []; omega) (by simp only []; omega)]
    exact ⟨s, _, ha, r1, r2, hm, hlen, hdrop, p4, hload, p3⟩
  · intro data hd
    show List.take 9 (':' :: (hex_text ([Fin.ofNat data.length, Fin.ofNat (0 / 256),
      Fin.ofNat 0, 0] ++ data) ++ hex_pair (record_checksum ([Fin.ofNat data.length,
      Fin.ofNat (0 / 256), Fin.ofNat 0, 0] ++ data)) ++ ['\n'])) = _
    rw [hd]
    rfl

theorem C3_witness :
    ∃ file, hex2bin_main good_env 1234
        (scenario_args [0, 1, 2, 3, 4, 5, 6, 7, 8, 9, 10, 11, 12, 13, 14, 15])
        = some (0, some file)
      ∧ (hdr_of_bytes (file.take 32)).crc32 = fs_track_crc32 (file.drop 32) 0xFFFFFFFF
      ∧ (hdr_of_bytes (file.take 32)).binsize = (file.drop 32).length
      ∧ file.drop 32 = [0, 1, 2, 3, 4, 5, 6, 7, 8, 9, 10, 11, 12, 13, 14, 15] := by
  obtain ⟨s, file, ha, _, _, hm, _, hdrop, _⟩ :=
    C3_header_describes_payload.2.1 [0, 1, 2, 3, 4, 5, 6, 7, 8, 9, 10, 11, 12, 13, 14, 15] 1234 rfl
  have h := C3_header_describes_payload.1 good_env 1234 _ _ s file ha rfl hm
  exact ⟨file, hm, h.2.2.1, h.2.2.2.1, hdrop⟩

end JesFs

namespace JesFs

/-! ## End-to-end success of an update -/

theorem word_at_lt (bs : List Byte) (k : Nat) : word_at bs k < 2 ^ 32 := by
  unfold word_at
  have h0 := (bs.getD (4 * k) 0).isLt
  have h1 := (bs.getD (4 * k + 1) 0).isLt
  have h2 := (bs.getD (4 * k + 2) 0).isLt
  have h3 := (bs.getD (4 * k + 3) 0).isLt
  omega

theorem aligned_page_fits (ps M a : Nat) (hM : ps ∣ M) (ha : a % ps = 0) (hlt : a < M) :
    a + ps ≤ M := by
  obtain ⟨n, rfl⟩ := hM
  obtain ⟨q, rfl⟩ := Nat.dvd_of_mod_eq_zero ha
  have hq : q < n := Nat.lt_of_mul_lt_mul_left hlt
  calc ps * q + ps = ps * (q + 1) := by ring
    _ ≤ ps * n := Nat.mul_le_mul_left ps hq

theorem page_of_aligned (ps a z : Nat) (hps : 0 < ps) (ha : a % ps = 0)
    (h : z / ps = a / ps) : a ≤ z ∧ z < a + ps := by
  have h1 : a = ps * (a / ps) := by
    have := Nat.div_add_mod a ps
    omega
  have h2 := Nat.div_add_mod z ps
  have h3 := Nat.mod_lt z hps
  rw [h] at h2
  omega

theorem flash_chunk_frame (P : Platform) (hps : 0 < P.CODE_PAGE_SIZE)
    (h4 : 4 ∣ P.CODE_PAGE_SIZE)
    (fadr : Nat) (d : FS_DESC) (sb : List Byte) (mem : Memory) (bl : Nat)
    (hbl : bl ≤ P.CODE_PAGE_SIZE) (ha : fadr % P.CODE_PAGE_SIZE = 0)
    (hw : fadr + P.CODE_PAGE_SIZE ≤ 2 ^ 32)
    (hs : (fs_read d true bl).1.length = bl) (x : Nat)
    (hx : x / P.CODE_PAGE_SIZE ≠ fadr / P.CODE_PAGE_SIZE) :
    (nvmc P).write_words ((nvmc P).page_erase mem fadr) fadr
      ((buf_store sb (fs_read d true bl).1).take (4 * ((bl + 3) / 4))) x = mem x := by
  have hlen := buf_store_take_length sb (fs_read d true bl).1
  rw [hs] at hlen
  have hr := round4_le P.CODE_PAGE_SIZE bl h4 hbl
  have hfit : fadr + ((buf_store sb (fs_read d true bl).1).take (4 * ((bl + 3) / 4))).length
      ≤ 2 ^ 32 := by omega
  rw [nvmc_write_outside P _ _ _ _ hfit, nvmc_erase_other P _ _ _ hx]
  by_contra hc
  apply hx
  have e : x = fadr + (x - fadr) := by omega
  rw [e]
  exact aligned_add_div _ _ _ hps ha (by omega)

/-- The flashing loop with the faithful flash on a page-aligned destination
whose addresses are taken modulo `2 ^ 32` as the loop does: the bytes read are
in memory at their destination, the pages of no destination address are
untouched, and every chunk lies in the page erased for it. -/
theorem flash_loop_nvmc_mod (P : Platform) (hps : 0 < P.CODE_PAGE_SIZE)
    (h4 : 4 ∣ P.CODE_PAGE_SIZE) (hM : P.CODE_PAGE_SIZE ∣ 2 ^ 32)
    (fuel total_len fadr : Nat) (d : FS_DESC) (sb : List Byte) (mem : Memory)
    (hf : total_len ≤ fuel) (ha : fadr % P.CODE_PAGE_SIZE = 0) (hlt : fadr < 2 ^ 32)
    (ht : total_len ≤ 2 ^ 32) (hle : d.pos + total_len ≤ d.content.length) :
    (∀ k, k < total_len →
      (flash_loop P (nvmc P) fuel total_len fadr d sb mem).2.1 ((fadr + k) % 2 ^ 32)
        = d.content.getD (d.pos + k) 0)
    ∧ (∀ x, (∀ k, k < total_len →
          x / P.CODE_PAGE_SIZE ≠ ((fadr + k) % 2 ^ 32) / P.CODE_PAGE_SIZE) →
      (flash_loop P (nvmc P) fuel total_len fadr d sb mem).2.1 x = mem x)
    ∧ chunks_erased P.CODE_PAGE_SIZE
        (flash_loop P (nvmc P) fuel total_len fadr d sb mem).2.2 = true := by
  induction fuel generalizing total_len fadr d sb mem with
  | zero =>
    have : total_len = 0 := by omega
    subst this
    rw [flash_loop_zero]
    exact ⟨fun k hk => absurd hk (by omega), fun _ _ => rfl, rfl⟩
  | succ fuel ih =>
    by_cases h0 : total_len = 0
    · subst h0
      rw [flash_loop_zero]
      exact ⟨fun k hk => absurd hk (by omega), fun _ _ => rfl, rfl⟩
    · have hlen := fs_read_length d true (block_len P total_len)
      have hpos := fs_read_pos d true (block_len P total_len)
      have hble := block_len_le P total_len
      have hblp := block_len_le_page P total_len
      have hbpos := block_len_pos P total_len hps h0
      have hcont := fs_read_content d true (block_len P total_len)
      have hs : (fs_read d true (block_len P total_len)).1.length = block_len P total_len := by
        rw [hlen]; omega
      rw [hs] at hlen
      rw [← hlen] at hpos
      have hpf := aligned_page_fits _ _ _ hM ha hlt
      obtain ⟨c1, _⟩ := flash_chunk P h4 fadr d sb mem (block_len P total_len) hblp ha
        (by omega) hs
      have c2 := flash_chunk_frame P hps h4 fadr d sb mem (block_len P total_len) hblp ha
        hpf hs
      rw [flash_loop_step P (nvmc P) _ _ _ _ _ _ h0 hs]
      simp only []
      have hpage : (fadr + block_len P total_len - 1) / P.CODE_PAGE_SIZE
          = fadr / P.CODE_PAGE_SIZE := by
        have e : fadr + block_len P total_len - 1 = fadr + (block_len P total_len - 1) := by
          omega
        rw [e]
        exact aligned_add_div _ _ _ hps ha (by omega)
      have hfirst : ∀ k, k < block_len P total_len → (fadr + k) % 2 ^ 32 = fadr + k :=
        fun k hk => Nat.mod_eq_of_lt (by omega)
      have hx0 : ∀ x, (∀ k, k < total_len →
          x / P.CODE_PAGE_SIZE ≠ ((fadr + k) % 2 ^ 32) / P.CODE_PAGE_SIZE) →
          x / P.CODE_PAGE_SIZE ≠ fadr / P.CODE_PAGE_SIZE := by
        intro x hx
        have := hx 0 (by omega)
        rw [Nat.add_zero, Nat.mod_eq_of_lt hlt] at this
        exact this
      by_cases hlast : total_len - block_len P total_len = 0
      · rw [hlast, flash_loop_zero]
        simp only []
        have hbt : block_len P total_len = total_len := by omega
        refine ⟨?_, ?_, ?_⟩
        · intro k hk
          rw [hfirst k (by omega)]
          exact c1 k (by omega)
        · intro x hx
          exact c2 x (hx0 x hx)
        · simp [chunks_erased, hpage]
      · have hfull : block_len P total_len = P.CODE_PAGE_SIZE :=
          block_len_eq_page P total_len (by omega)
        have hal : ((fadr + block_len P total_len) % 2 ^ 32) % P.CODE_PAGE_SIZE = 0 := by
          rw [Nat.mod_mod_of_dvd _ hM, hfull, Nat.add_mod_right]; exact ha
        have hshift : ∀ j, ((fadr + block_len P total_len) % 2 ^ 32 + j) % 2 ^ 32
            = (fadr + (block_len P total_len + j)) % 2 ^ 32 := by
          intro j
          rw [Nat.mod_add_mod, Nat.add_assoc]
        obtain ⟨i1, i2, i3⟩ := ih (total_len - block_len P total_len)
          ((fadr + block_len P total_len) % 2 ^ 32)
          (fs_read d true (block_len P total_len)).2
          (buf_store sb (fs_read d true (block_len P total_len)).1)
          ((nvmc P).write_words ((nvmc P).page_erase mem fadr) fadr
            ((buf_store sb (fs_read d true (block_len P total_len)).1).take
              (4 * ((block_len P total_len + 3) / 4))))
          (by omega) hal (Nat.mod_lt _ (by decide)) (by omega) (by rw [hcont, hpos]; omega)
        refine ⟨?_, ?_, ?_⟩
        · intro k hk
          by_cases hk1 : k < block_len P total_len
          · rw [hfirst k hk1]
            rw [i2 (fadr + k) (by
              intro j hj
              rw [hshift j, aligned_add_div _ _ _ hps ha (by omega)]
              intro hc
              have hz := page_of_aligned _ _ _ hps ha hc.symm
              have hm := Nat.mod_add_div (fadr + (block_len P total_len + j)) (2 ^ 32)
              have hd : (fadr + (block_len P total_len + j)) / 2 ^ 32 = 0
                  ∨ (fadr + (block_len P total_len + j)) / 2 ^ 32 = 1 := by
                have : (fadr + (block_len P total_len + j)) / 2 ^ 32 < 2 :=
                  Nat.div_lt_of_lt_mul (by omega)
                omega
              rcases hd with hd | hd <;> rw [hd] at hm <;> omega)]
            exact c1 k hk1
          · have e : (fadr + k) % 2 ^ 32
                = ((fadr + block_len P total_len) % 2 ^ 32 + (k - block_len P total_len))
                    % 2 ^ 32 := by
              rw [hshift]
              congr 2
              omega
            rw [e, i1 (k - block_len P total_len) (by omega), hpos]
            congr 1
            omega
        · intro x hx
          rw [i2 x (by
            intro j hj
            rw [hshift j]
            exact hx (block_len P total_len + j) (by omega))]
          exact c2 x (hx0 x hx)
        · simpa [chunks_erased, hpage] using i3

end JesFs

namespace JesFs

theorem mem_read_eq_of_forall_mod (m : Memory) (a : Nat) (l : List Byte)
    (h : ∀ k, k < l.length → m ((a + k) % 2 ^ 32) = l.getD k 0) :
    mem_read m a l.length = l := by
  unfold mem_read
  apply List.ext_getElem
  · simp
  · intro n h1 h2
    simp only [List.getElem_map, List.getElem_range]
    rw [h n h2, List.getD_eq_getElem?_getD, List.getElem?_eq_getElem h2]
    rfl

/-- Program memory after a run of `check_system` that flashed a page-aligned
image whose pages (addresses taken modulo `2 ^ 32`) do not include the
settings page, with the faithful flash. -/
theorem flashed_memory_nvmc_mod (P : Platform) (w : Device) (content : List Byte)
    (hps : 0 < P.CODE_PAGE_SIZE) (h4 : 4 ∣ P.CODE_PAGE_SIZE) (h32 : 32 ≤ P.CODE_PAGE_SIZE)
    (hM : P.CODE_PAGE_SIZE ∣ 2 ^ 32)
    (hS : P.BOOTLOADER_SETTINGS_ADDRESS % P.CODE_PAGE_SIZE = 0)
    (hSw : P.BOOTLOADER_SETTINGS_ADDRESS + 32 ≤ 2 ^ 32)
    (hlen : 32 ≤ content.length)
    (hfull : (candidate_payload content).length = (candidate_header content).binsize)
    (halign : (candidate_header content).binload % P.CODE_PAGE_SIZE = 0)
    (hdisj : ∀ k, k < (candidate_header content).binsize →
      (((candidate_header content).binload + k) % 2 ^ 32) / P.CODE_PAGE_SIZE
        ≠ P.BOOTLOADER_SETTINGS_ADDRESS / P.CODE_PAGE_SIZE) :
    mem_read (flashed_memory P (nvmc P) w content) (candidate_header content).binload
        (candidate_header content).binsize = candidate_payload content := by
  have hfit := (candidate_payload_length content hlen).1 hfull
  have hdc := flash_desc_content P w content
  have hdp := flash_desc_pos P w content hlen
  have hbl : (candidate_header content).binload < 2 ^ 32 := word_at_lt _ _
  have hbs : (candidate_header content).binsize < 2 ^ 32 := word_at_lt _ _
  obtain ⟨l1, _, _⟩ := flash_loop_nvmc_mod P hps h4 hM (candidate_header content).binsize
    (candidate_header content).binsize (candidate_header content).binload
    (fs_read (fs_rewind (integrity_pass P w content).2.1) false 32).2
    (integrity_pass P w content).2.2.1 w.mem (le_refl _) halign hbl (by omega)
    (by rw [hdc, hdp]; omega)
  rw [hdc, hdp] at l1
  have htl : (content.take 32).length = 32 := by
    rw [List.length_take]; omega
  have hSfit : P.BOOTLOADER_SETTINGS_ADDRESS + (content.take 32).length ≤ 2 ^ 32 := by
    rw [htl]; exact hSw
  have := mem_read_eq_of_forall_mod (flashed_memory P (nvmc P) w content)
    (candidate_header content).binload (candidate_payload content)
  rw [hfull] at this
  apply this
  intro k hk
  have hpg := hdisj k hk
  unfold flashed_memory
  rw [nvmc_write_outside P _ _ _ _ hSfit, nvmc_erase_other P _ _ _ hpg]
  · unfold flash_pass
    rw [l1 k hk, candidate_payload_getD content k hk]
  · rw [htl]
    by_contra hc
    apply hpg
    have e : ((candidate_header content).binload + k) % 2 ^ 32
        = P.BOOTLOADER_SETTINGS_ADDRESS
          + (((candidate_header content).binload + k) % 2 ^ 32
              - P.BOOTLOADER_SETTINGS_ADDRESS) := by
      omega
    rw [e]
    exact aligned_add_div _ _ _ hps hS (by omega)

/-- C11: end-to-end success. On a platform whose page size is positive, a
multiple of 4, at least 32 and a divisor of `2 ^ 32`, with a page-aligned
settings record inside the address space: for every candidate file whose
header has the right magic and `hdrsize = 32`, whose payload is complete and
has the CRC the header announces, whose `binload` is page-aligned, whose
destination pages do not include the settings page, and which the identical
shortcut does not skip, `check_system` with the faithful flash returns 1,
the record at the settings address equals the candidate header, program
memory at `[binload, binload + binsize)` equals the payload, and the check of
step 1 on the memory left behind finds the image valid. -/
theorem C11_update_succeeds (P : Platform) (w : Device) (content : List Byte)
    (hps : 0 < P.CODE_PAGE_SIZE) (h4 : 4 ∣ P.CODE_PAGE_SIZE) (h32 : 32 ≤ P.CODE_PAGE_SIZE)
    (hM : P.CODE_PAGE_SIZE ∣ 2 ^ 32)
    (hS : P.BOOTLOADER_SETTINGS_ADDRESS % P.CODE_PAGE_SIZE = 0)
    (hSw : P.BOOTLOADER_SETTINGS_ADDRESS + 32 ≤ 2 ^ 32)
    (hd : w.disk = some content) (hlen : 32 ≤ content.length)
    (hmagic : (candidate_header content).hdrmagic = HDR0_MAGIC)
    (hsize : (candidate_header content).hdrsize = 32)
    (hfull : (candidate_payload content).length = (candidate_header content).binsize)
    (hcrc : fs_track_crc32 (candidate_payload content) 0xFFFFFFFF
      = (candidate_header content).crc32)
    (halign : (candidate_header content).binload % P.CODE_PAGE_SIZE = 0)
    (hdisj : ∀ k, k < (candidate_header content).binsize →
      (((candidate_header content).binload + k) % 2 ^ 32) / P.CODE_PAGE_SIZE
        ≠ P.BOOTLOADER_SETTINGS_ADDRESS / P.CODE_PAGE_SIZE)
    (hid : ¬ identical_candidate P w content) :
    (check_system P (nvmc P) w).res = some 1
    ∧ pbl_memory P (check_system P (nvmc P) w).mem = candidate_header content
    ∧ mem_read (check_system P (nvmc P) w).mem P.BOOTLOADER_SETTINGS_ADDRESS 32
        = content.take 32
    ∧ mem_read (check_system P (nvmc P) w).mem (candidate_header content).binload
        (candidate_header content).binsize = candidate_payload content
    ∧ cpu_firmware_check P (check_system P (nvmc P) w).mem = true := by
  have hdone := (integrity_pass_exit P hps w content hlen).1 hfull
  have hc2 : (integrity_pass P w content).2.1.file_crc32 = (candidate_header content).crc32 := by
    rw [(integrity_pass_done P w content hlen hdone).2.1]; exact hcrc
  have hfl := flash_pass_exit P (nvmc P) hps w content hlen hfull
  have m1 := flashed_memory_nvmc_mod P w content hps h4 h32 hM hS hSw hlen hfull halign hdisj
  have m2 := flashed_record_nvmc P w content hSw hlen
  have hpbl : pbl_memory P (flashed_memory P (nvmc P) w content) = candidate_header content := by
    unfold pbl_memory candidate_header
    rw [m2]
  have hchk : cpu_firmware_check P (flashed_memory P (nvmc P) w content) = true := by
    unfold cpu_firmware_check
    rw [hpbl, if_pos ⟨hmagic, hsize⟩]
    simp only [m1, hcrc, if_true]
  rcases check_system_flashing P (nvmc P) w content hd hlen hmagic hid hdone hc2 with
    ⟨h1, _⟩ | ⟨h1, _⟩ | ⟨_, h1, h2, _⟩
  · rw [hfl] at h1; exact absurd h1 (by simp)
  · rw [hfl] at h1; exact absurd h1 (by simp)
  · rw [h2, h1, hchk]
    exact ⟨rfl, hpbl, m2, m1, rfl⟩

theorem C11_witness :
    (check_system nrf52840 (nvmc nrf52840) fresh_device).res = some 1
    ∧ mem_read (check_system nrf52840 (nvmc nrf52840) fresh_device).mem 0x1000 5
        = [1, 2, 3, 4, 5]
    ∧ cpu_firmware_check nrf52840
        (check_system nrf52840 (nvmc nrf52840) fresh_device).mem = true :=
  ⟨(C11_update_succeeds nrf52840 fresh_device (mk_image 0x1000 77 32 [1, 2, 3, 4, 5])
      (by decide) (by decide) (by decide) (by decide) (by decide) (by decide) rfl (by decide)
      (by decide) (by decide) (by decide) (by decide) (by decide) (by decide) (by decide)).1,
   by decide, by decide⟩

end JesFs

namespace JesFs

/-! ## Reading hex digits in either case -/

theorem hex_digit_lt (c : Char) (n : Nat) (h : hex_digit c = some n) : n < 16 := by
  unfold hex_digit at h
  split at h
  · rename_i hc
    have h1 : c.toNat ≤ '9'.toNat := hc.2
    have h2 : '0'.toNat ≤ c.toNat := hc.1
    have e1 : '9'.toNat = 57 := rfl
    have e0 : '0'.toNat = 48 := rfl
    simp only [Option.some.injEq] at h
    omega
  · split at h
    · rename_i hc
      have h1 : c.toNat ≤ 'f'.toNat := hc.2
      have h2 : 'a'.toNat ≤ c.toNat := hc.1
      have e1 : 'f'.toNat = 102 := rfl
      have e0 : 'a'.toNat = 97 := rfl
      simp only [Option.some.injEq] at h
      omega
    · split at h
      · rename_i hc
        have h1 : c.toNat ≤ 'F'.toNat := hc.2
        have h2 : 'A'.toNat ≤ c.toNat := hc.1
        have e1 : 'F'.toNat = 70 := rfl
        have e0 : 'A'.toNat = 65 := rfl
        simp only [Option.some.injEq] at h
        omega
      · simp at h

theorem decode_hex_cons (text : List Char) (b : Byte) (bs : List Byte)
    (h : decode_hex text = some (b :: bs)) :
    ∃ c0 c1 cs n0 n1, text = c0 :: c1 :: cs ∧ hex_digit c0 = some n0 ∧ hex_digit c1 = some n1
      ∧ b.val = n0 * 16 + n1 ∧ decode_hex cs = some bs := by
  match text, h with
  | [], h => simp [decode_hex] at h
  | [_], h => simp [decode_hex] at h
  | c0 :: c1 :: cs, h =>
    unfold decode_hex at h
    split at h
    · rename_i n0 n1 bs1 h0 h1 h2
      simp only [Option.some.injEq, List.cons.injEq] at h
      have l0 := hex_digit_lt c0 n0 h0
      have l1 := hex_digit_lt c1 n1 h1
      refine ⟨c0, c1, cs, n0, n1, rfl, h0, h1, ?_, ?_⟩
      · rw [← h.1]
        show (n0 * 16 + n1) % 256 = _
        omega
      · rw [h2, h.2]
    · simp at h

theorem decode_hex_length (text : List Char) (bs : List Byte)
    (h : decode_hex text = some bs) : text.length = 2 * bs.length := by
  induction bs generalizing text with
  | nil =>
    match text, h with
    | [], _ => rfl
    | [_], h => simp [decode_hex] at h
    | c0 :: c1 :: cs, h =>
      unfold decode_hex at h
      split at h <;> simp at h
  | cons b bs ih =>
    obtain ⟨c0, c1, cs, n0, n1, rfl, _, _, _, h5⟩ := decode_hex_cons text b bs h
    simp only [List.length_cons, ih cs h5]
    omega

theorem decode_hex_append (text : List Char) (p q : List Byte)
    (h : decode_hex text = some (p ++ q)) :
    decode_hex (text.take (2 * p.length)) = some p
    ∧ decode_hex (text.drop (2 * p.length)) = some q := by
  induction p generalizing text with
  | nil => exact ⟨rfl, h⟩
  | cons b p ih =>
    obtain ⟨c0, c1, cs, n0, n1, rfl, h0, h1, hb, h5⟩ := decode_hex_cons text b (p ++ q) h
    obtain ⟨i1, i2⟩ := ih cs h5
    have e : 2 * (b :: p).length = 2 * p.length + 1 + 1 := by simp only [List.length_cons]; omega
    rw [e]
    simp only [List.take_succ_cons, List.drop_succ_cons]
    refine ⟨?_, i2⟩
    unfold decode_hex
    rw [h0, h1, i1]
    simp only [Option.some.injEq, List.cons.injEq, and_true]
    apply Fin.ext
    show (n0 * 16 + n1) % 256 = b.val
    have := b.isLt
    omega

theorem get?_of_drop (l : List Char) (k j : Nat) (c : Char)
    (h : (l.drop k).get? j = some c) : l.get? (k + j) = some c := by
  rw [List.get?_eq_getElem?] at *
  rw [List.getElem?_drop] at h
  exact h

/-- Function `getbyte` on two hex digits in either case. -/
theorem getbyte_drop (s : Hex2Bin) (c0 c1 : Char) (tl : List Char) (n0 n1 : Nat)
    (hd : s.in_line.drop s.pbyte = c0 :: c1 :: tl)
    (h0 : hex_digit c0 = some n0) (h1 : hex_digit c1 = some n1) :
    getbyte s = some (((n0 * 16 + n1 : Nat) : Int),
      with_parse s (s.pbyte + 2) ((s.fcs + (n0 * 16 + n1)) % 256)) := by
  have g0 : s.in_line.get? s.pbyte = some c0 := by
    have := get?_of_drop s.in_line s.pbyte 0 c0 (by rw [hd]; rfl)
    rwa [Nat.add_zero] at this
  have g1 : s.in_line.get? (s.pbyte + 1) = some c1 :=
    get?_of_drop s.in_line s.pbyte 1 c1 (by rw [hd]; rfl)
  unfold getbyte
  rw [g0]
  simp only []
  rw [h0]
  simp only []
  rw [g1]
  simp only []
  rw [h1]
  rfl

/-- Function `getbyte` in front of a text that spells the bytes `b :: bs`. -/
theorem getbyte_decoded (s : Hex2Bin) (text rest : List Char) (b : Byte) (bs : List Byte)
    (hd : s.in_line.drop s.pbyte = text ++ rest) (hx : decode_hex text = some (b :: bs)) :
    getbyte s = some ((b.val : Int), with_parse s (s.pbyte + 2) ((s.fcs + b.val) % 256))
    ∧ s.in_line.drop (s.pbyte + 2) = text.drop 2 ++ rest
    ∧ decode_hex (text.drop 2) = some bs := by
  obtain ⟨c0, c1, cs, n0, n1, rfl, h0, h1, hb, h5⟩ := decode_hex_cons text b bs hx
  refine ⟨?_, ?_, h5⟩
  · rw [hb]
    exact getbyte_drop s c0 c1 (cs ++ rest) n0 n1 hd h0 h1
  · rw [← List.drop_drop, hd]
    rfl

/-- Function `getuint16` in front of a text that spells `hi :: lo :: bs`. -/
theorem getuint16_decoded (s : Hex2Bin) (text rest : List Char) (hi lo : Byte)
    (bs : List Byte)
    (hd : s.in_line.drop s.pbyte = text ++ rest) (hx : decode_hex text = some (hi :: lo :: bs)) :
    getuint16 s = some ((hi.val : Int) * 256 + lo.val,
      with_parse s (s.pbyte + 4) ((s.fcs + hi.val + lo.val) % 256))
    ∧ s.in_line.drop (s.pbyte + 4) = text.drop 4 ++ rest
    ∧ decode_hex (text.drop 4) = some bs := by
  obtain ⟨g1, d1, x1⟩ := getbyte_decoded s text rest hi (lo :: bs) hd hx
  obtain ⟨g2, d2, x2⟩ := getbyte_decoded (with_parse s (s.pbyte + 2) ((s.fcs + hi.val) % 256))
    (text.drop 2) rest lo bs d1 x1
  refine ⟨?_, ?_, ?_⟩
  · unfold getuint16
    rw [g1]
    simp only []
    rw [if_neg (by omega), g2]
    simp only []
    rw [if_neg (by omega), with_parse_with_parse]
    have e1 : (with_parse s (s.pbyte + 2) ((s.fcs + hi.val) % 256)).pbyte + 2 = s.pbyte + 4 := by
      show s.pbyte + 2 + 2 = _
      omega
    have e2 : ((with_parse s (s.pbyte + 2) ((s.fcs + hi.val) % 256)).fcs + lo.val) % 256
        = (s.fcs + hi.val + lo.val) % 256 := by
      show ((s.fcs + hi.val) % 256 + lo.val) % 256 = _
      omega
    rw [e1, e2]
  · have := d2
    rw [List.drop_drop] at this
    exact this
  · rw [List.drop_drop] at x2
    exact x2

end JesFs

namespace JesFs

/-! ## One line of the input file, its pairs spelled in either case -/

/-- The data loop on a text that spells `data`, all target addresses inside
the buffer: all bytes are stored, the pointer is behind the text and the line
sum has grown by the bytes. -/
theorem data_loop_decoded (data : List Byte) (s : Hex2Bin) (text rest : List Char)
    (badr boffset : Int) (hd : s.in_line.drop s.pbyte = text ++ rest)
    (hx : decode_hex text = some data) (hf : s.fcs < 256) (h0 : 0 ≤ badr + boffset)
    (h1 : badr + boffset + data.length ≤ MAX_BUF) :
    data_loop data.length badr boffset s
      = some (true, with_parse (store_bytes s (badr + boffset) data)
          (s.pbyte + 2 * data.length) ((s.fcs + byte_sum data) % 256)) := by
  induction data generalizing s text badr with
  | nil =>
    simp only [List.length_nil, data_loop, store_bytes, byte_sum, Nat.mul_zero, Nat.add_zero]
    rw [Nat.mod_eq_of_lt hf, with_parse_self]
  | cons b data ih =>
    have hmax : MAX_BUF = 2097152 := by decide
    simp only [List.length_cons, Nat.cast_add, Nat.cast_one] at h1
    obtain ⟨hg, d1, x1⟩ := getbyte_decoded s text rest b data hd hx
    have hw : wrap32 (badr + boffset) = badr + boffset :=
      wrap32_small _ h0 (by omega)
    simp only [List.length_cons, data_loop]
    rw [hg]
    simp only []
    rw [hw, write_byte_with_parse]
    simp only []
    rw [write_byte_ok s (badr + boffset) b.val h0 (by omega)]
    simp only [ne_eq, not_true_eq_false, if_false]
    obtain ⟨q1, q2, q3⟩ := write_byte_parse_fields s (badr + boffset) (b.val : Int)
    have hih := ih (with_parse (write_byte s (badr + boffset) b.val).2 (s.pbyte + 2)
      ((s.fcs + b.val) % 256)) (text.drop 2) (badr + 1)
      (by
        show (write_byte s (badr + boffset) b.val).2.in_line.drop (s.pbyte + 2) = _
        rw [q3]
        exact d1)
      x1 (Nat.mod_lt _ (by decide)) (by omega) (by omega)
    rw [hih, store_bytes_with_parse, with_parse_with_parse]
    simp only [store_bytes, byte_sum]
    have e1 : badr + 1 + boffset = badr + boffset + 1 := by omega
    have e2 : (with_parse (write_byte s (badr + boffset) b.val).2 (s.pbyte + 2)
        ((s.fcs + b.val) % 256)).pbyte + 2 * data.length
        = s.pbyte + 2 * (data.length + 1) := by
      show s.pbyte + 2 + 2 * data.length = _
      omega
    have e3 : ((with_parse (write_byte s (badr + boffset) b.val).2 (s.pbyte + 2)
        ((s.fcs + b.val) % 256)).fcs + byte_sum data) % 256
        = (s.fcs + (b.val + byte_sum data)) % 256 := by
      show ((s.fcs + b.val) % 256 + byte_sum data) % 256 = _
      omega
    rw [e1, e2, e3]

/-- The data loop on a text that spells `data`, one target address outside
the buffer: the loop is left through the failing `write_byte`. -/
theorem data_loop_overflow (data : List Byte) (s : Hex2Bin) (text rest : List Char)
    (badr boffset : Int) (hd : s.in_line.drop s.pbyte = text ++ rest)
    (hx : decode_hex text = some data)
    (hbad : ∃ i : Nat, i < data.length
      ∧ (wrap32 (badr + i + boffset) < 0 ∨ wrap32 (badr + i + boffset) ≥ MAX_BUF)) :
    ∃ s1, data_loop data.length badr boffset s = some (false, s1) := by
  induction data generalizing s text badr with
  | nil =>
    obtain ⟨i, hi, _⟩ := hbad
    simp at hi
  | cons b data ih =>
    obtain ⟨hg, d1, x1⟩ := getbyte_decoded s text rest b data hd hx
    simp only [List.length_cons, data_loop]
    rw [hg]
    simp only []
    by_cases hw : (write_byte (with_parse s (s.pbyte + 2) ((s.fcs + b.val) % 256))
        (wrap32 (badr + boffset)) b.val).1 ≠ 0
    · rw [if_pos hw]
      exact ⟨_, rfl⟩
    · rw [if_neg hw]
      have hin : ¬ (wrap32 (badr + boffset) < 0 ∨ wrap32 (badr + boffset) ≥ MAX_BUF) := by
        intro hc
        apply hw
        unfold write_byte
        rw [if_pos hc]
        show (-1 : Int) ≠ 0
        omega
      obtain ⟨q1, q2, q3⟩ := write_byte_parse_fields
        (with_parse s (s.pbyte + 2) ((s.fcs + b.val) % 256)) (wrap32 (badr + boffset))
        (b.val : Int)
      apply ih _ (text.drop 2) (badr + 1)
      · rw [q3, q1]
        exact d1
      · exact x1
      · obtain ⟨i, hi, hb⟩ := hbad
        cases i with
        | zero =>
          simp only [Nat.cast_zero, add_zero] at hb
          exact absurd hb hin
        | succ i =>
          refine ⟨i, by simpa using hi, ?_⟩
          have e : badr + 1 + (i : Int) + boffset = badr + ((i + 1 : Nat) : Int) + boffset := by
            push_cast
            omega
          rw [e]
          exact hb

/-- The data loop with a target address outside the buffer, whatever the line
buffer holds: the loop reads outside the line buffer or is left through the
failing `write_byte`; it never runs to its end. -/
theorem data_loop_overflow_any (rlen : Nat) (s : Hex2Bin) (badr boffset : Int)
    (hbad : ∃ i : Nat, i < rlen
      ∧ (wrap32 (badr + i + boffset) < 0 ∨ wrap32 (badr + i + boffset) ≥ MAX_BUF)) :
    data_loop rlen badr boffset s = none
    ∨ ∃ s1, data_loop rlen badr boffset s = some (false, s1) := by
  induction rlen generalizing s badr with
  | zero =>
    obtain ⟨i, hi, _⟩ := hbad
    omega
  | succ rlen ih =>
    simp only [data_loop]
    cases hg : getbyte s with
    | none => exact Or.inl rfl
    | some r =>
      obtain ⟨bval, s1⟩ := r
      simp only []
      by_cases hw : (write_byte s1 (wrap32 (badr + boffset)) bval).1 ≠ 0
      · rw [if_pos hw]
        exact Or.inr ⟨_, rfl⟩
      · rw [if_neg hw]
        have hin : ¬ (wrap32 (badr + boffset) < 0 ∨ wrap32 (badr + boffset) ≥ MAX_BUF) := by
          intro hc
          apply hw
          unfold write_byte
          rw [if_pos hc]
          show (-1 : Int) ≠ 0
          omega
        apply ih
        obtain ⟨i, hi, hb⟩ := hbad
        cases i with
        | zero =>
          simp only [Nat.cast_zero, add_zero] at hb
          exact absurd hb hin
        | succ i =>
          refine ⟨i, by omega, ?_⟩
          have e : badr + 1 + (i : Int) + boffset = badr + ((i + 1 : Nat) : Int) + boffset := by
            push_cast
            omega
          rw [e]
          exact hb

/-- One pass of `read_infile` over a line whose first four pairs spell the
count, the address and the type goes to the `switch` with these values. -/
theorem read_line_header (s : Hex2Bin) (text tail : List Char) (cnt aH aL typ : Byte)
    (body : List Byte) (boffset : Int)
    (hl : s.in_line = ':' :: (text ++ tail))
    (hx : decode_hex text = some (cnt :: aH :: aL :: typ :: body)) :
    read_line s boffset
      = record_switch typ.val cnt.val ((aH.val : Int) * 256 + aL.val) boffset
          (with_parse s 9 ((cnt.val + aH.val + aL.val + typ.val) % 256))
    ∧ s.in_line.drop 9 = text.drop 8 ++ tail
    ∧ decode_hex (text.drop 8) = some body := by
  have hc0 : s.in_line.get? 0 = some ':' := by rw [hl]; rfl
  have hd0 : (with_parse s 1 0).in_line.drop (with_parse s 1 0).pbyte = text ++ tail := by
    show s.in_line.drop 1 = _
    rw [hl]
    rfl
  obtain ⟨g1, d1, x1⟩ := getbyte_decoded (with_parse s 1 0) text tail cnt _ hd0 hx
  rw [with_parse_with_parse] at g1
  have p1 : (with_parse s 1 0).pbyte + 2 = 3 := rfl
  have f1 : ((with_parse s 1 0).fcs + cnt.val) % 256 = cnt.val := by
    show (0 + cnt.val) % 256 = _
    have := cnt.isLt
    omega
  rw [p1, f1] at g1
  have hd1 : (with_parse s 3 cnt.val).in_line.drop (with_parse s 3 cnt.val).pbyte
      = text.drop 2 ++ tail := d1
  obtain ⟨g2, d2, x2⟩ := getuint16_decoded (with_parse s 3 cnt.val) (text.drop 2) tail aH aL _
    hd1 x1
  rw [with_parse_with_parse] at g2
  have p2 : (with_parse s 3 cnt.val).pbyte + 4 = 7 := rfl
  have f2 : ((with_parse s 3 cnt.val).fcs + aH.val + aL.val) % 256
      = (cnt.val + aH.val + aL.val) % 256 := rfl
  rw [p2, f2] at g2
  rw [List.drop_drop] at d2 x2
  have hd2 : (with_parse s 7 ((cnt.val + aH.val + aL.val) % 256)).in_line.drop
      (with_parse s 7 ((cnt.val + aH.val + aL.val) % 256)).pbyte = text.drop (2 + 4) ++ tail := d2
  obtain ⟨g3, d3, x3⟩ := getbyte_decoded (with_parse s 7 ((cnt.val + aH.val + aL.val) % 256))
    (text.drop (2 + 4)) tail typ body hd2 x2
  rw [with_parse_with_parse] at g3
  have p3 : (with_parse s 7 ((cnt.val + aH.val + aL.val) % 256)).pbyte + 2 = 9 := rfl
  have f3 : ((with_parse s 7 ((cnt.val + aH.val + aL.val) % 256)).fcs + typ.val) % 256
      = (cnt.val + aH.val + aL.val + typ.val) % 256 := by
    show ((cnt.val + aH.val + aL.val) % 256 + typ.val) % 256 = _
    omega
  rw [p3, f3] at g3
  rw [List.drop_drop] at d3 x3
  refine ⟨?_, d3, x3⟩
  unfold read_line
  rw [if_neg (by rw [hc0]; simp)]
  have e0 : ({ s with pbyte := 1, fcs := 0 } : Hex2Bin) = with_parse s 1 0 := rfl
  rw [e0, g1]
  simp only []
  rw [if_neg (by omega), g2]
  simp only []
  rw [if_neg (by omega), g3]

end JesFs

namespace JesFs

/-- One pass of `read_infile` over a data-record line whose pairs spell the
count, the address, type 0, as many payload bytes as the count says and one
more byte `c`, all target addresses inside the buffer: the payload is stored
from `A + boffset` on, then the line sum decides between going on and -6. -/
theorem read_line_data_decoded (s : Hex2Bin) (text tail : List Char) (cnt aH aL c : Byte)
    (p : List Byte) (boffset : Int)
    (hl : s.in_line = ':' :: (text ++ tail))
    (hx : decode_hex text = some (cnt :: aH :: aL :: 0 :: (p ++ [c])))
    (hN : cnt.val = p.length)
    (h0 : 0 ≤ (aH.val : Int) * 256 + aL.val + boffset)
    (h1 : (aH.val : Int) * 256 + aL.val + boffset + p.length ≤ MAX_BUF) :
    read_line s boffset
      = some (if (cnt.val + aH.val + aL.val + byte_sum p + c.val) % 256 = 0
            then Sum.inr boffset else Sum.inl (-6),
          with_parse (store_bytes s ((aH.val : Int) * 256 + aL.val + boffset) p)
            (11 + 2 * p.length) ((cnt.val + aH.val + aL.val + byte_sum p + c.val) % 256)) := by
  obtain ⟨hr, d3, x3⟩ := read_line_header s text tail cnt aH aL 0 (p ++ [c]) boffset hl hx
  obtain ⟨xa, xb⟩ := decode_hex_append (text.drop 8) p [c] x3
  have hlen8 := decode_hex_length _ _ x3
  simp only [List.length_append, List.length_cons, List.length_nil] at hlen8
  have hsplit : s.in_line.drop 9
      = (text.drop 8).take (2 * p.length) ++ ((text.drop 8).drop (2 * p.length) ++ tail) := by
    rw [d3, ← List.append_assoc, List.take_append_drop]
  have v0 : ((0 : Byte).val : Nat) = 0 := rfl
  rw [v0, Nat.add_zero] at hr
  have g4 := data_loop_decoded p (with_parse s 9 ((cnt.val + aH.val + aL.val) % 256))
    ((text.drop 8).take (2 * p.length)) ((text.drop 8).drop (2 * p.length) ++ tail)
    ((aH.val : Int) * 256 + aL.val) boffset hsplit xa (Nat.mod_lt _ (by decide)) h0 h1
  rw [store_bytes_with_parse, with_parse_with_parse] at g4
  have p4 : (with_parse s 9 ((cnt.val + aH.val + aL.val) % 256)).pbyte + 2 * p.length
      = 9 + 2 * p.length := rfl
  have f4 : ((with_parse s 9 ((cnt.val + aH.val + aL.val) % 256)).fcs + byte_sum p) % 256
      = (cnt.val + aH.val + aL.val + byte_sum p) % 256 := by
    show ((cnt.val + aH.val + aL.val) % 256 + byte_sum p) % 256 = _
    omega
  rw [p4, f4] at g4
  have hd5 : (with_parse (store_bytes s ((aH.val : Int) * 256 + aL.val + boffset) p)
      (9 + 2 * p.length) ((cnt.val + aH.val + aL.val + byte_sum p) % 256)).in_line.drop
      (with_parse (store_bytes s ((aH.val : Int) * 256 + aL.val + boffset) p)
      (9 + 2 * p.length) ((cnt.val + aH.val + aL.val + byte_sum p) % 256)).pbyte
      = (text.drop 8).drop (2 * p.length) ++ tail := by
    show (store_bytes s ((aH.val : Int) * 256 + aL.val + boffset) p).in_line.drop
      (9 + 2 * p.length) = _
    rw [store_bytes_in_line, ← List.drop_drop, d3, List.drop_append_of_le_length (by omega)]
  obtain ⟨g5, _, _⟩ := getbyte_decoded _ _ tail c [] hd5 xb
  rw [with_parse_with_parse] at g5
  have p5 : (with_parse (store_bytes s ((aH.val : Int) * 256 + aL.val + boffset) p)
      (9 + 2 * p.length) ((cnt.val + aH.val + aL.val + byte_sum p) % 256)).pbyte + 2
      = 11 + 2 * p.length := by
    show 9 + 2 * p.length + 2 = _
    omega
  have f5 : ((with_parse (store_bytes s ((aH.val : Int) * 256 + aL.val + boffset) p)
      (9 + 2 * p.length) ((cnt.val + aH.val + aL.val + byte_sum p) % 256)).fcs + c.val) % 256
      = (cnt.val + aH.val + aL.val + byte_sum p + c.val) % 256 := by
    show ((cnt.val + aH.val + aL.val + byte_sum p) % 256 + c.val) % 256 = _
    omega
  rw [p5, f5] at g5
  have ecnt : ((cnt.val : Nat) : Int).toNat = p.length := by
    rw [hN]; omega
  rw [hr]
  unfold record_switch
  rw [if_pos (by rfl), ecnt, g4]
  simp only []
  rw [g5]
  simp only []
  by_cases hz : (cnt.val + aH.val + aL.val + byte_sum p + c.val) % 256 = 0
  · rw [if_pos hz, if_neg]
    show ¬ ((cnt.val + aH.val + aL.val + byte_sum p + c.val) % 256 ≠ 0)
    rw [hz]
    simp
  · rw [if_neg hz, if_pos]
    exact hz

/-- One pass of `read_infile` over a line whose pairs spell a count, an
address, type 2 or 4 and a 16-bit value: the offset of the next lines is the
value shifted by 4 or 16 bits, whatever the offset was, and nothing is stored. -/
theorem read_line_offset_decoded (s : Hex2Bin) (text tail : List Char)
    (cnt aH aL typ hi lo : Byte) (rest : List Byte) (boffset : Int)
    (hl : s.in_line = ':' :: (text ++ tail))
    (hx : decode_hex text = some (cnt :: aH :: aL :: typ :: hi :: lo :: rest))
    (ht : typ.val = 2 ∨ typ.val = 4) :
    read_line s boffset
      = some (Sum.inr (wrap32 (((hi.val : Int) * 256 + lo.val)
            * (if typ.val = 2 then 16 else 65536))),
          with_parse s 13 ((cnt.val + aH.val + aL.val + typ.val + hi.val + lo.val) % 256)) := by
  obtain ⟨hr, d3, x3⟩ := read_line_header s text tail cnt aH aL typ (hi :: lo :: rest) boffset
    hl hx
  have hd : (with_parse s 9 ((cnt.val + aH.val + aL.val + typ.val) % 256)).in_line.drop
      (with_parse s 9 ((cnt.val + aH.val + aL.val + typ.val) % 256)).pbyte
      = text.drop 8 ++ tail := d3
  obtain ⟨g, _, _⟩ := getuint16_decoded _ _ tail hi lo rest hd x3
  rw [with_parse_with_parse] at g
  have p4 : (with_parse s 9 ((cnt.val + aH.val + aL.val + typ.val) % 256)).pbyte + 4 = 13 := rfl
  have f4 : ((with_parse s 9 ((cnt.val + aH.val + aL.val + typ.val) % 256)).fcs + hi.val
      + lo.val) % 256 = (cnt.val + aH.val + aL.val + typ.val + hi.val + lo.val) % 256 := by
    show ((cnt.val + aH.val + aL.val + typ.val) % 256 + hi.val + lo.val) % 256 = _
    omega
  rw [p4, f4] at g
  rw [hr]
  clear hr hd p4 f4
  generalize with_parse s 9 ((cnt.val + aH.val + aL.val + typ.val) % 256) = s3 at g ⊢
  generalize with_parse s 13 ((cnt.val + aH.val + aL.val + typ.val + hi.val + lo.val) % 256)
    = s4 at g ⊢
  unfold record_switch
  rcases ht with ht | ht
  · rw [ht, if_neg (by decide), if_neg (by decide), if_pos (by rfl), g]
    simp only []
    rw [if_neg (by omega)]
    simp
  · rw [ht, if_neg (by decide), if_neg (by decide), if_neg (by decide), if_neg (by decide),
      if_pos (by rfl), g]
    simp only []
    rw [if_neg (by omega)]
    simp

theorem store_bytes_binbuf_other (data : List Byte) (s : Hex2Bin) (a : Int) (x : Nat)
    (h0 : 0 ≤ a) (hx : x < a.toNat ∨ a.toNat + data.length ≤ x) :
    (store_bytes s a data).binbuf x = s.binbuf x := by
  induction data generalizing s a with
  | nil => rfl
  | cons b data ih =>
    simp only [List.length_cons] at hx
    simp only [store_bytes]
    rw [ih _ _ (by omega) (by omega)]
    unfold write_byte
    split
    · rfl
    · simp only []
      rw [Function.update_noteq (by omega)]

end JesFs

namespace JesFs

/-! ## What holds along every run of `read_infile` -/

theorem same_data_refl (s : Hex2Bin) : same_data s s := ⟨rfl, rfl, rfl, rfl, rfl, rfl, rfl⟩

theorem same_data_trans (s s1 s2 : Hex2Bin) (h1 : same_data s s1) (h2 : same_data s1 s2) :
    same_data s s2 := by
  obtain ⟨a1, a2, a3, a4, a5, a6, a7⟩ := h1
  obtain ⟨b1, b2, b3, b4, b5, b6, b7⟩ := h2
  exact ⟨b1.trans a1, b2.trans a2, b3.trans a3, b4.trans a4, b5.trans a5, b6.trans a6,
    b7.trans a7⟩

theorem getbyte_same (s : Hex2Bin) (v : Int) (s1 : Hex2Bin) (h : getbyte s = some (v, s1)) :
    same_data s s1 := by
  unfold getbyte at h
  split at h
  · simp at h
  · split at h
    · rw [← some_pair_snd h]
      exact same_data_refl s
    · split at h
      · simp at h
      · split at h
        · rw [← some_pair_snd h]
          exact same_data_refl s
        · rw [← some_pair_snd h]
          exact same_data_refl s

theorem getuint16_same (s : Hex2Bin) (v : Int) (s1 : Hex2Bin)
    (h : getuint16 s = some (v, s1)) : same_data s s1 := by
  unfold getuint16 at h
  split at h
  · simp at h
  · rename_i a sa ha
    have f1 := getbyte_same s a sa ha
    split at h
    · rw [← some_pair_snd h]
      exact f1
    · split at h
      · simp at h
      · rename_i b sb hb
        have f2 := getbyte_same sa b sb hb
        split at h <;> rw [← some_pair_snd h] <;> exact same_data_trans _ _ _ f1 f2

/-- A relation between globals that holds across every step which leaves the
buffers, marks and counters alone and across every call of `write_byte`, and
that is transitive, holds across the data loop. -/
theorem data_loop_rel (R : Hex2Bin → Hex2Bin → Prop)
    (hsame : ∀ s s1, same_data s s1 → R s s1)
    (htrans : ∀ s s1 s2, R s s1 → R s1 s2 → R s s2)
    (hwrite : ∀ s a v, R s (write_byte s a v).2)
    (rlen : Nat) (badr boffset : Int) (s : Hex2Bin) (ok : Bool) (s1 : Hex2Bin)
    (h : data_loop rlen badr boffset s = some (ok, s1)) : R s s1 := by
  induction rlen generalizing badr s with
  | zero =>
    simp only [data_loop] at h
    rw [← some_pair_snd h]
    exact hsame s s (same_data_refl s)
  | succ rlen ih =>
    unfold data_loop at h
    split at h
    · simp at h
    · rename_i bval sa ha
      have ka := hsame _ _ (getbyte_same s bval sa ha)
      have kw := htrans _ _ _ ka (hwrite sa (wrap32 (badr + boffset)) bval)
      split at h
      · rw [← some_pair_snd h]
        exact kw
      · exact htrans _ _ _ kw (ih _ _ h)

theorem record_switch_rel (R : Hex2Bin → Hex2Bin → Prop)
    (hsame : ∀ s s1, same_data s s1 → R s s1)
    (htrans : ∀ s s1 s2, R s s1 → R s1 s2 → R s s2)
    (hwrite : ∀ s a v, R s (write_byte s a v).2)
    (rtyp rlen badr boffset : Int) (sc : Hex2Bin) (r : Int ⊕ Int)
    (s1 : Hex2Bin) (h : record_switch rtyp rlen badr boffset sc = some (r, s1)) :
    R sc s1 := by
  unfold record_switch at h
  split at h
  · split at h
    · cases h
    · rename_i sd hd
      rw [← some_pair_snd h]
      exact data_loop_rel R hsame htrans hwrite _ _ _ _ _ _ hd
    · rename_i sd hd
      have kd := data_loop_rel R hsame htrans hwrite _ _ _ _ _ _ hd
      split at h
      · cases h
      · rename_i v se he
        have ke := htrans _ _ _ kd (hsame _ _ (getbyte_same _ _ _ he))
        split at h <;> rw [← some_pair_snd h] <;> exact ke
  · split at h
    · split at h
      · cases h
      · rename_i v sd hd
        have kd := hsame _ _ (getbyte_same _ _ _ hd)
        split at h <;> rw [← some_pair_snd h] <;> exact kd
    · split at h
      · split at h
        · cases h
        · rename_i v sd hd
          have kd := hsame _ _ (getuint16_same _ _ _ hd)
          split at h <;> rw [← some_pair_snd h] <;> exact kd
      · split at h
        · split at h
          · cases h
          · rename_i v sd hd
            have kd := getuint16_same _ _ _ hd
            split at h
            · cases h
            · rename_i v2 se he
              have ke := hsame _ _ (same_data_trans _ _ _ kd (getuint16_same _ _ _ he))
              split at h <;> rw [← some_pair_snd h] <;> exact ke
        · split at h
          · split at h
            · cases h
            · rename_i v sd hd
              have kd := hsame _ _ (getuint16_same _ _ _ hd)
              split at h <;> rw [← some_pair_snd h] <;> exact kd
          · split at h
            · split at h
              · cases h
              · rename_i v sd hd
                have kd := getuint16_same _ _ _ hd
                split at h
                · cases h
                · rename_i v2 se he
                  have ke := hsame _ _ (same_data_trans _ _ _ kd (getuint16_same _ _ _ he))
                  split at h <;> rw [← some_pair_snd h] <;> exact ke
            · rw [← some_pair_snd h]
              exact hsame _ _ (same_data_refl sc)

theorem read_line_rel (R : Hex2Bin → Hex2Bin → Prop)
    (hsame : ∀ s s1, same_data s s1 → R s s1)
    (htrans : ∀ s s1 s2, R s s1 → R s1 s2 → R s s2)
    (hwrite : ∀ s a v, R s (write_byte s a v).2)
    (s : Hex2Bin) (boffset : Int) (r : Int ⊕ Int) (s1 : Hex2Bin)
    (h : read_line s boffset = some (r, s1)) : R s s1 := by
  unfold read_line at h
  split at h
  · rw [← some_pair_snd h]
    exact hsame _ _ (same_data_refl s)
  · split at h
    · cases h
    · rename_i rlen sa ha
      have ka : same_data s sa := by
        refine same_data_trans s _ sa ?_ (getbyte_same _ _ _ ha)
        exact ⟨rfl, rfl, rfl, rfl, rfl, rfl, rfl⟩
      split at h
      · rw [← some_pair_snd h]
        exact hsame _ _ ka
      · split at h
        · cases h
        · rename_i badr sb hb
          have kb := same_data_trans _ _ _ ka (getuint16_same _ _ _ hb)
          split at h
          · rw [← some_pair_snd h]
            exact hsame _ _ kb
          · split at h
            · cases h
            · rename_i rtyp sc hc
              have kc := same_data_trans _ _ _ kb (getbyte_same _ _ _ hc)
              exact htrans _ _ _ (hsame _ _ kc)
                (record_switch_rel R hsame htrans hwrite _ _ _ _ _ _ _ h)

theorem read_lines_rel (R : Hex2Bin → Hex2Bin → Prop)
    (hsame : ∀ s s1, same_data s s1 → R s s1)
    (htrans : ∀ s s1 s2, R s s1 → R s1 s2 → R s s2)
    (hwrite : ∀ s a v, R s (write_byte s a v).2)
    (lines : List (List Char)) (boffset : Int) (s : Hex2Bin) (code : Int)
    (s1 : Hex2Bin) (h : read_lines lines boffset s = some (code, s1)) : R s s1 := by
  induction lines generalizing boffset s with
  | nil =>
    simp only [read_lines] at h
    rw [← some_pair_snd h]
    exact hsame _ _ (same_data_refl s)
  | cons line rest ih =>
    have k0 : R s (fgets_store s line) := hsame _ _ ⟨rfl, rfl, rfl, rfl, rfl, rfl, rfl⟩
    unfold read_lines at h
    split at h
    · cases h
    · rename_i c sa ha
      rw [← some_pair_snd h]
      exact htrans _ _ _ k0 (read_line_rel R hsame htrans hwrite _ _ _ _ ha)
    · rename_i b sa ha
      have ka := htrans _ _ _ k0 (read_line_rel R hsame htrans hwrite _ _ _ _ ha)
      have kc : R sa (count_line sa) := hsame _ _ ⟨rfl, rfl, rfl, rfl, rfl, rfl, rfl⟩
      exact htrans _ _ _ ka (htrans _ _ _ kc (ih _ _ h))

/-- A relation between globals that holds across every step which leaves the
buffers, marks and counters alone and across every call of `write_byte`, and
that is transitive, holds between the globals before and after `read_infile`. -/
theorem read_infile_rel (R : Hex2Bin → Hex2Bin → Prop)
    (hsame : ∀ s s1, same_data s s1 → R s s1)
    (htrans : ∀ s s1 s2, R s s1 → R s1 s2 → R s s2)
    (hwrite : ∀ s a v, R s (write_byte s a v).2)
    (infile : Option (List Char)) (s : Hex2Bin) (code : Int)
    (s1 : Hex2Bin) (h : read_infile infile s = some (code, s1)) : R s s1 := by
  unfold read_infile at h
  split at h
  · rw [← some_pair_snd h]
    exact hsame _ _ (same_data_refl s)
  · have k0 : R s { s with in_line_cnt := 0 } := hsame _ _ ⟨rfl, rfl, rfl, rfl, rfl, rfl, rfl⟩
    exact htrans _ _ _ k0 (read_lines_rel R hsame htrans hwrite _ _ _ _ _ h)

theorem same_outside_of_same (s s1 : Hex2Bin) (h : same_data s s1) : same_outside s s1 := by
  intro x _
  rw [h.1, h.2.1]
  exact ⟨rfl, rfl⟩

theorem same_outside_trans (s s1 s2 : Hex2Bin) (h1 : same_outside s s1)
    (h2 : same_outside s1 s2) : same_outside s s2 := by
  intro x hx
  rw [(h2 x hx).1, (h2 x hx).2]
  exact h1 x hx

theorem write_byte_outside (s : Hex2Bin) (a v : Int) : same_outside s (write_byte s a v).2 := by
  intro x hx
  unfold write_byte
  split
  · exact ⟨rfl, rfl⟩
  · rename_i hc
    have hmax : MAX_BUF = 2097152 := by decide
    rw [hmax] at hx hc
    have hne : x ≠ a.toNat := by omega
    simp only []
    refine ⟨Function.update_noteq hne _ _, ?_⟩
    split
    · exact Function.update_noteq hne _ _
    · rfl

end JesFs

namespace JesFs

/-! ## Effective address of a data byte -/

theorem fgets_store_in_line (s : Hex2Bin) (text tail : List Char) :
    (fgets_store s (':' :: (text ++ tail))).in_line
      = ':' :: (text ++ (tail ++ Char.ofNat 0
          :: s.in_line.drop ((':' :: (text ++ tail)).length + 1))) := by
  unfold fgets_store
  simp only [List.cons_append, List.append_assoc]

theorem record_switch_keeps_offset (rtyp rlen badr boffset : Int) (s3 : Hex2Bin) (b1 : Int)
    (s4 : Hex2Bin) (h : record_switch rtyp rlen badr boffset s3 = some (Sum.inr b1, s4))
    (h2 : rtyp ≠ 2) (h4 : rtyp ≠ 4) : b1 = boffset := by
  unfold record_switch at h
  by_cases c0 : rtyp = 0
  · rw [if_pos c0] at h
    split at h
    · simp at h
    · simp at h
    · split at h
      · simp at h
      · split at h
        · simp at h
        · simp only [Option.some.injEq, Prod.mk.injEq, Sum.inr.injEq] at h
          exact h.1.symm
  rw [if_neg c0] at h
  by_cases c1 : rtyp = 1
  · rw [if_pos c1] at h
    split at h
    · simp at h
    · split at h <;> simp at h
  rw [if_neg c1, if_neg h2] at h
  by_cases c3 : rtyp = 3
  · rw [if_pos c3] at h
    split at h
    · simp at h
    · split at h
      · simp at h
      · split at h
        · simp at h
        · simp only [Option.some.injEq, Prod.mk.injEq, Sum.inr.injEq] at h
          exact h.1.symm
  rw [if_neg c3, if_neg h4] at h
  by_cases c5 : rtyp = 5
  · rw [if_pos c5] at h
    split at h
    · simp at h
    · split at h
      · simp at h
      · split at h
        · simp at h
        · simp only [Option.some.injEq, Prod.mk.injEq, Sum.inr.injEq] at h
          exact h.1.symm
  rw [if_neg c5] at h
  simp at h

/-- C12 as stated fails for a record that does not fit the line buffer:
`fgets(in_line, MAXLINE, inf)` stores at most 119 characters. The file holds
one data record with count `0x38 = 56`, address 0, 56 payload bytes `0x11` and
the right checksum `0x10`, 123 characters before the line end. `in_line`
takes `:38000000` and 55 payload pairs; the pair of `p[55]` is read from the
terminating NUL, `getbyte` returns -1 and `write_byte` stores `0xFF` at address
55, where C12 wants `p[55] = 0x11`. -/
theorem C12_counterexample :
    (read_infile (some (":38000000".toList ++ List.replicate 112 '1'
        ++ "10\n:00000001FF\n".toList)) Hex2Bin.init).map
        (fun r => (r.1, r.2.binbuf 54, r.2.binbuf 55, r.2.usedbuf 55))
      = some (-6, 0x11, 0xFF, 1)
    ∧ decode_hex ("38000000".toList ++ List.replicate 112 '1' ++ "10".toList)
      = some ((0x38 : Byte) :: 0 :: 0 :: 0 :: (List.replicate 56 0x11 ++ [0x10]))
    ∧ byte_sum ((0x38 : Byte) :: 0 :: 0 :: 0 :: (List.replicate 56 0x11 ++ [0x10])) % 256 = 0
    ∧ (fgets_lines 140 (":38000000".toList ++ List.replicate 112 '1'
        ++ "10\n:00000001FF\n".toList)).map List.length = [119, 5, 12] := by
  refine ⟨by decide, by decide, by decide, by decide⟩

/-- C12 (amended): effective address of a data byte, for lines that `fgets`
returned whole (at most 119 characters, so `N ≤ 54`). (1) `read_infile` enters
its loop with offset 0. (2) A data-record line with count `N`, 16-bit address
`A` and payload `p`, read while the offset is `boffset` with `boffset + A + N ≤
MAX_BUF`, leaves `binbuf[boffset + A + i] = p[i]` for every `i < N` and every
other cell of `binbuf` as it was; the loop then goes on with the same offset
(or returns -6 for a wrong line sum). (3) A segment-offset line with value `S`
makes the loop go on with offset `S * 16`, (4) a linear-offset line with value
`L` with offset `L * 65536` (as a 32-bit `int`: less `2 ^ 32` from `L = 0x8000`
on), both whatever the offset was before and without a change of `binbuf`.
(5) No pass of the loop for a record of another type changes the offset. -/
theorem C12_effective_address :
    (∀ (text : List Char) (s : Hex2Bin),
      read_infile (some text) s
        = read_lines (fgets_lines text.length text) 0 { s with in_line_cnt := 0 })
    ∧ (∀ (s : Hex2Bin) (text tail : List Char) (rest : List (List Char))
        (cnt aH aL c : Byte) (p : List Byte) (boffset : Int),
        decode_hex text = some (cnt :: aH :: aL :: 0 :: (p ++ [c])) → cnt.val = p.length →
        0 ≤ boffset → boffset + ((aH.val : Int) * 256 + aL.val) + p.length ≤ MAX_BUF →
        ∃ s1, (read_lines ((':' :: (text ++ tail)) :: rest) boffset s
                = read_lines rest boffset (count_line s1)
              ∨ read_lines ((':' :: (text ++ tail)) :: rest) boffset s = some (-6, s1))
          ∧ (∀ i, i < p.length →
              s1.binbuf ((boffset + ((aH.val : Int) * 256 + aL.val)).toNat + i) = p.getD i 0)
          ∧ (∀ x, x < (boffset + ((aH.val : Int) * 256 + aL.val)).toNat
                ∨ (boffset + ((aH.val : Int) * 256 + aL.val)).toNat + p.length ≤ x →
              s1.binbuf x = s.binbuf x))
    ∧ (∀ (s : Hex2Bin) (text tail : List Char) (rest : List (List Char))
        (cnt aH aL hi lo : Byte) (more : List Byte) (boffset : Int),
        decode_hex text = some (cnt :: aH :: aL :: 2 :: hi :: lo :: more) →
        ∃ s1, read_lines ((':' :: (text ++ tail)) :: rest) boffset s
                = read_lines rest (((hi.val : Int) * 256 + lo.val) * 16) (count_line s1)
          ∧ s1.binbuf = s.binbuf)
    ∧ (∀ (s : Hex2Bin) (text tail : List Char) (rest : List (List Char))
        (cnt aH aL hi lo : Byte) (more : List Byte) (boffset : Int),
        decode_hex text = some (cnt :: aH :: aL :: 4 :: hi :: lo :: more) →
        ∃ s1, read_lines ((':' :: (text ++ tail)) :: rest) boffset s
                = read_lines rest
                    (if hi.val < 128 then ((hi.val : Int) * 256 + lo.val) * 65536
                      else ((hi.val : Int) * 256 + lo.val) * 65536 - 2 ^ 32)
                    (count_line s1)
          ∧ s1.binbuf = s.binbuf)
    ∧ (∀ (rtyp rlen badr boffset : Int) (s3 : Hex2Bin) (b1 : Int) (s4 : Hex2Bin),
        record_switch rtyp rlen badr boffset s3 = some (Sum.inr b1, s4) →
        rtyp ≠ 2 → rtyp ≠ 4 → b1 = boffset) := by
  refine ⟨fun _ _ => rfl, ?_, ?_, ?_, ?_⟩
  · intro s text tail rest cnt aH aL c p boffset hx hN h0 h1
    have hA0 : (0 : Int) ≤ (aH.val : Int) * 256 + aL.val := by omega
    have hr := read_line_data_decoded (fgets_store s (':' :: (text ++ tail))) text _ cnt aH aL c
      p boffset (fgets_store_in_line s text tail) hx hN (by omega) (by omega)
    have ea : (aH.val : Int) * 256 + aL.val + boffset = boffset + ((aH.val : Int) * 256 + aL.val) := by
      omega
    rw [ea] at hr
    refine ⟨with_parse (store_bytes (fgets_store s (':' :: (text ++ tail)))
      (boffset + ((aH.val : Int) * 256 + aL.val)) p) (11 + 2 * p.length)
      ((cnt.val + aH.val + aL.val + byte_sum p + c.val) % 256), ?_, ?_, ?_⟩
    · by_cases hz : (cnt.val + aH.val + aL.val + byte_sum p + c.val) % 256 = 0
      · rw [if_pos hz] at hr
        exact Or.inl (read_lines_continue _ _ _ _ _ _ hr)
      · rw [if_neg hz] at hr
        exact Or.inr (read_lines_return _ _ _ _ _ _ hr)
    · intro i hi
      show (store_bytes (fgets_store s (':' :: (text ++ tail)))
        (boffset + ((aH.val : Int) * 256 + aL.val)) p).binbuf _ = _
      exact store_bytes_binbuf p _ _ i (by omega) (by omega) hi
    · intro x hx
      show (store_bytes (fgets_store s (':' :: (text ++ tail)))
        (boffset + ((aH.val : Int) * 256 + aL.val)) p).binbuf _ = _
      rw [store_bytes_binbuf_other p _ _ x (by omega) hx]
      rfl
  · intro s text tail rest cnt aH aL hi lo more boffset hx
    have hr := read_line_offset_decoded (fgets_store s (':' :: (text ++ tail))) text _ cnt aH aL
      2 hi lo more boffset (fgets_store_in_line s text tail) hx (Or.inl rfl)
    have hv : ((2 : Byte).val : Nat) = 2 := rfl
    rw [hv, if_pos rfl] at hr
    have hi1 := hi.isLt
    have hl1 := lo.isLt
    rw [wrap32_small _ (by omega) (by omega)] at hr
    exact ⟨_, read_lines_continue _ _ _ _ _ _ hr, rfl⟩
  · intro s text tail rest cnt aH aL hi lo more boffset hx
    have hr := read_line_offset_decoded (fgets_store s (':' :: (text ++ tail))) text _ cnt aH aL
      4 hi lo more boffset (fgets_store_in_line s text tail) hx (Or.inr rfl)
    have hv : ((4 : Byte).val : Nat) = 4 := rfl
    rw [hv, if_neg (by decide)] at hr
    have hi1 := hi.isLt
    have hl1 := lo.isLt
    have hw : wrap32 (((hi.val : Int) * 256 + lo.val) * 65536)
        = (if hi.val < 128 then ((hi.val : Int) * 256 + lo.val) * 65536
            else ((hi.val : Int) * 256 + lo.val) * 65536 - 2 ^ 32) := by
      unfold wrap32
      split <;> omega
    rw [hw] at hr
    exact ⟨_, read_lines_continue _ _ _ _ _ _ hr, rfl⟩
  · exact record_switch_keeps_offset

theorem C12_witness :
    (∃ s1, (read_lines [":0201000041427A\n".toList, ":00000001FF\n".toList] 0x10000
                Hex2Bin.init
              = read_lines [":00000001FF\n".toList] 0x10000 (count_line s1)
            ∨ read_lines [":0201000041427A\n".toList, ":00000001FF\n".toList] 0x10000
                Hex2Bin.init = some (-6, s1))
        ∧ (∀ i, i < 2 → s1.binbuf (0x10100 + i) = ([0x41, 0x42] : List Byte).getD i 0)
        ∧ (∀ x, x < 0x10100 ∨ 0x10100 + 2 ≤ x → s1.binbuf x = Hex2Bin.init.binbuf x))
    ∧ (read_infile (some ":020000040001F9\n:0201000041427A\n:00000001FF\n".toList)
          Hex2Bin.init).map (fun r => (r.1, r.2.binbuf 0x10100, r.2.binbuf 0x10101,
            r.2.binbuf 0x100, r.2.min_bin_addr, r.2.max_bin_addr))
        = some (0, 0x41, 0x42, 0xFF, 0x10100, 0x10101) :=
  ⟨C12_effective_address.2.1 Hex2Bin.init "0201000041427A".toList ['\n']
      [":00000001FF\n".toList] 2 1 0 0x7A [0x41, 0x42] 0x10000 (by decide) (by decide)
      (by decide) (by decide),
   by decide⟩

end JesFs

namespace JesFs

/-! ## The line sum of a data record -/

theorem write_output_failed (env : OutEnv) (now : Nat) (v : MainVars) (s : Hex2Bin)
    (h : v.res ≠ 0) : write_output env now v s = (v.res, none) := by
  unfold write_output
  rw [if_pos h]

/-- C13 as stated fails: the data-record line `:0201000041427B` (its right
checksum byte is `7A`) read from the initial globals makes `read_infile`
return -6, but `binbuf`, `usedbuf`, `bin_bytes_cnt` and both address marks
are not what they were before the line: the two payload bytes are stored. -/
theorem C13_counterexample :
    (read_infile (some ":0201000041427B\n".toList) Hex2Bin.init).map
        (fun r => (r.1, r.2.binbuf 0x100, r.2.binbuf 0x101, r.2.usedbuf 0x100))
      = some (-6, 0x41, 0x42, 1)
    ∧ (read_infile (some ":0201000041427B\n".toList) Hex2Bin.init).map
        (fun r => (r.2.bin_bytes_cnt, r.2.min_bin_addr, r.2.max_bin_addr))
      = some (2, 0x100, 0x101)
    ∧ (Hex2Bin.init.binbuf 0x100, Hex2Bin.init.binbuf 0x101, Hex2Bin.init.usedbuf 0x100)
      = (0xFF, 0xFF, 0)
    ∧ (Hex2Bin.init.bin_bytes_cnt, Hex2Bin.init.min_bin_addr, Hex2Bin.init.max_bin_addr)
      = (0, 0x1FFFFF, 0)
    ∧ (read_infile (some ":0201000041427A\n:00000001FF\n".toList) Hex2Bin.init).map
        (fun r => r.1) = some 0 := by
  refine ⟨by decide, by decide, by decide, by decide, by decide⟩

/-- C13 (amended): a data-record line with valid pairs that `fgets` returned
whole, all target addresses inside the buffer and a line sum that is not 0
modulo 256, makes the loop of
`read_infile` return -6, but only after `write_byte` has stored every payload
byte of the line: the globals are those after the stores (with the read
pointer behind the line), so `binbuf[boffset + A + i] = p[i]` for `i < N` and
`bin_bytes_cnt` has grown by `N`. Once `read_infile` has returned a non-zero
code, `main` keeps it and writes no output file. -/
theorem C13_rejected_line_is_stored_first (s : Hex2Bin) (text tail : List Char)
    (rest : List (List Char)) (cnt aH aL c : Byte) (p : List Byte) (boffset : Int)
    (hx : decode_hex text = some (cnt :: aH :: aL :: 0 :: (p ++ [c])))
    (hN : cnt.val = p.length) (h0 : 0 ≤ boffset)
    (h1 : boffset + ((aH.val : Int) * 256 + aL.val) + p.length ≤ MAX_BUF)
    (hbad : (cnt.val + aH.val + aL.val + 0 + byte_sum p + c.val) % 256 ≠ 0) :
    read_lines ((':' :: (text ++ tail)) :: rest) boffset s
      = some (-6, with_parse (store_bytes (fgets_store s (':' :: (text ++ tail)))
          (boffset + ((aH.val : Int) * 256 + aL.val)) p) (11 + 2 * p.length)
          ((cnt.val + aH.val + aL.val + 0 + byte_sum p + c.val) % 256))
    ∧ (∀ i, i < p.length →
        (store_bytes (fgets_store s (':' :: (text ++ tail)))
          (boffset + ((aH.val : Int) * 256 + aL.val)) p).binbuf
            ((boffset + ((aH.val : Int) * 256 + aL.val)).toNat + i) = p.getD i 0)
    ∧ (store_bytes (fgets_store s (':' :: (text ++ tail)))
          (boffset + ((aH.val : Int) * 256 + aL.val)) p).bin_bytes_cnt
        = s.bin_bytes_cnt + p.length
    ∧ (∀ (args : List Arg) (v : MainVars) (s0 s1 : Hex2Bin) (infile : Option (List Char))
        (code : Int), read_infile infile s0 = some (code, s1) → code ≠ 0 →
        arg_loop (Arg.infile infile :: args) v s0 = some (Sum.inr { v with res := code }, s1))
    ∧ (∀ (env : OutEnv) (now : Nat) (v : MainVars) (s1 : Hex2Bin), v.res ≠ 0 →
        write_output env now v s1 = (v.res, none)) := by
  have hA0 : (0 : Int) ≤ (aH.val : Int) * 256 + aL.val := by omega
  have hr := read_line_data_decoded (fgets_store s (':' :: (text ++ tail))) text _ cnt aH aL c
    p boffset (fgets_store_in_line s text tail) hx hN (by omega) (by omega)
  have ea : (aH.val : Int) * 256 + aL.val + boffset
      = boffset + ((aH.val : Int) * 256 + aL.val) := by
    omega
  have es : cnt.val + aH.val + aL.val + 0 + byte_sum p + c.val
      = cnt.val + aH.val + aL.val + byte_sum p + c.val := by omega
  rw [es] at hbad ⊢
  rw [ea, if_neg hbad] at hr
  refine ⟨read_lines_return _ _ _ _ _ _ hr, ?_, ?_, ?_, ?_⟩
  · intro i hi
    exact store_bytes_binbuf p _ _ i (by omega) (by omega) hi
  · rw [store_bytes_cnt p _ _ (by omega) (by omega)]
    rfl
  · intro args v s0 s1 infile code hrd hc
    simp only [arg_loop]
    rw [hrd]
    simp only []
    rw [if_pos hc]
  · exact write_output_failed

theorem C13_witness :
    read_lines [":0201000041427B\n".toList] 0 Hex2Bin.init
      = some (-6, with_parse (store_bytes (fgets_store Hex2Bin.init ":0201000041427B\n".toList)
          (0 + (((1 : Byte).val : Int) * 256 + (0 : Byte).val)) [0x41, 0x42]) (11 + 2 * 2)
          (((2 : Byte).val + (1 : Byte).val + (0 : Byte).val + 0 + byte_sum [0x41, 0x42]
            + (0x7B : Byte).val) % 256)) :=
  (C13_rejected_line_is_stored_first Hex2Bin.init "0201000041427B".toList ['\n'] [] 2 1 0 0x7B
    [0x41, 0x42] 0 (by decide) (by decide) (by decide) (by decide) (by decide)).1

/-- C14 as stated fails for a record that does not fit the line buffer:
`fgets(in_line, MAXLINE, inf)` stores at most 119 characters. The file holds
one data record with count `0x37 = 55`, address 0, 55 payload bytes 0 and the
right checksum `0xC9`, 121 characters before the line end. `in_line` takes
`:37000000` and the 55 payload pairs; the checksum pair is read from the
terminating NUL, `getbyte` returns -1 without a change of the line sum `0x37`,
and `read_infile` returns -6 for a line whose checksum byte is right. -/
theorem C14_counterexample :
    (read_infile (some (":37000000".toList ++ List.replicate 110 '0'
        ++ "C9\n:00000001FF\n".toList)) Hex2Bin.init).map (fun r => (r.1, r.2.bin_bytes_cnt))
      = some (-6, 55)
    ∧ decode_hex ("37000000".toList ++ List.replicate 110 '0' ++ "C9".toList)
      = some ((0x37 : Byte) :: 0 :: 0 :: 0 :: (List.replicate 55 0 ++ [0xC9]))
    ∧ (((0xC9 : Byte).val : Nat) : Int)
      = (0 - (((0x37 : Byte).val + (0 : Byte).val + (0 : Byte).val + 0
          + byte_sum (List.replicate 55 0) : Nat) : Int)) % 256
    ∧ (fgets_lines 140 (":37000000".toList ++ List.replicate 110 '0'
        ++ "C9\n:00000001FF\n".toList)).map List.length = [119, 3, 12] := by
  refine ⟨by decide, by decide, by decide, by decide⟩

/-- C14 (amended): checksum rule for data records whose line `fgets` stored
whole (at most 119 characters, so `N ≤ 54`). For a data-record line made of
valid hex-digit pairs in either case, held by the line buffer from the marker
to the checksum pair, with count `N`, address bytes `aH`, `aL`, payload `p` of
`N` bytes and checksum byte `c`, all target addresses inside the buffer, the
pass of `read_infile` over the line goes on to the next line exactly when `c`
is the low 8 bits of `0 - (N + aH + aL + 0 + Σ p)`, and returns -6 otherwise. -/
theorem C14_checksum_rule (s : Hex2Bin) (text tail : List Char) (cnt aH aL c : Byte)
    (p : List Byte) (boffset : Int)
    (hl : s.in_line = ':' :: (text ++ tail))
    (hx : decode_hex text = some (cnt :: aH :: aL :: 0 :: (p ++ [c])))
    (hN : cnt.val = p.length)
    (h0 : 0 ≤ (aH.val : Int) * 256 + aL.val + boffset)
    (h1 : (aH.val : Int) * 256 + aL.val + boffset + p.length ≤ MAX_BUF) :
    ∃ s1, read_line s boffset
      = some (if (c.val : Int)
                = (0 - ((cnt.val + aH.val + aL.val + 0 + byte_sum p : Nat) : Int)) % 256
            then Sum.inr boffset else Sum.inl (-6), s1) := by
  have hr := read_line_data_decoded s text tail cnt aH aL c p boffset hl hx hN h0 h1
  have hc := c.isLt
  refine ⟨with_parse (store_bytes s ((aH.val : Int) * 256 + aL.val + boffset) p)
    (11 + 2 * p.length) ((cnt.val + aH.val + aL.val + byte_sum p + c.val) % 256), ?_⟩
  rw [hr]
  by_cases hz : (cnt.val + aH.val + aL.val + byte_sum p + c.val) % 256 = 0
  · rw [if_pos hz, if_pos]
    push_cast
    omega
  · rw [if_neg hz, if_neg]
    push_cast
    omega

theorem C14_witness :
    (∃ s1, read_line (fgets_store Hex2Bin.init ":0201000041427a\n".toList) 0
      = some (if (((0x7A : Byte).val : Nat) : Int)
                = (0 - (((2 : Byte).val + (1 : Byte).val + (0 : Byte).val + 0
                    + byte_sum [0x41, 0x42] : Nat) : Int)) % 256
            then Sum.inr 0 else Sum.inl (-6), s1))
    ∧ (read_infile (some ":0201000041427a\n:00000001ff\n".toList) Hex2Bin.init).map
        (fun r => r.1) = some 0
    ∧ (read_infile (some ":0201000041427b\n:00000001ff\n".toList) Hex2Bin.init).map
        (fun r => r.1) = some (-6) :=
  ⟨C14_checksum_rule (fgets_store Hex2Bin.init ":0201000041427a\n".toList)
      "0201000041427a".toList ('\n' :: Char.ofNat 0 :: List.replicate 104 (Char.ofNat 0))
      2 1 0 0x7A [0x41, 0x42] 0 (by decide) (by decide) (by decide) (by decide) (by decide),
    by decide, by decide⟩

end JesFs

namespace JesFs

/-! ## Lines the parser lets pass -/

/-- C15 fails on the code: the line sum is tested for data records only. A
linear-offset record and a segment-offset record whose checksum byte is wrong
(`FF` where `F9` and `ED` would be right) are read without error and their
offset is applied to the data record that follows; start-address records and
an end record with a wrong line sum pass too. The same wrong byte at the end
of a data record gives -6. -/
theorem C15_checksum_tested_for_data_only :
    (read_infile (some ":020000040001FF\n:0201000041427A\n:00000001FF\n".toList)
        Hex2Bin.init).map
        (fun r => (r.1, r.2.binbuf 0x10100, r.2.binbuf 0x10101, r.2.min_bin_addr))
      = some (0, 0x41, 0x42, 0x10100)
    ∧ (2 + 0 + 0 + 4 + 0 + 1 + 0xFF) % 256 ≠ 0
    ∧ (read_infile (some ":020000021000FF\n:0201000041427A\n:00000001FF\n".toList)
        Hex2Bin.init).map
        (fun r => (r.1, r.2.binbuf 0x10100, r.2.binbuf 0x10101, r.2.min_bin_addr))
      = some (0, 0x41, 0x42, 0x10100)
    ∧ (2 + 0 + 0 + 2 + 0x10 + 0 + 0xFF) % 256 ≠ 0
    ∧ (read_infile (some ":0400000300003800FF\n:0400000508000135FF\n:00000101FF\n".toList)
        Hex2Bin.init).map (fun r => r.1) = some 0
    ∧ (0 + 0 + 1 + 1 + 0xFF) % 256 ≠ 0
    ∧ (read_infile (some ":020100004142FF\n:00000001FF\n".toList) Hex2Bin.init).map
        (fun r => r.1) = some (-6) := by
  refine ⟨by decide, by decide, by decide, by decide, by decide, by decide, by decide⟩

/-- C16 fails on the code: in the payload and checksum positions of a data
record the result of `getbyte` is not tested. (1) The line `:01FF0000GG` has
no hex digit in its payload pair and in its checksum pair; `read_infile`
stores `0xFF` at address `0xFF00`, goes on and returns 0 at the end record.
(2) The line `:02A9000055` announces two payload bytes and holds one pair
behind the type; `read_infile` stores `0x55` and `0xFF` and returns 0.
(3) The same character in the count, address or offset position is reported:
-7, -8, -9; an unknown record type gives -5. -/
theorem C16_payload_characters_not_tested :
    (read_infile (some ":01FF0000GG\n:00000001FF\n".toList) Hex2Bin.init).map
        (fun r => (r.1, r.2.binbuf 0xFF00, r.2.bin_bytes_cnt)) = some (0, 0xFF, 1)
    ∧ (read_infile (some ":02A9000055\n:00000001FF\n".toList) Hex2Bin.init).map
        (fun r => (r.1, r.2.binbuf 0xA900, r.2.binbuf 0xA901, r.2.bin_bytes_cnt))
      = some (0, 0x55, 0xFF, 2)
    ∧ (read_infile (some ":G1FF000000\n:00000001FF\n".toList) Hex2Bin.init).map
        (fun r => r.1) = some (-7)
    ∧ (read_infile (some ":01GF000000\n:00000001FF\n".toList) Hex2Bin.init).map
        (fun r => r.1) = some (-8)
    ∧ (read_infile (some ":02000004GG01F9\n:00000001FF\n".toList) Hex2Bin.init).map
        (fun r => r.1) = some (-9)
    ∧ (read_infile (some ":00000006FA\n:00000001FF\n".toList) Hex2Bin.init).map
        (fun r => r.1) = some (-5) := by
  refine ⟨by decide, by decide, by decide, by decide, by decide, by decide⟩

end JesFs

namespace JesFs

/-! ## Function `write_byte`: overlaps and the end of the buffer -/

theorem write_byte_usedbuf (s : Hex2Bin) (a v : Int) (h0 : 0 ≤ a) (h1 : a < MAX_BUF) :
    (write_byte s a v).2.usedbuf a.toNat
      = (if s.usedbuf a.toNat < 255 then s.usedbuf a.toNat + 1 else s.usedbuf a.toNat) := by
  unfold write_byte
  rw [if_neg (by omega)]
  simp only []
  split
  · exact Function.update_same _ _ _
  · rfl

theorem write_repeat_usedbuf (vs : List Int) (s : Hex2Bin) (a : Int) (h0 : 0 ≤ a)
    (h1 : a < MAX_BUF) (hu : s.usedbuf a.toNat ≤ 255) :
    (write_repeat s a vs).usedbuf a.toNat = min (s.usedbuf a.toNat + vs.length) 255 := by
  induction vs generalizing s with
  | nil =>
    simp only [write_repeat, List.length_nil, Nat.add_zero]
    omega
  | cons v vs ih =>
    have hw := write_byte_usedbuf s a v h0 h1
    simp only [write_repeat, List.length_cons]
    rw [ih _ (by rw [hw]; split <;> omega), hw]
    split <;> omega

theorem write_repeat_append (vs : List Int) (v : Int) (s : Hex2Bin) (a : Int) :
    write_repeat s a (vs ++ [v]) = (write_byte (write_repeat s a vs) a v).2 := by
  induction vs generalizing s with
  | nil => rfl
  | cons u vs ih =>
    simp only [List.cons_append, write_repeat]
    exact ih _

/-- C17 as stated fails at the 256th write to one address: after 255 writes
of `0x55` to address 0 the counter `usedbuf[0]` is 255; the next call returns
0 and stores its value, but the counter is still 255, not one more, so after
256 successful writes the counter is not 256. -/
theorem C17_counterexample :
    (write_repeat Hex2Bin.init 0 (List.replicate 255 0x55)).usedbuf 0 = 255
    ∧ (write_byte (write_repeat Hex2Bin.init 0 (List.replicate 255 0x55)) 0 0x66).1 = 0
    ∧ (write_byte (write_repeat Hex2Bin.init 0 (List.replicate 255 0x55)) 0 0x66).2.binbuf 0
        = 0x66
    ∧ (write_byte (write_repeat Hex2Bin.init 0 (List.replicate 255 0x55)) 0 0x66).2.usedbuf 0
        = 255
    ∧ (write_repeat Hex2Bin.init 0 (List.replicate 255 0x55 ++ [0x66])).usedbuf 0 ≠ 256 := by
  have h255 := write_repeat_usedbuf (List.replicate 255 0x55) Hex2Bin.init 0 (by decide)
    (by decide) (by decide)
  have e0 : ((0 : Int).toNat) = 0 := rfl
  have ei : Hex2Bin.init.usedbuf 0 = 0 := rfl
  rw [e0, ei, List.length_replicate] at h255
  have hw := write_byte_usedbuf (write_repeat Hex2Bin.init 0 (List.replicate 255 0x55)) 0 0x66
    (by decide) (by decide)
  rw [e0, h255] at hw
  refine ⟨h255, write_byte_ok _ 0 0x66 (by decide) (by decide), ?_, hw, ?_⟩
  · rw [(write_byte_in_range _ 0 0x66 (by decide) (by decide)).1]
    exact Function.update_same _ _ _
  · rw [write_repeat_append, hw]
    decide

/-- C17 (amended): overlap policy of `write_byte`. For every address inside
the buffer and every value, whatever was written there before, `write_byte`
returns 0 and `binbuf[a]` then holds the low 8 bits of the value (the value
itself when it is a byte): the last write wins. `usedbuf[a]` is one more than
before as long as it was below 255 and stays as it is from 255 on, so after
`k` successful writes to a cell not written before the counter is `min k 255`
(2 on the first overlap). -/
theorem C17_overlap_policy (s : Hex2Bin) (a v : Int) (h0 : 0 ≤ a) (h1 : a < MAX_BUF) :
    (write_byte s a v).1 = 0
    ∧ (write_byte s a v).2.binbuf a.toNat = toByte v
    ∧ (0 ≤ v → v < 256 → (((write_byte s a v).2.binbuf a.toNat).val : Int) = v)
    ∧ (write_byte s a v).2.usedbuf a.toNat
        = (if s.usedbuf a.toNat < 255 then s.usedbuf a.toNat + 1 else s.usedbuf a.toNat)
    ∧ (∀ vs : List Int, s.usedbuf a.toNat = 0 →
        (write_repeat s a vs).usedbuf a.toNat = min vs.length 255)
    ∧ (∀ (vs : List Int) (u : Int),
        (write_repeat s a (vs ++ [u])).binbuf a.toNat = toByte u) := by
  have hb : (write_byte s a v).2.binbuf a.toNat = toByte v := by
    rw [(write_byte_in_range s a v h0 h1).1]
    exact Function.update_same _ _ _
  refine ⟨write_byte_ok s a v h0 h1, hb, ?_, write_byte_usedbuf s a v h0 h1, ?_, ?_⟩
  · intro hv0 hv1
    rw [hb]
    show (((v % 256).toNat : Nat) : Int) = v
    omega
  · intro vs hz
    have := write_repeat_usedbuf vs s a h0 h1 (by omega)
    rw [hz, Nat.zero_add] at this
    exact this
  · intro vs u
    rw [write_repeat_append, (write_byte_in_range _ a u h0 h1).1]
    exact Function.update_same _ _ _

theorem C17_witness :
    (write_byte Hex2Bin.init 0x100 0x41).1 = 0
    ∧ (write_byte Hex2Bin.init 0x100 0x41).2.binbuf 0x100 = 0x41
    ∧ (write_repeat Hex2Bin.init 0x100 [0x41, 0x42]).usedbuf 0x100 = 2
    ∧ (write_repeat Hex2Bin.init 0x100 [0x41, 0x42]).binbuf 0x100 = 0x42 :=
  ⟨(C17_overlap_policy Hex2Bin.init 0x100 0x41 (by decide) (by decide)).1,
   (C17_overlap_policy Hex2Bin.init 0x100 0x41 (by decide) (by decide)).2.1,
   (C17_overlap_policy Hex2Bin.init 0x100 0x41 (by decide) (by decide)).2.2.2.2.1
     [0x41, 0x42] rfl,
   (C17_overlap_policy Hex2Bin.init 0x100 0x41 (by decide) (by decide)).2.2.2.2.2
     [0x41] 0x42⟩

/-- C18: capacity error. (1) `write_byte` returns -1 exactly when the address
is negative or at least `MAX_BUF` and then leaves every global as it was
(else it returns 0). (2) A data-record line with valid pairs one of whose
target addresses `boffset + A + i` lies outside `[0, MAX_BUF)` makes the loop
of `read_infile` return -5. (3) Whatever the line buffer holds behind the
type, the data-record case of the `switch` with a target address (as the
`int` sum the code forms) outside `[0, MAX_BUF)` ends in `return -5`, unless
it reads outside the line buffer first, where C defines no result. (4) No run
of `read_infile` changes a cell of `binbuf` or `usedbuf` with an index from
`MAX_BUF` on. -/
theorem C18_capacity_error :
    (∀ (s : Hex2Bin) (addr val : Int),
      ((write_byte s addr val).1 = -1 ↔ (addr < 0 ∨ addr ≥ MAX_BUF))
      ∧ ((write_byte s addr val).1 = -1 → (write_byte s addr val).2 = s)
      ∧ ((write_byte s addr val).1 = -1 ∨ (write_byte s addr val).1 = 0))
    ∧ (∀ (s : Hex2Bin) (text tail : List Char) (rest : List (List Char)) (cnt aH aL : Byte)
        (p : List Byte) (boffset : Int),
        decode_hex text = some (cnt :: aH :: aL :: 0 :: p) → cnt.val = p.length →
        - 2 ^ 31 ≤ boffset → boffset < 2 ^ 31 →
        (∃ i : Nat, i < p.length
          ∧ (boffset + ((aH.val : Int) * 256 + aL.val) + i < 0
            ∨ boffset + ((aH.val : Int) * 256 + aL.val) + i ≥ MAX_BUF)) →
        ∃ s1, read_lines ((':' :: (text ++ tail)) :: rest) boffset s = some (-5, s1))
    ∧ (∀ (rlen badr boffset : Int) (s3 : Hex2Bin),
        (∃ i : Nat, i < rlen.toNat
          ∧ (wrap32 (badr + i + boffset) < 0 ∨ wrap32 (badr + i + boffset) ≥ MAX_BUF)) →
        record_switch 0 rlen badr boffset s3 = none
        ∨ ∃ s4, record_switch 0 rlen badr boffset s3 = some (Sum.inl (-5), s4))
    ∧ (∀ (infile : Option (List Char)) (s : Hex2Bin) (code : Int) (s1 : Hex2Bin),
        read_infile infile s = some (code, s1) → same_outside s s1) := by
  refine ⟨?_, ?_, ?_, ?_⟩
  · intro s addr val
    unfold write_byte
    by_cases hc : addr < 0 ∨ addr ≥ MAX_BUF
    · rw [if_pos hc]
      exact ⟨⟨fun _ => hc, fun _ => rfl⟩, fun _ => rfl, Or.inl rfl⟩
    · rw [if_neg hc]
      refine ⟨⟨fun h => ?_, fun h => absurd h hc⟩, fun h => ?_, Or.inr rfl⟩
      · have h2 : (0 : Int) = -1 := h
        omega
      · have h2 : (0 : Int) = -1 := h
        omega
  · intro s text tail rest cnt aH aL p boffset hx hN hb0 hb1 hbad
    obtain ⟨hr, d3, x3⟩ := read_line_header (fgets_store s (':' :: (text ++ tail))) text _ cnt
      aH aL 0 p boffset (fgets_store_in_line s text tail) hx
    have hmax : MAX_BUF = 2097152 := by decide
    have haH := aH.isLt
    have haL := aL.isLt
    have hbad2 : ∃ i : Nat, i < p.length
        ∧ (wrap32 ((aH.val : Int) * 256 + aL.val + i + boffset) < 0
          ∨ wrap32 ((aH.val : Int) * 256 + aL.val + i + boffset) ≥ MAX_BUF) := by
      obtain ⟨i, hi, hb⟩ := hbad
      have hc := cnt.isLt
      refine ⟨i, hi, ?_⟩
      rw [hmax] at hb ⊢
      unfold wrap32
      omega
    have hd : (with_parse (fgets_store s (':' :: (text ++ tail))) 9
        ((cnt.val + aH.val + aL.val + (0 : Byte).val) % 256)).in_line.drop
        (with_parse (fgets_store s (':' :: (text ++ tail))) 9
        ((cnt.val + aH.val + aL.val + (0 : Byte).val) % 256)).pbyte
        = text.drop 8 ++ _ := d3
    obtain ⟨s4, h4⟩ := data_loop_overflow p _ (text.drop 8) _ ((aH.val : Int) * 256 + aL.val)
      boffset hd x3 hbad2
    have ecnt : ((cnt.val : Nat) : Int).toNat = p.length := by
      rw [hN]; omega
    refine ⟨s4, read_lines_return _ _ _ _ _ _ ?_⟩
    rw [hr]
    unfold record_switch
    rw [if_pos (by rfl), ecnt, h4]
  · intro rlen badr boffset s3 hbad
    unfold record_switch
    rw [if_pos rfl]
    rcases data_loop_overflow_any rlen.toNat s3 badr boffset hbad with h | ⟨s4, h⟩
    · rw [h]
      exact Or.inl rfl
    · rw [h]
      exact Or.inr ⟨s4, rfl⟩
  · intro infile s code s1 h
    exact read_infile_rel same_outside same_outside_of_same same_outside_trans
      write_byte_outside infile s code s1 h

theorem C18_witness :
    (∃ s1, read_lines [":02FFFF004142".toList] 0x1F0000 Hex2Bin.init = some (-5, s1))
    ∧ (read_lines [":02FFFF004142".toList] 0x1F0000 Hex2Bin.init).map
        (fun r => (r.1, r.2.binbuf 0x1FFFFF, r.2.binbuf 0x200000)) = some (-5, 0x41, 0xFF) :=
  ⟨C18_capacity_error.2.1 Hex2Bin.init "02FFFF004142".toList [] [] 2 0xFF 0xFF [0x41, 0x42]
      0x1F0000 (by decide) (by decide) (by decide) (by decide) ⟨1, by decide, by decide⟩,
   by decide⟩

end JesFs

namespace JesFs

/-! ## The output file: window and wire format -/

/-- The file `main` writes when the input was read without error, bytes were
stored, an output name is given, the window from `m` (the floor when one is
set, else `min_bin_addr`) to `max_bin_addr` is not empty and the file can be
opened and written: the bytes of the window, behind the 32 header bytes when
header type 0 is asked for. -/
theorem write_output_ok (env : OutEnv) (now : Nat) (v : MainVars) (s : Hex2Bin)
    (hres : v.res = 0) (hcnt : s.bin_bytes_cnt ≠ 0) (hout : v.outfilename = true)
    (hopen : env.fopen_ok = true) (hbin : env.fwrite_bin_ok = true) (m : Int)
    (hm : (if s.lowest_output_addr ≥ 0 then s.lowest_output_addr else s.min_bin_addr) = m) :
    (m ≤ s.max_bin_addr → v.hdrtype < 0 →
      write_output env now v s
        = (0, some (binbuf_slice s m.toNat (s.max_bin_addr - m + 1).toNat)))
    ∧ (m ≤ s.max_bin_addr → v.hdrtype = 0 → env.fwrite_hdr_ok = true →
      write_output env now v s
        = (0, some ((write_header s 0 m (s.max_bin_addr - m + 1) v.par1 now true).2
            ++ binbuf_slice s m.toNat (s.max_bin_addr - m + 1).toNat)))
    ∧ (s.max_bin_addr < m → write_output env now v s = (-16, none)) := by
  unfold write_output
  simp only []
  rw [hm, if_neg (show ¬ (v.res ≠ 0) by rw [hres]; simp),
    if_neg (show ¬ (s.bin_bytes_cnt = 0) from hcnt),
    if_neg (show ¬ (¬ v.outfilename = true) by rw [hout]; simp)]
  refine ⟨?_, ?_, ?_⟩
  · intro hle hh
    rw [if_neg (show ¬ (s.max_bin_addr - m + 1 ≤ 0) by omega),
      if_neg (show ¬ (¬ env.fopen_ok = true) by rw [hopen]; simp),
      if_neg (show ¬ (v.hdrtype ≥ 0) by omega)]
    simp only []
    rw [if_neg (show ¬ ((0 : Int) ≠ 0) by simp),
      if_neg (show ¬ (¬ env.fwrite_bin_ok = true) by rw [hbin]; simp)]
    rfl
  · intro hle hh hw
    have hwh : ∀ ok : Bool, ok = true →
        write_header s 0 m (s.max_bin_addr - m + 1) v.par1 now ok
        = (0, hdr_bytes
            { hdrmagic := HDR0_MAGIC, hdrsize := 32,
              binsize := ((s.max_bin_addr - m + 1) % 2 ^ 32).toNat,
              binload := (m % 2 ^ 32).toNat,
              crc32 := fs_track_crc32
                (binbuf_slice s m.toNat (s.max_bin_addr - m + 1).toNat) 0xFFFFFFFF,
              timestamp := now % 2 ^ 32, binary_start := v.par1 % 2 ^ 32,
              resv0 := 0xFFFFFFFF }) := by
      intro ok hok
      unfold write_header
      simp only []
      rw [if_pos trivial, if_neg (show ¬ (¬ ok = true) by rw [hok]; simp)]
    rw [if_neg (show ¬ (s.max_bin_addr - m + 1 ≤ 0) by omega),
      if_neg (show ¬ (¬ env.fopen_ok = true) by rw [hopen]; simp),
      if_pos (show v.hdrtype ≥ 0 by omega), hh, hwh _ hw, hwh true rfl]
    simp only []
    rw [if_neg (show ¬ ((0 : Int) ≠ 0) by simp),
      if_neg (show ¬ (¬ env.fwrite_bin_ok = true) by rw [hbin]; simp)]
  · intro hlt
    rw [if_pos (show s.max_bin_addr - m + 1 ≤ 0 by omega)]

theorem write_header_type0 (s : Hex2Bin) (m anz : Int) (par1 now : Nat) :
    write_header s 0 m anz par1 now true
      = (0, hdr_bytes
          { hdrmagic := HDR0_MAGIC, hdrsize := 32, binsize := (anz % 2 ^ 32).toNat,
            binload := (m % 2 ^ 32).toNat,
            crc32 := fs_track_crc32 (binbuf_slice s m.toNat anz.toNat) 0xFFFFFFFF,
            timestamp := now % 2 ^ 32, binary_start := par1 % 2 ^ 32,
            resv0 := 0xFFFFFFFF }) := by
  unfold write_header
  simp only []
  rw [if_pos trivial, if_neg (show ¬ ¬ True by simp)]

/-- C19 as stated fails for a floor below the lowest written address: the
input file holds the two bytes `41 42` for the addresses `0x10` and `0x11`,
the command line sets the floor 0 and no header. The file written starts at
address 0, not at `max(minWritten, F) = 0x10`: its first 16 bytes are the
`0xFF` of the addresses `0 .. 0xF`, which lie outside `[minWritten,
maxWritten]`. -/
theorem C19_counterexample :
    hex2bin_main good_env 0
        [Arg.infile (some ":0200100041426B\n:00000001FF\n".toList), Arg.opt_c 0, Arg.opt_o false]
      = some (0, some (List.replicate 16 0xFF ++ [0x41, 0x42]))
    ∧ (read_infile (some ":0200100041426B\n:00000001FF\n".toList) Hex2Bin.init).map
        (fun r => (r.1, r.2.min_bin_addr, r.2.max_bin_addr, r.2.bin_bytes_cnt))
      = some (0, 0x10, 0x11, 2)
    ∧ hex2bin_main good_env 0
        [Arg.infile (some ":0200100041426B\n:00000001FF\n".toList), Arg.opt_o false]
      = some (0, some [0x41, 0x42]) := by
  refine ⟨by decide, by decide, by decide⟩

/-- C19 (amended): output window. When the input was read without error, at
least one byte was stored, an output name is given and the file can be opened
and written, with no header or a type-0 header: without a floor the payload
of the file is exactly `binbuf[min_bin_addr .. max_bin_addr]`; with a floor `F
≥ 0` it is exactly `binbuf[F .. max_bin_addr]`, whatever `min_bin_addr` is, so
addresses below `F` are left out and, when `F` is below `min_bin_addr`, the
cells `F .. min_bin_addr - 1` are part of the payload; when `F` is above
`max_bin_addr` the tool returns -16 and writes no file. -/
theorem C19_output_window (env : OutEnv) (now : Nat) (v : MainVars) (s : Hex2Bin)
    (hres : v.res = 0) (hcnt : s.bin_bytes_cnt ≠ 0) (hout : v.outfilename = true)
    (hopen : env.fopen_ok = true) (hbin : env.fwrite_bin_ok = true)
    (hhdr : v.hdrtype < 0 ∨ (v.hdrtype = 0 ∧ env.fwrite_hdr_ok = true)) :
    (s.lowest_output_addr < 0 → s.min_bin_addr ≤ s.max_bin_addr →
      ∃ hdr, write_output env now v s
          = (0, some (hdr ++ binbuf_slice s s.min_bin_addr.toNat
              (s.max_bin_addr - s.min_bin_addr + 1).toNat))
        ∧ hdr.length = (if v.hdrtype < 0 then 0 else 32))
    ∧ (0 ≤ s.lowest_output_addr → s.lowest_output_addr ≤ s.max_bin_addr →
      ∃ hdr, write_output env now v s
          = (0, some (hdr ++ binbuf_slice s s.lowest_output_addr.toNat
              (s.max_bin_addr - s.lowest_output_addr + 1).toNat))
        ∧ hdr.length = (if v.hdrtype < 0 then 0 else 32))
    ∧ (0 ≤ s.lowest_output_addr → s.max_bin_addr < s.lowest_output_addr →
      write_output env now v s = (-16, none)) := by
  refine ⟨?_, ?_, ?_⟩
  · intro hl hle
    obtain ⟨k1, k2, _⟩ := write_output_ok env now v s hres hcnt hout hopen hbin
      s.min_bin_addr (by rw [if_neg (by omega)])
    rcases hhdr with hh | ⟨hh, hw⟩
    · exact ⟨[], by rw [k1 hle hh]; rfl, by rw [if_pos hh]; rfl⟩
    · refine ⟨_, k2 hle hh hw, ?_⟩
      rw [write_header_type0, if_neg (by omega)]
      exact hdr_bytes_length _
  · intro hl hle
    obtain ⟨k1, k2, _⟩ := write_output_ok env now v s hres hcnt hout hopen hbin
      s.lowest_output_addr (by rw [if_pos (by omega)])
    rcases hhdr with hh | ⟨hh, hw⟩
    · exact ⟨[], by rw [k1 hle hh]; rfl, by rw [if_pos hh]; rfl⟩
    · refine ⟨_, k2 hle hh hw, ?_⟩
      rw [write_header_type0, if_neg (by omega)]
      exact hdr_bytes_length _
  · intro hl hlt
    exact (write_output_ok env now v s hres hcnt hout hopen hbin
      s.lowest_output_addr (by rw [if_pos (by omega)])).2.2 hlt

theorem C19_witness :
    (∃ hdr, write_output good_env 0 ⟨0, -1, 0, true⟩
        (store_bytes { Hex2Bin.init with lowest_output_addr := 0x11 } 0x10 [0x41, 0x42])
          = (0, some (hdr ++ binbuf_slice
              (store_bytes { Hex2Bin.init with lowest_output_addr := 0x11 } 0x10 [0x41, 0x42])
              (store_bytes { Hex2Bin.init with lowest_output_addr := 0x11 } 0x10
                [0x41, 0x42]).lowest_output_addr.toNat
              ((store_bytes { Hex2Bin.init with lowest_output_addr := 0x11 } 0x10
                [0x41, 0x42]).max_bin_addr
                - (store_bytes { Hex2Bin.init with lowest_output_addr := 0x11 } 0x10
                  [0x41, 0x42]).lowest_output_addr + 1).toNat))
        ∧ hdr.length = (if (⟨0, -1, 0, true⟩ : MainVars).hdrtype < 0 then 0 else 32))
    ∧ hex2bin_main good_env 0
        [Arg.infile (some ":0200100041426B\n:00000001FF\n".toList), Arg.opt_c 0x11,
          Arg.opt_o false] = some (0, some [0x42])
    ∧ hex2bin_main good_env 0
        [Arg.infile (some ":0200100041426B\n:00000001FF\n".toList), Arg.opt_c 0x12,
          Arg.opt_o false] = some (-16, none) :=
  ⟨(C19_output_window good_env 0 ⟨0, -1, 0, true⟩
      (store_bytes { Hex2Bin.init with lowest_output_addr := 0x11 } 0x10 [0x41, 0x42])
      rfl (by decide) rfl rfl rfl (Or.inl (by decide))).2.1 (by decide) (by decide),
   by decide, by decide⟩

end JesFs

namespace JesFs

theorem bytes_of_word_values (w : Nat) :
    (bytes_of_word w).map Fin.val
      = [w % 256, w / 256 % 256, w / 65536 % 256, w / 16777216 % 256] := rfl

/-- C20: image file wire format. (1) `write_header` for header type 0 emits
the eight fields `hdrmagic`, `hdrsize`, `binsize`, `binload`, `crc32`,
`timestamp`, `binary_start`, `resv0` in this order, each as four bytes,
32 bytes in all; decoding the 32 bytes with the layout of the device gives
the same eight values back, and the magic is the one the device tests for.
(2) The four bytes of a field are its little-endian bytes. (3) When `main`
writes a file with header type 0 from globals whose marks lie inside the
buffer, the file is these 32 bytes followed by exactly `binsize` bytes, so it
is `32 + binsize` bytes long, and the header test of the device (32 bytes
read, magic equal to `HDR0_MAGIC`) passes on it. -/
theorem C20_image_wire_format :
    HDR0_MAGIC = 0xE79B9C4F
    ∧ (∀ (s : Hex2Bin) (m anz : Int) (par1 now : Nat),
      ∃ H : HDR0_TYPE,
        H = { hdrmagic := HDR0_MAGIC, hdrsize := 32, binsize := (anz % 2 ^ 32).toNat,
              binload := (m % 2 ^ 32).toNat,
              crc32 := fs_track_crc32 (binbuf_slice s m.toNat anz.toNat) 0xFFFFFFFF,
              timestamp := now % 2 ^ 32, binary_start := par1 % 2 ^ 32,
              resv0 := 0xFFFFFFFF }
        ∧ write_header s 0 m anz par1 now true
            = (0, bytes_of_word H.hdrmagic ++ bytes_of_word H.hdrsize ++ bytes_of_word H.binsize
                ++ bytes_of_word H.binload ++ bytes_of_word H.crc32 ++ bytes_of_word H.timestamp
                ++ bytes_of_word H.binary_start ++ bytes_of_word H.resv0)
        ∧ (write_header s 0 m anz par1 now true).2.length = 32
        ∧ hdr_of_bytes (write_header s 0 m anz par1 now true).2 = H
        ∧ (hdr_of_bytes (write_header s 0 m anz par1 now true).2).hdrmagic = HDR0_MAGIC)
    ∧ (∀ w : Nat, (bytes_of_word w).map Fin.val
        = [w % 256, w / 256 % 256, w / 65536 % 256, w / 16777216 % 256])
    ∧ (∀ (env : OutEnv) (now : Nat) (v : MainVars) (s : Hex2Bin) (m : Int),
        v.res = 0 → s.bin_bytes_cnt ≠ 0 → v.outfilename = true → env.fopen_ok = true →
        env.fwrite_hdr_ok = true → env.fwrite_bin_ok = true → v.hdrtype = 0 → addr_bounds s →
        (if s.lowest_output_addr ≥ 0 then s.lowest_output_addr else s.min_bin_addr) = m →
        m ≤ s.max_bin_addr →
        ∃ file, write_output env now v s = (0, some file)
          ∧ file.take 32 = (write_header s 0 m (s.max_bin_addr - m + 1) v.par1 now true).2
          ∧ file.drop 32 = binbuf_slice s m.toNat (s.max_bin_addr - m + 1).toNat
          ∧ (file.drop 32).length = (hdr_of_bytes (file.take 32)).binsize
          ∧ file.length = 32 + (hdr_of_bytes (file.take 32)).binsize
          ∧ ¬ ((file.take 32).length ≠ 32
              ∨ (hdr_of_bytes (file.take 32)).hdrmagic ≠ HDR0_MAGIC)) := by
  have hrt : ∀ (s : Hex2Bin) (m anz : Int) (par1 now : Nat),
      hdr_of_bytes (write_header s 0 m anz par1 now true).2
        = { hdrmagic := HDR0_MAGIC, hdrsize := 32, binsize := (anz % 2 ^ 32).toNat,
            binload := (m % 2 ^ 32).toNat,
            crc32 := fs_track_crc32 (binbuf_slice s m.toNat anz.toNat) 0xFFFFFFFF,
            timestamp := now % 2 ^ 32, binary_start := par1 % 2 ^ 32,
            resv0 := 0xFFFFFFFF } := by
    intro s m anz par1 now
    rw [write_header_type0]
    exact hdr_of_hdr_bytes _ (by simp only [HDR0_MAGIC]; omega) (by simp only []; omega)
      (by simp only []; omega) (by simp only []; omega)
      (fs_track_crc32_lt _ 0xFFFFFFFF (by decide)) (Nat.mod_lt _ (by decide))
      (Nat.mod_lt _ (by decide)) (by simp only []; omega)
  have hlen : ∀ (s : Hex2Bin) (m anz : Int) (par1 now : Nat),
      (write_header s 0 m anz par1 now true).2.length = 32 := by
    intro s m anz par1 now
    rw [write_header_type0]
    exact hdr_bytes_length _
  refine ⟨rfl, ?_, bytes_of_word_values, ?_⟩
  · intro s m anz par1 now
    refine ⟨_, rfl, ?_, hlen s m anz par1 now, hrt s m anz par1 now, ?_⟩
    · rw [write_header_type0]
      rfl
    · rw [hrt]
  · intro env now v s m hres hcnt hout hopen hwh hbin ht hb hm hle
    obtain ⟨b1, b2, b3⟩ := hb
    have hmax : MAX_BUF = 2097152 := by decide
    rw [hmax] at b3
    have hm0 : 0 ≤ m := by
      rw [← hm]; split <;> omega
    have hfile := (write_output_ok env now v s hres hcnt hout hopen hbin m hm).2.1 hle ht hwh
    have hl := hlen s m (s.max_bin_addr - m + 1) v.par1 now
    have htake : ((write_header s 0 m (s.max_bin_addr - m + 1) v.par1 now true).2
        ++ binbuf_slice s m.toNat (s.max_bin_addr - m + 1).toNat).take 32
        = (write_header s 0 m (s.max_bin_addr - m + 1) v.par1 now true).2 := by
      rw [List.take_append_of_le_length (by rw [hl]), List.take_of_length_le (by rw [hl])]
    have hdrop : ((write_header s 0 m (s.max_bin_addr - m + 1) v.par1 now true).2
        ++ binbuf_slice s m.toNat (s.max_bin_addr - m + 1).toNat).drop 32
        = binbuf_slice s m.toNat (s.max_bin_addr - m + 1).toNat := by
      rw [List.drop_append_of_le_length (by rw [hl]), List.drop_of_length_le (by rw [hl]),
        List.nil_append]
    have hbs : (hdr_of_bytes (write_header s 0 m (s.max_bin_addr - m + 1) v.par1 now true).2).binsize
        = (s.max_bin_addr - m + 1).toNat := by
      rw [hrt]
      show ((s.max_bin_addr - m + 1) % 2 ^ 32).toNat = _
      omega
    refine ⟨_, hfile, htake, hdrop, ?_, ?_, ?_⟩
    · rw [hdrop, htake, hbs, binbuf_slice_length]
    · rw [htake, hbs, List.length_append, hl, binbuf_slice_length]
    · rw [htake, hl, hrt]
      simp

theorem C20_witness :
    (∃ file, write_output good_env 7 ⟨0, 0, 0, true⟩
        (store_bytes Hex2Bin.init 0x10 [0x41, 0x42]) = (0, some file)
      ∧ file.take 32
          = (write_header (store_bytes Hex2Bin.init 0x10 [0x41, 0x42]) 0 0x10
              ((store_bytes Hex2Bin.init 0x10 [0x41, 0x42]).max_bin_addr - 0x10 + 1) 0 7 true).2
      ∧ file.drop 32 = binbuf_slice (store_bytes Hex2Bin.init 0x10 [0x41, 0x42])
          (0x10 : Int).toNat
          ((store_bytes Hex2Bin.init 0x10 [0x41, 0x42]).max_bin_addr - 0x10 + 1).toNat
      ∧ (file.drop 32).length = (hdr_of_bytes (file.take 32)).binsize
      ∧ file.length = 32 + (hdr_of_bytes (file.take 32)).binsize
      ∧ ¬ ((file.take 32).length ≠ 32
          ∨ (hdr_of_bytes (file.take 32)).hdrmagic ≠ HDR0_MAGIC))
    ∧ (hex2bin_main good_env 7
        [Arg.infile (some ":0200100041426B\n:00000001FF\n".toList), Arg.opt_h 0 none,
          Arg.opt_o false]).map
        (fun r => (r.1, r.2.map (fun f => (f.length, f.take 16, f.drop 32))))
      = some (0, some (34, [0x4F, 0x9C, 0x9B, 0xE7, 32, 0, 0, 0, 2, 0, 0, 0, 0x10, 0, 0, 0],
          [0x41, 0x42])) :=
  ⟨C20_image_wire_format.2.2.2 good_env 7 ⟨0, 0, 0, true⟩
      (store_bytes Hex2Bin.init 0x10 [0x41, 0x42]) 0x10 rfl (by decide) rfl rfl rfl rfl rfl
      ⟨by decide, by decide, by decide⟩ (by decide) (by decide),
   by decide⟩

end JesFs

namespace JesFs

/-! ## The reads of the integrity pass -/

theorem block_len_eq (P : Platform) (total_len : Nat) :
    (SBUF_SIZE P < total_len → block_len P total_len = SBUF_SIZE P)
    ∧ (total_len ≤ SBUF_SIZE P → block_len P total_len = total_len) := by
  unfold block_len
  constructor
  · intro h
    rw [if_pos h]
  · intro h
    rw [if_neg (by omega)]

/-- The reads of the integrity loop when the file holds all bytes asked for:
`total_len / SBUF_SIZE` reads of `SBUF_SIZE` bytes and one read of the rest
when there is one. -/
theorem integrity_loop_reads (P : Platform) (hps : 0 < SBUF_SIZE P) (fuel total_len : Nat)
    (d : FS_DESC) (sb : List Byte) (hf : total_len ≤ fuel)
    (hle : d.pos + total_len ≤ d.content.length) :
    (integrity_loop P fuel total_len d sb).2.2.2
      = List.replicate (total_len / SBUF_SIZE P)
          (Event.fs_read true (SBUF_SIZE P) (SBUF_SIZE P))
        ++ (if total_len % SBUF_SIZE P = 0 then []
            else [Event.fs_read true (total_len % SBUF_SIZE P) (total_len % SBUF_SIZE P)]) := by
  induction fuel generalizing total_len d sb with
  | zero =>
    have : total_len = 0 := by omega
    subst this
    rw [integrity_loop_zero]
    simp
  | succ fuel ih =>
    by_cases h0 : total_len = 0
    · subst h0
      rw [integrity_loop_zero]
      simp
    · have hlen := fs_read_length d true (block_len P total_len)
      have hpos := fs_read_pos d true (block_len P total_len)
      have hble := block_len_le P total_len
      have hcont := fs_read_content d true (block_len P total_len)
      have hs : (fs_read d true (block_len P total_len)).1.length = block_len P total_len := by
        rw [hlen]; omega
      rw [hs] at hlen
      rw [← hlen] at hpos
      rw [integrity_loop_step P _ _ _ _ h0 hs]
      simp only []
      by_cases hbig : SBUF_SIZE P < total_len
      · have hb := (block_len_eq P total_len).1 hbig
        rw [ih (total_len - block_len P total_len) _ _ (by omega)
          (by rw [hcont, hpos]; omega), hb]
        obtain ⟨t, rfl⟩ : ∃ t, total_len = t + SBUF_SIZE P := ⟨total_len - SBUF_SIZE P, by omega⟩
        rw [Nat.add_sub_cancel, Nat.add_div_right _ hps, Nat.add_mod_right, List.replicate_succ]
        rfl
      · have hb := (block_len_eq P total_len).2 (by omega)
        rw [hb, Nat.sub_self, integrity_loop_zero]
        simp only []
        by_cases heq : total_len = SBUF_SIZE P
        · rw [heq, Nat.div_self hps, Nat.mod_self]
          rfl
        · rw [Nat.div_eq_of_lt (by omega), Nat.mod_eq_of_lt (by omega), if_neg h0]
          rfl

theorem ceil_div_eq (S total : Nat) (hS : 0 < S) :
    (total + S - 1) / S = total / S + (if total % S = 0 then 0 else 1) := by
  have h1 := Nat.div_add_mod total S
  have h2 := Nat.mod_lt total hS
  by_cases hr : total % S = 0
  · rw [if_pos hr, Nat.add_zero]
    apply Nat.div_eq_of_lt_le
    · rw [hr] at h1
      rw [Nat.mul_comm]
      omega
    · have : (total / S + 1) * S = S * (total / S) + S := by ring
      rw [this]
      rw [hr] at h1
      omega
  · rw [if_neg hr]
    apply Nat.div_eq_of_lt_le
    · have : (total / S + 1) * S = S * (total / S) + S := by ring
      rw [this]
      omega
    · have : (total / S + 1 + 1) * S = S * (total / S) + S + S := by ring
      rw [this]
      omega

/-- What the explicit list of reads says about their number, their lengths
and their sum. -/
theorem chunk_reads_facts (S total : Nat) (hS : 0 < S) (l : List Event)
    (hl : l = List.replicate (total / S) (Event.fs_read true S S)
        ++ (if total % S = 0 then [] else [Event.fs_read true (total % S) (total % S)])) :
    l.length = (total + S - 1) / S
    ∧ (∀ e ∈ l, ∃ n, e = Event.fs_read true n n ∧ 1 ≤ n ∧ n ≤ S)
    ∧ (∀ e ∈ l.dropLast, e = Event.fs_read true S S)
    ∧ read_total l = total := by
  have h1 := Nat.div_add_mod total S
  have h2 := Nat.mod_lt total hS
  have hsum : ∀ q : Nat, read_total (List.replicate q (Event.fs_read true S S)) = S * q := by
    intro q
    induction q with
    | zero => rfl
    | succ q ih =>
      unfold read_total at *
      rw [List.replicate_succ, List.map_cons, List.sum_cons, ih]
      show S + S * q = S * (q + 1)
      ring
  subst hl
  by_cases hr : total % S = 0
  · rw [if_pos hr, List.append_nil]
    refine ⟨?_, ?_, ?_, ?_⟩
    · rw [List.length_replicate, ceil_div_eq S total hS, if_pos hr, Nat.add_zero]
    · intro e he
      rw [List.eq_of_mem_replicate he]
      exact ⟨S, rfl, hS, le_refl _⟩
    · intro e he
      exact List.eq_of_mem_replicate (List.mem_of_mem_dropLast he)
    · rw [hsum]
      omega
  · rw [if_neg hr]
    refine ⟨?_, ?_, ?_, ?_⟩
    · rw [List.length_append, List.length_replicate, ceil_div_eq S total hS, if_neg hr]
      rfl
    · intro e he
      rcases List.mem_append.1 he with h | h
      · rw [List.eq_of_mem_replicate h]
        exact ⟨S, rfl, hS, le_refl _⟩
      · rw [List.mem_singleton] at h
        rw [h]
        exact ⟨total % S, rfl, by omega, by omega⟩
    · intro e he
      rw [List.dropLast_append_of_ne_nil _ (by simp)] at he
      simp only [List.dropLast_single, List.append_nil] at he
      exact List.eq_of_mem_replicate he
    · unfold read_total at *
      rw [List.map_append, List.sum_append, hsum]
      show S * (total / S) + (total % S + 0) = total
      omega

end JesFs

namespace JesFs

/-- C21: the integrity pass streams exactly `binsize` bytes in bounded chunks.
For a buffer size above 0 and every candidate file with a full header, the
right magic, not identical to the installed image, that holds all `binsize`
payload bytes its header declares (whatever `binsize` is), the integrity loop
of `check_system` ends; its reads are `binsize / SBUF_SIZE` reads of
`SBUF_SIZE` bytes followed by one read of `binsize % SBUF_SIZE` bytes when
that is not 0, so there are `ceil(binsize / SBUF_SIZE)` of them, each returns
between 1 and `SBUF_SIZE` bytes, all but the last `SBUF_SIZE`, and their
lengths sum to `binsize`. They follow the open and the header read in the run
of `check_system`; the running CRC after them is `fs_track_crc32` of the
payload alone from the seed `0xFFFFFFFF`, and this is the value compared with
the declared `crc32`: the run returns -103 or -3 exactly when it differs. -/
theorem C21_integrity_pass_reads (P : Platform) (F : Flash) (w : Device)
    (content : List Byte) (hps : 0 < SBUF_SIZE P)
    (hd : w.disk = some content) (hlen : 32 ≤ content.length)
    (hmagic : (candidate_header content).hdrmagic = HDR0_MAGIC)
    (hid : ¬ identical_candidate P w content)
    (hfull : (candidate_payload content).length = (candidate_header content).binsize) :
    (integrity_pass P w content).1 = LoopExit.done
    ∧ (integrity_pass P w content).2.2.2
        = List.replicate ((candidate_header content).binsize / SBUF_SIZE P)
            (Event.fs_read true (SBUF_SIZE P) (SBUF_SIZE P))
          ++ (if (candidate_header content).binsize % SBUF_SIZE P = 0 then []
              else [Event.fs_read true ((candidate_header content).binsize % SBUF_SIZE P)
                ((candidate_header content).binsize % SBUF_SIZE P)])
    ∧ (integrity_pass P w content).2.2.2.length
        = ((candidate_header content).binsize + SBUF_SIZE P - 1) / SBUF_SIZE P
    ∧ (∀ e ∈ (integrity_pass P w content).2.2.2,
        ∃ n, e = Event.fs_read true n n ∧ 1 ≤ n ∧ n ≤ SBUF_SIZE P)
    ∧ (∀ e ∈ (integrity_pass P w content).2.2.2.dropLast,
        e = Event.fs_read true (SBUF_SIZE P) (SBUF_SIZE P))
    ∧ read_total (integrity_pass P w content).2.2.2 = (candidate_header content).binsize
    ∧ (integrity_pass P w content).2.1.file_crc32
        = fs_track_crc32 (candidate_payload content) 0xFFFFFFFF
    ∧ (∃ rest, (check_system P F w).trace
          = [Event.fs_open 0, Event.fs_read true 32 32] ++ (integrity_pass P w content).2.2.2
              ++ rest
        ∧ (rest = [] ∨ rest.head? = some Event.fs_rewind))
    ∧ (check_system P F w).res ≠ none
    ∧ (((check_system P F w).res = some (-103) ∨ (check_system P F w).res = some (-3))
        ↔ fs_track_crc32 (candidate_payload content) 0xFFFFFFFF
            ≠ (candidate_header content).crc32) := by
  have hdone := (integrity_pass_exit P hps w content hlen).1 hfull
  have hfit := (candidate_payload_length content hlen).1 hfull
  have hreads : (integrity_pass P w content).2.2.2
      = List.replicate ((candidate_header content).binsize / SBUF_SIZE P)
          (Event.fs_read true (SBUF_SIZE P) (SBUF_SIZE P))
        ++ (if (candidate_header content).binsize % SBUF_SIZE P = 0 then []
            else [Event.fs_read true ((candidate_header content).binsize % SBUF_SIZE P)
              ((candidate_header content).binsize % SBUF_SIZE P)]) := by
    unfold integrity_pass
    exact integrity_loop_reads P hps _ _ ⟨content, 32, 0xFFFFFFFF⟩ w.sbuffer (le_refl _) hfit
  obtain ⟨f1, f2, f3, f4⟩ := chunk_reads_facts (SBUF_SIZE P) (candidate_header content).binsize
    hps _ hreads
  have hcrc := (integrity_pass_done P w content hlen hdone).2.1
  have hfl := flash_pass_exit P F hps w content hlen hfull
  have hcs := check_system_pass P F w content hd hlen hmagic hid
  rw [hdone] at hcs
  simp only [] at hcs
  refine ⟨hdone, hreads, f1, f2, f3, f4, hcrc, ?_, ?_, ?_⟩
  · by_cases hc : (integrity_pass P w content).2.1.file_crc32 ≠ (candidate_header content).crc32
    · rw [if_pos hc] at hcs
      rw [hcs]
      exact ⟨[], by simp, Or.inl rfl⟩
    · rw [if_neg hc, hfl] at hcs
      rw [hcs]
      exact ⟨[Event.fs_rewind, Event.fs_read false 32 32] ++ (flash_pass P F w content).2.2
        ++ [Event.page_erase P.BOOTLOADER_SETTINGS_ADDRESS,
            Event.write_words P.BOOTLOADER_SETTINGS_ADDRESS (content.take 32)],
        by simp, Or.inr rfl⟩
  · by_cases hc : (integrity_pass P w content).2.1.file_crc32 ≠ (candidate_header content).crc32
    · rw [if_pos hc] at hcs
      rw [hcs]
      simp
    · rw [if_neg hc, hfl] at hcs
      rw [hcs]
      simp
  · rw [← hcrc]
    by_cases hc : (integrity_pass P w content).2.1.file_crc32 ≠ (candidate_header content).crc32
    · rw [if_pos hc] at hcs
      rw [hcs]
      refine ⟨fun _ => hc, fun _ => ?_⟩
      by_cases hv : cpu_firmware_check P w.mem = true
      · left
        show some (if cpu_firmware_check P w.mem = true then (-103 : Int) else -3) = some (-103)
        rw [if_pos hv]
      · right
        show some (if cpu_firmware_check P w.mem = true then (-103 : Int) else -3) = some (-3)
        rw [if_neg hv]
    · rw [if_neg hc, hfl] at hcs
      rw [hcs]
      refine ⟨fun h => ?_, fun h => absurd h hc⟩
      exfalso
      have h2 : (if cpu_firmware_check P (flashed_memory P F w content) = true then (1 : Int)
          else -5) = -103
          ∨ (if cpu_firmware_check P (flashed_memory P F w content) = true then (1 : Int)
          else -5) = -3 := by
        rcases h with h | h
        · exact Or.inl (Option.some.inj h)
        · exact Or.inr (Option.some.inj h)
      by_cases hv : cpu_firmware_check P (flashed_memory P F w content) = true
      · rw [if_pos hv] at h2
        omega
      · rw [if_neg hv] at h2
        omega

theorem C21_witness :
    (integrity_pass ⟨4, 0x100⟩ (empty_device (some (mk_image 0x40 77 32
        [1, 2, 3, 4, 5, 6, 7, 8, 9, 10]))) (mk_image 0x40 77 32
        [1, 2, 3, 4, 5, 6, 7, 8, 9, 10])).2.2.2
      = [Event.fs_read true 4 4, Event.fs_read true 4 4, Event.fs_read true 2 2]
    ∧ (check_system ⟨4, 0x100⟩ (nvmc ⟨4, 0x100⟩) (empty_device (some (mk_image 0x40 77 32
        [1, 2, 3, 4, 5, 6, 7, 8, 9, 10])))).res = some 1 :=
  ⟨(C21_integrity_pass_reads ⟨4, 0x100⟩ (nvmc ⟨4, 0x100⟩)
      (empty_device (some (mk_image 0x40 77 32 [1, 2, 3, 4, 5, 6, 7, 8, 9, 10])))
      (mk_image 0x40 77 32 [1, 2, 3, 4, 5, 6, 7, 8, 9, 10])
      (by decide) rfl (by decide) (by decide) (by decide) (by decide)).2.1,
   by decide⟩

end JesFs

namespace JesFs

/-! ## The flashing loop reads what the integrity loop read -/

theorem fs_read_same (d e : FS_DESC) (b c : Bool) (len : Nat) (hc : e.content = d.content)
    (hp : e.pos = d.pos) :
    (fs_read e c len).1 = (fs_read d b len).1
    ∧ (fs_read e c len).2.content = (fs_read d b len).2.content
    ∧ (fs_read e c len).2.pos = (fs_read d b len).2.pos := by
  simp [fs_read, hc, hp]

/-- Both loops of `check_system` are left the same way when they start at the
same position of the same file. -/
theorem loops_same_exit (P : Platform) (F : Flash) (fuel total_len fadr : Nat)
    (d e : FS_DESC) (sb sc : List Byte) (mem : Memory) (hc : e.content = d.content)
    (hp : e.pos = d.pos) :
    (flash_loop P F fuel total_len fadr e sc mem).1 = (integrity_loop P fuel total_len d sb).1 := by
  induction fuel generalizing total_len fadr d e sb sc mem with
  | zero =>
    by_cases h0 : total_len = 0
    · subst h0
      rw [flash_loop_zero, integrity_loop_zero]
    · rw [flash_loop_no_fuel P F _ _ _ _ _ h0, integrity_loop_no_fuel P _ _ _ h0]
  | succ fuel ih =>
    by_cases h0 : total_len = 0
    · subst h0
      rw [flash_loop_zero, integrity_loop_zero]
    · obtain ⟨r1, r2, r3⟩ := fs_read_same d e true true (block_len P total_len) hc hp
      by_cases hs : (fs_read d true (block_len P total_len)).1.length = block_len P total_len
      · have hs2 : (fs_read e true (block_len P total_len)).1.length = block_len P total_len := by
          rw [r1]; exact hs
        rw [flash_loop_step P F _ _ _ _ _ _ h0 hs2, integrity_loop_step P _ _ _ _ h0 hs]
        simp only []
        exact ih _ _ _ _ _ _ _ r2 r3
      · have hs2 : (fs_read e true (block_len P total_len)).1.length ≠ block_len P total_len := by
          rw [r1]; exact hs
        rw [flash_loop_short P F _ _ _ _ _ _ h0 hs2, integrity_loop_short P _ _ _ _ h0 hs]

/-- The reads of a flashing loop that was not left through a short read are
all full; when the loop ran to its end they returned `total_len` bytes. -/
theorem flash_loop_reads (P : Platform) (F : Flash) (fuel total_len fadr : Nat)
    (d : FS_DESC) (sb : List Byte) (mem : Memory)
    (h : (flash_loop P F fuel total_len fadr d sb mem).1 ≠ LoopExit.short_read) :
    (∀ e ∈ (flash_loop P F fuel total_len fadr d sb mem).2.2,
      ∀ b n m, e = Event.fs_read b n m → m = n)
    ∧ ((flash_loop P F fuel total_len fadr d sb mem).1 = LoopExit.done →
      read_total (flash_loop P F fuel total_len fadr d sb mem).2.2 = total_len) := by
  induction fuel generalizing total_len fadr d sb mem with
  | zero =>
    by_cases h0 : total_len = 0
    · subst h0
      rw [flash_loop_zero]
      exact ⟨by simp, fun _ => rfl⟩
    · rw [flash_loop_no_fuel P F _ _ _ _ _ h0]
      exact ⟨by simp, by simp⟩
  | succ fuel ih =>
    by_cases h0 : total_len = 0
    · subst h0
      rw [flash_loop_zero]
      exact ⟨by simp, fun _ => rfl⟩
    · by_cases hs : (fs_read d true (block_len P total_len)).1.length = block_len P total_len
      · rw [flash_loop_step P F _ _ _ _ _ _ h0 hs] at h ⊢
        simp only [] at h ⊢
        obtain ⟨i1, i2⟩ := ih _ _ _ _ _ h
        have hble := block_len_le P total_len
        constructor
        · intro e he b n m hb
          simp only [List.mem_cons] at he
          rcases he with he | he | he | he
          · rw [he] at hb
            simp only [Event.fs_read.injEq] at hb
            omega
          · rw [he] at hb
            simp at hb
          · rw [he] at hb
            simp at hb
          · exact i1 e he b n m hb
        · intro hd
          have := i2 hd
          unfold read_total at *
          simp only [List.map_cons, List.sum_cons, Event.read_len]
          omega
      · rw [flash_loop_short P F _ _ _ _ _ _ h0 hs] at h
        exact absurd rfl h

theorem flash_pass_same_exit (P : Platform) (F : Flash) (w : Device) (content : List Byte)
    (hlen : 32 ≤ content.length) :
    (flash_pass P F w content).1 = (integrity_pass P w content).1 := by
  unfold flash_pass
  have hc := flash_desc_content P w content
  have hp := flash_desc_pos P w content hlen
  exact loops_same_exit P F _ _ _ ⟨content, 32, 0xFFFFFFFF⟩ _ w.sbuffer _ w.mem hc hp

end JesFs

namespace JesFs

theorem some_ite_ne (c : Prop) [Decidable c] (a b x : Int) (ha : a ≠ x) (hb : b ≠ x) :
    (some (if c then a else b) : Option Int) ≠ some x := by
  intro h
  have h2 := Option.some.inj h
  by_cases hc : c
  · rw [if_pos hc] at h2
    exact ha h2
  · rw [if_neg hc] at h2
    exact hb h2

/-- Every run of `check_system` either makes no erase and no write, leaves
program memory as it was and returns none of 1, -4, -5, or went through the
whole path: candidate with full header and magic, not identical, integrity
loop run to its end with the declared CRC, flashing loop run to its end,
record written, result 1 or -5 by the re-check. -/
theorem check_system_cases (P : Platform) (F : Flash) (w : Device) :
    ((∀ e ∈ (check_system P F w).trace, e.is_flash = false)
      ∧ (check_system P F w).mem = w.mem
      ∧ (check_system P F w).res ≠ some 1 ∧ (check_system P F w).res ≠ some (-4)
      ∧ (check_system P F w).res ≠ some (-5))
    ∨ ∃ content, w.disk = some content ∧ 32 ≤ content.length
        ∧ (candidate_header content).hdrmagic = HDR0_MAGIC
        ∧ ¬ identical_candidate P w content
        ∧ (integrity_pass P w content).1 = LoopExit.done
        ∧ (integrity_pass P w content).2.1.file_crc32 = (candidate_header content).crc32
        ∧ (flash_pass P F w content).1 = LoopExit.done
        ∧ (check_system P F w).res
            = some (if cpu_firmware_check P (flashed_memory P F w content) = true then 1 else -5)
        ∧ (check_system P F w).mem = flashed_memory P F w content
        ∧ (check_system P F w).trace
            = [Event.fs_open 0, Event.fs_read true 32 32] ++ (integrity_pass P w content).2.2.2
                ++ [Event.fs_rewind, Event.fs_read false 32 32]
                ++ (flash_pass P F w content).2.2
                ++ [Event.page_erase P.BOOTLOADER_SETTINGS_ADDRESS,
                    Event.write_words P.BOOTLOADER_SETTINGS_ADDRESS (content.take 32)] := by
  cases hd : w.disk with
  | none =>
    obtain ⟨a1, a2, a3⟩ := check_system_absent P F w hd
    left
    rw [a1, a2, a3]
    refine ⟨?_, rfl, some_ite_ne _ _ _ _ (by decide) (by decide),
      some_ite_ne _ _ _ _ (by decide) (by decide), some_ite_ne _ _ _ _ (by decide) (by decide)⟩
    intro e he
    rw [List.mem_singleton] at he
    rw [he]
    rfl
  | some content =>
    by_cases hbad : content.length < 32 ∨ (candidate_header content).hdrmagic ≠ HDR0_MAGIC
    · obtain ⟨a1, a2, a3⟩ := check_system_bad_header P F w content hd hbad
      left
      rw [a1, a2, a3]
      refine ⟨?_, rfl, some_ite_ne _ _ _ _ (by decide) (by decide),
        some_ite_ne _ _ _ _ (by decide) (by decide), some_ite_ne _ _ _ _ (by decide) (by decide)⟩
      intro e he
      simp only [List.mem_cons, List.mem_singleton, List.not_mem_nil, or_false] at he
      rcases he with he | he <;> rw [he] <;> rfl
    · have hlen : 32 ≤ content.length := by
        by_contra hc
        exact hbad (Or.inl (by omega))
      have hmagic : (candidate_header content).hdrmagic = HDR0_MAGIC := by
        by_contra hc
        exact hbad (Or.inr hc)
      by_cases hid : identical_candidate P w content
      · obtain ⟨a1, a2, a3⟩ := check_system_identical P F w content hd hlen hmagic hid
        left
        rw [a1, a2, a3]
        refine ⟨?_, rfl, by decide, by decide, by decide⟩
        intro e he
        simp only [List.mem_cons, List.mem_singleton, List.not_mem_nil, or_false] at he
        rcases he with he | he <;> rw [he] <;> rfl
      · obtain ⟨r1, r2, r3, r4⟩ := check_system_rejected P F w content hd hlen hmagic hid
        by_cases hgo : (integrity_pass P w content).1 = LoopExit.done
            ∧ (integrity_pass P w content).2.1.file_crc32 = (candidate_header content).crc32
        · obtain ⟨hip, hcrc⟩ := hgo
          have hfl : (flash_pass P F w content).1 = LoopExit.done := by
            rw [flash_pass_same_exit P F w content hlen]; exact hip
          right
          refine ⟨content, rfl, hlen, hmagic, hid, hip, hcrc, hfl, ?_⟩
          rcases check_system_flashing P F w content hd hlen hmagic hid hip hcrc with
            ⟨h1, _⟩ | ⟨h1, _⟩ | ⟨_, h2, h3, h4⟩
          · rw [hfl] at h1; exact absurd h1 (by simp)
          · rw [hfl] at h1; exact absurd h1 (by simp)
          · exact ⟨h2, h3, h4⟩
        · left
          have hnc : (integrity_pass P w content).1 = LoopExit.done →
              (integrity_pass P w content).2.1.file_crc32 ≠ (candidate_header content).crc32 :=
            fun h1 h2 => hgo ⟨h1, h2⟩
          obtain ⟨m1, m2⟩ := r4 hnc
          refine ⟨m2, m1, ?_⟩
          cases hip : (integrity_pass P w content).1 with
          | no_exit =>
            rw [r1 hip]
            exact ⟨by simp, by simp, by simp⟩
          | short_read =>
            rw [r2 hip]
            exact ⟨some_ite_ne _ _ _ _ (by decide) (by decide),
              some_ite_ne _ _ _ _ (by decide) (by decide),
              some_ite_ne _ _ _ _ (by decide) (by decide)⟩
          | done =>
            rw [r3 hip (hnc hip)]
            exact ⟨some_ite_ne _ _ _ _ (by decide) (by decide),
              some_ite_ne _ _ _ _ (by decide) (by decide),
              some_ite_ne _ _ _ _ (by decide) (by decide)⟩

/-- C24: the read error of the flashing loop cannot occur with a storage
whose reads depend on the file content and the position only. (1) No run of
`check_system` returns -4. (2) Whenever the integrity pass ran to its end
with full reads, the flashing loop runs to its end too, each of its reads
returns as many bytes as were asked for, and they return `binsize` bytes in
all. (3) A run that made an erase or a write went through the whole flashing
loop and the write of the record, and returns 1 or -5. -/
theorem C24_flash_read_error_unreachable (P : Platform) (F : Flash) (w : Device) :
    (check_system P F w).res ≠ some (-4)
    ∧ (∀ content, w.disk = some content → 32 ≤ content.length →
        (integrity_pass P w content).1 = LoopExit.done →
        (flash_pass P F w content).1 = LoopExit.done
        ∧ (∀ e ∈ (flash_pass P F w content).2.2, ∀ b n m, e = Event.fs_read b n m → m = n)
        ∧ read_total (flash_pass P F w content).2.2 = (candidate_header content).binsize)
    ∧ ((∃ e ∈ (check_system P F w).trace, e.is_flash = true) →
        ((check_system P F w).res = some 1 ∨ (check_system P F w).res = some (-5))
        ∧ ∃ content pre, w.disk = some content
          ∧ (flash_pass P F w content).1 = LoopExit.done
          ∧ (check_system P F w).trace
              = pre ++ (flash_pass P F w content).2.2
                ++ [Event.page_erase P.BOOTLOADER_SETTINGS_ADDRESS,
                    Event.write_words P.BOOTLOADER_SETTINGS_ADDRESS (content.take 32)]) := by
  refine ⟨?_, ?_, ?_⟩
  · rcases check_system_cases P F w with ⟨_, _, _, h, _⟩ | ⟨content, _, _, _, _, _, _, _, h, _⟩
    · exact h
    · rw [h]
      exact some_ite_ne _ _ _ _ (by decide) (by decide)
  · intro content _ hlen hip
    have hfl : (flash_pass P F w content).1 = LoopExit.done := by
      rw [flash_pass_same_exit P F w content hlen]; exact hip
    have hr := flash_loop_reads P F (candidate_header content).binsize
      (candidate_header content).binsize (candidate_header content).binload
      (fs_read (fs_rewind (integrity_pass P w content).2.1) false 32).2
      (integrity_pass P w content).2.2.1 w.mem
      (by
        show (flash_pass P F w content).1 ≠ LoopExit.short_read
        rw [hfl]
        simp)
    exact ⟨hfl, hr.1, hr.2 hfl⟩
  · intro hex
    rcases check_system_cases P F w with ⟨h, _⟩ | ⟨content, hd, _, _, _, _, _, hfl, hres, _, htr⟩
    · obtain ⟨e, he, hf⟩ := hex
      rw [h e he] at hf
      exact absurd hf (by simp)
    · constructor
      · rw [hres]
        by_cases hv : cpu_firmware_check P (flashed_memory P F w content) = true
        · left; rw [if_pos hv]
        · right; rw [if_neg hv]
      · exact ⟨content, _, hd, hfl, htr⟩

theorem C24_witness :
    (flash_pass nrf52840 (nvmc nrf52840) fresh_device
        (mk_image 0x1000 77 32 [1, 2, 3, 4, 5])).1 = LoopExit.done
    ∧ (∀ e ∈ (flash_pass nrf52840 (nvmc nrf52840) fresh_device
        (mk_image 0x1000 77 32 [1, 2, 3, 4, 5])).2.2,
        ∀ b n m, e = Event.fs_read b n m → m = n)
    ∧ read_total (flash_pass nrf52840 (nvmc nrf52840) fresh_device
        (mk_image 0x1000 77 32 [1, 2, 3, 4, 5])).2.2
      = (candidate_header (mk_image 0x1000 77 32 [1, 2, 3, 4, 5])).binsize :=
  (C24_flash_read_error_unreachable nrf52840 (nvmc nrf52840) fresh_device).2.1
    (mk_image 0x1000 77 32 [1, 2, 3, 4, 5]) rfl (by decide) (by decide)

end JesFs

namespace JesFs

/-! ## A second run after a successful update -/

/-- With the faithful flash, what was written last reads back, also across
the end of the address space. -/
theorem nvmc_read_back (P : Platform) (m : Memory) (a : Nat) (src : List Byte)
    (hl : src.length ≤ 2 ^ 32) :
    mem_read ((nvmc P).write_words m a src) a src.length = src := by
  unfold mem_read
  apply List.ext_getElem
  · simp
  · intro n h1 h2
    simp only [List.getElem_map, List.getElem_range]
    have hmod : (a + n) % 2 ^ 32 = (a % 2 ^ 32 + n) % 2 ^ 32 := by
      rw [Nat.mod_add_mod]
    have ha := Nat.mod_lt a (show 0 < 2 ^ 32 by decide)
    have hget : src.getD n 0 = src[n] := by
      rw [List.getD_eq_getElem?_getD, List.getElem?_eq_getElem h2]
      rfl
    rw [hmod]
    simp only [nvmc]
    by_cases hw : a % 2 ^ 32 + n < 2 ^ 32
    · rw [Nat.mod_eq_of_lt hw, if_pos ⟨by omega, by omega, hw⟩]
      have e : a % 2 ^ 32 + n - a % 2 ^ 32 = n := by omega
      rw [e, hget]
    · have hx : (a % 2 ^ 32 + n) % 2 ^ 32 = a % 2 ^ 32 + n - 2 ^ 32 := by
        rw [Nat.mod_eq_sub_mod (by omega), Nat.mod_eq_of_lt (by omega)]
      rw [hx, if_neg (by omega), if_pos ⟨by omega, by omega⟩]
      have e : a % 2 ^ 32 + n - 2 ^ 32 + 2 ^ 32 - a % 2 ^ 32 = n := by omega
      rw [e, hget]

/-- C25: a successful update is not repeated. If `check_system` returns 1
with the faithful flash, a second run of `check_system` on the program memory
the first run left behind, with the same candidate file (whatever `sbuffer`
holds and whatever the flash would do), finds the candidate identical to the
installed image, returns 0 after the open and the header read, leaves program
memory as it is and makes no erase and no write. -/
theorem C25_update_not_repeated (P : Platform) (w : Device) (F2 : Flash) (sb2 : List Byte)
    (h : (check_system P (nvmc P) w).res = some 1) :
    (check_system P F2 ⟨(check_system P (nvmc P) w).mem, w.disk, sb2⟩).res = some 0
    ∧ (check_system P F2 ⟨(check_system P (nvmc P) w).mem, w.disk, sb2⟩).mem
        = (check_system P (nvmc P) w).mem
    ∧ (check_system P F2 ⟨(check_system P (nvmc P) w).mem, w.disk, sb2⟩).trace
        = [Event.fs_open 0, Event.fs_read true 32 32]
    ∧ (∀ e ∈ (check_system P F2 ⟨(check_system P (nvmc P) w).mem, w.disk, sb2⟩).trace,
        e.is_flash = false)
    ∧ cpu_firmware_check P (check_system P (nvmc P) w).mem = true := by
  rcases check_system_cases P (nvmc P) w with
    ⟨_, _, h1, _⟩ | ⟨content, hd, hlen, hmagic, _, _, _, _, hres, hmem, _⟩
  · exact absurd h h1
  · have hv : cpu_firmware_check P (flashed_memory P (nvmc P) w content) = true := by
      by_contra hc
      rw [hres, if_neg hc] at h
      exact absurd h (by decide)
    have htl : (content.take 32).length = 32 := by
      rw [List.length_take]; omega
    have hrb : mem_read (flashed_memory P (nvmc P) w content) P.BOOTLOADER_SETTINGS_ADDRESS 32
        = content.take 32 := by
      have := nvmc_read_back P
        ((nvmc P).page_erase (flash_pass P (nvmc P) w content).2.1 P.BOOTLOADER_SETTINGS_ADDRESS)
        P.BOOTLOADER_SETTINGS_ADDRESS (content.take 32) (by rw [htl]; decide)
      rw [htl] at this
      exact this
    have hpbl : pbl_memory P (flashed_memory P (nvmc P) w content) = candidate_header content := by
      unfold pbl_memory candidate_header
      rw [hrb]
    rw [hmem, hd]
    have hid : identical_candidate P ⟨flashed_memory P (nvmc P) w content, some content, sb2⟩
        content := by
      unfold identical_candidate
      show (candidate_header content).timestamp
          = (pbl_memory P (flashed_memory P (nvmc P) w content)).timestamp
        ∧ (candidate_header content).crc32
          = (pbl_memory P (flashed_memory P (nvmc P) w content)).crc32
        ∧ cpu_firmware_check P (flashed_memory P (nvmc P) w content) = true
      rw [hpbl]
      exact ⟨rfl, rfl, hv⟩
    obtain ⟨a1, a2, a3⟩ := check_system_identical P F2
      ⟨flashed_memory P (nvmc P) w content, some content, sb2⟩ content rfl hlen hmagic hid
    refine ⟨a1, a2, a3, ?_, hv⟩
    rw [a3]
    intro e he
    simp only [List.mem_cons, List.mem_singleton, List.not_mem_nil, or_false] at he
    rcases he with he | he <;> rw [he] <;> rfl

theorem C25_witness :
    (check_system nrf52840 (nvmc nrf52840)
        ⟨(check_system nrf52840 (nvmc nrf52840) fresh_device).mem, fresh_device.disk,
          List.replicate 8 0⟩).res = some 0
    ∧ (check_system nrf52840 (nvmc nrf52840)
        ⟨(check_system nrf52840 (nvmc nrf52840) fresh_device).mem, fresh_device.disk,
          List.replicate 8 0⟩).trace = [Event.fs_open 0, Event.fs_read true 32 32]
    ∧ (check_system nrf52840 (nvmc nrf52840) fresh_device).res = some 1 :=
  ⟨(C25_update_not_repeated nrf52840 fresh_device (nvmc nrf52840) (List.replicate 8 0)
      (by decide)).1,
   (C25_update_not_repeated nrf52840 fresh_device (nvmc nrf52840) (List.replicate 8 0)
      (by decide)).2.2.1,
   by decide⟩

end JesFs

namespace JesFs

/-! ## The invariant of the buffer globals -/

theorem write_byte_usedbuf_fn (s : Hex2Bin) (a v : Int) (h0 : 0 ≤ a) (h1 : a < MAX_BUF) :
    (write_byte s a v).2.usedbuf
      = (if s.usedbuf a.toNat < 255 then
          Function.update s.usedbuf a.toNat (s.usedbuf a.toNat + 1)
        else s.usedbuf) := by
  unfold write_byte
  rw [if_neg (by omega)]

theorem write_byte_failed (s : Hex2Bin) (a v : Int) (h : a < 0 ∨ a ≥ MAX_BUF) :
    (write_byte s a v).2 = s := by
  unfold write_byte
  rw [if_pos h]

theorem buf_inv_init : buf_inv Hex2Bin.init (fun _ => False) := by
  refine ⟨fun _ _ => rfl, fun a => ?_, fun a => ?_, fun a h => absurd h id, ?_, ?_, ?_⟩
  · show 0 < 0 ↔ False
    simp
  · show (0 : Nat) ≤ 255
    omega
  · show (0 : Int) ≤ 0
    omega
  · intro _
    exact ⟨rfl, rfl, fun _ h => h⟩
  · intro h
    have : (0 : Int) < 0 := h
    omega

/-- One call of `write_byte` keeps the invariant, the set of written cells
growing by the cell of the call when its address is inside the buffer. -/
theorem buf_inv_step (s : Hex2Bin) (W : Nat → Prop) (a v : Int) (h : buf_inv s W) :
    buf_inv (write_byte s a v).2 (fun x => W x ∨ (0 ≤ a ∧ a < MAX_BUF ∧ a.toNat = x)) := by
  obtain ⟨i1, i2, i3, i4, i5, i6, i7⟩ := h
  have hmax : MAX_BUF = 2097152 := by decide
  by_cases hr : a < 0 ∨ a ≥ MAX_BUF
  · rw [write_byte_failed s a v hr]
    have hno : ∀ x, ¬ (0 ≤ a ∧ a < MAX_BUF ∧ a.toNat = x) := by
      intro x hx
      omega
    refine ⟨i1, fun x => ?_, i3, fun x hx => ?_, i5, fun hc => ?_, fun hc => ?_⟩
    · rw [i2 x]
      exact ⟨Or.inl, fun hx => hx.elim id (fun h2 => absurd h2 (hno x))⟩
    · exact i4 x (hx.elim id (fun h2 => absurd h2 (hno x)))
    · obtain ⟨c1, c2, c3⟩ := i6 hc
      exact ⟨c1, c2, fun x hx => hx.elim (c3 x) (hno x)⟩
    · obtain ⟨c1, c2, c3, c4⟩ := i7 hc
      exact ⟨c1, c2, Or.inl c3, Or.inl c4⟩
  · have h0 : 0 ≤ a := by omega
    have h1 : a < MAX_BUF := by omega
    obtain ⟨w1, w2, w3, w4, _⟩ := write_byte_in_range s a v h0 h1
    have wu := write_byte_usedbuf_fn s a v h0 h1
    have hu : ∀ x, x ≠ a.toNat → (write_byte s a v).2.usedbuf x = s.usedbuf x := by
      intro x hx
      rw [wu]
      split
      · exact Function.update_noteq hx _ _
      · rfl
    have hua : 0 < (write_byte s a v).2.usedbuf a.toNat
        ∧ (write_byte s a v).2.usedbuf a.toNat ≤ 255 := by
      rw [write_byte_usedbuf s a v h0 h1]
      have := i3 a.toNat
      split <;> omega
    have hb : ∀ x, x ≠ a.toNat → (write_byte s a v).2.binbuf x = s.binbuf x := by
      intro x hx
      rw [w1]
      exact Function.update_noteq hx _ _
    have hmin0 : 0 ≤ s.min_bin_addr := by
      by_cases hc : s.bin_bytes_cnt = 0
      · rw [(i6 hc).1, hmax]
        omega
      · exact (i7 (by omega)).1
    have hmaxb : s.max_bin_addr < MAX_BUF := by
      by_cases hc : s.bin_bytes_cnt = 0
      · rw [(i6 hc).2.1, hmax]
        omega
      · exact (i7 (by omega)).2.1
    refine ⟨fun x hx => ?_, fun x => ?_, fun x => ?_, fun x hx => ?_, ?_, fun hc => ?_,
      fun _ => ⟨?_, ?_, ?_, ?_⟩⟩
    · by_cases hxa : x = a.toNat
      · rw [hxa] at hx
        omega
      · rw [hu x hxa] at hx
        rw [hb x hxa]
        exact i1 x hx
    · by_cases hxa : x = a.toNat
      · rw [hxa]
        exact ⟨fun _ => Or.inr ⟨h0, h1, rfl⟩, fun _ => hua.1⟩
      · rw [hu x hxa, i2 x]
        exact ⟨Or.inl, fun hx => hx.elim id (fun h2 => absurd h2.2.2.symm hxa)⟩
    · by_cases hxa : x = a.toNat
      · rw [hxa]
        exact hua.2
      · rw [hu x hxa]
        exact i3 x
    · rw [w2, w3]
      rcases hx with hx | ⟨_, _, hx⟩
      · have := i4 x hx
        constructor
        · split <;> omega
        · split <;> omega
      · constructor
        · split <;> omega
        · split <;> omega
    · rw [w4]
      omega
    · rw [w4] at hc
      omega
    · rw [w2]
      split <;> omega
    · rw [w3]
      split <;> omega
    · rw [w2]
      by_cases hlt : a < s.min_bin_addr
      · rw [if_pos hlt]
        exact Or.inr ⟨h0, h1, rfl⟩
      · rw [if_neg hlt]
        by_cases hc : s.bin_bytes_cnt = 0
        · right
          refine ⟨h0, h1, ?_⟩
          have := (i6 hc).1
          omega
        · exact Or.inl (i7 (by omega)).2.2.1
    · rw [w3]
      by_cases hgt : a > s.max_bin_addr
      · rw [if_pos hgt]
        exact Or.inr ⟨h0, h1, rfl⟩
      · rw [if_neg hgt]
        by_cases hc : s.bin_bytes_cnt = 0
        · right
          refine ⟨h0, h1, ?_⟩
          have := (i6 hc).2.1
          omega
        · exact Or.inl (i7 (by omega)).2.2.2

theorem buf_inv_congr (s : Hex2Bin) (W V : Nat → Prop) (h : buf_inv s W)
    (hWV : ∀ a, W a ↔ V a) : buf_inv s V := by
  have : W = V := funext (fun a => propext (hWV a))
  rw [← this]
  exact h

/-- A sequence of calls of `write_byte` keeps the invariant. -/
theorem buf_inv_seq (calls : List (Int × Int)) (s : Hex2Bin) (W : Nat → Prop)
    (h : buf_inv s W) : buf_inv (write_seq s calls) (fun x => W x ∨ written_by calls x) := by
  induction calls generalizing s W with
  | nil =>
    apply buf_inv_congr s W _ h
    intro a
    exact ⟨Or.inl, fun hx => hx.elim id (fun ⟨c, hc, _⟩ => absurd hc (List.not_mem_nil c))⟩
  | cons c cs ih =>
    have hs := ih _ _ (buf_inv_step s W c.1 c.2 h)
    apply buf_inv_congr _ _ _ hs
    intro a
    constructor
    · rintro ((hw | hc) | ⟨d, hd, hd2⟩)
      · exact Or.inl hw
      · exact Or.inr ⟨c, List.mem_cons_self c cs, hc⟩
      · exact Or.inr ⟨d, List.mem_cons_of_mem c hd, hd2⟩
    · rintro (hw | ⟨d, hd, hd2⟩)
      · exact Or.inl (Or.inl hw)
      · rcases List.mem_cons.1 hd with he | he
        · rw [he] at hd2
          exact Or.inl (Or.inr hd2)
        · exact Or.inr ⟨d, he, hd2⟩

theorem write_seq_cnt (calls : List (Int × Int)) (s : Hex2Bin) :
    (write_seq s calls).bin_bytes_cnt = s.bin_bytes_cnt + successful_writes calls := by
  induction calls generalizing s with
  | nil => simp [write_seq, successful_writes]
  | cons c cs ih =>
    simp only [write_seq]
    rw [ih]
    unfold successful_writes
    by_cases hr : 0 ≤ c.1 ∧ c.1 < MAX_BUF
    · rw [(write_byte_in_range s c.1 c.2 hr.1 hr.2).2.2.2.1, List.filter_cons_of_pos (by simpa using hr)]
      simp only [List.length_cons, Nat.cast_add, Nat.cast_one]
      omega
    · rw [write_byte_failed s c.1 c.2 (by omega), List.filter_cons_of_neg (by simpa using hr)]

/-- C23: buffer invariant kept by `write_byte`. After every finite sequence
of calls of `write_byte` from the initial globals, failed calls included:
(i) every cell whose usage counter is 0 holds `0xFF`; (ii) the usage counter
of a cell is above 0 exactly when one of the calls was a successful write to
it, and it never exceeds 255; (iii) every written cell lies between
`min_bin_addr` and `max_bin_addr`; (iv) when `bin_bytes_cnt` is above 0, `0 ≤
min_bin_addr ≤ max_bin_addr < MAX_BUF` and both marks are written cells.
`bin_bytes_cnt` is the number of successful calls. -/
theorem C23_buffer_invariant (calls : List (Int × Int)) :
    (∀ a, (write_seq Hex2Bin.init calls).usedbuf a = 0 →
      (write_seq Hex2Bin.init calls).binbuf a = 0xFF)
    ∧ (∀ a, 0 < (write_seq Hex2Bin.init calls).usedbuf a ↔ written_by calls a)
    ∧ (∀ a, (write_seq Hex2Bin.init calls).usedbuf a ≤ 255)
    ∧ (∀ a, written_by calls a →
        (write_seq Hex2Bin.init calls).min_bin_addr ≤ (a : Int)
        ∧ (a : Int) ≤ (write_seq Hex2Bin.init calls).max_bin_addr)
    ∧ (0 < (write_seq Hex2Bin.init calls).bin_bytes_cnt →
        0 ≤ (write_seq Hex2Bin.init calls).min_bin_addr
        ∧ (write_seq Hex2Bin.init calls).min_bin_addr
            ≤ (write_seq Hex2Bin.init calls).max_bin_addr
        ∧ (write_seq Hex2Bin.init calls).max_bin_addr < MAX_BUF
        ∧ written_by calls (write_seq Hex2Bin.init calls).min_bin_addr.toNat
        ∧ written_by calls (write_seq Hex2Bin.init calls).max_bin_addr.toNat)
    ∧ (write_seq Hex2Bin.init calls).bin_bytes_cnt = successful_writes calls := by
  have h := buf_inv_congr _ _ (written_by calls) (buf_inv_seq calls Hex2Bin.init _ buf_inv_init)
    (fun a => ⟨fun hx => hx.elim (fun hf => absurd hf id) id, Or.inr⟩)
  obtain ⟨i1, i2, i3, i4, _, _, i7⟩ := h
  refine ⟨i1, i2, i3, i4, fun hc => ?_, ?_⟩
  · obtain ⟨c1, c2, c3, c4⟩ := i7 hc
    have := i4 _ c3
    refine ⟨c1, ?_, c2, c3, c4⟩
    omega
  · rw [write_seq_cnt]
    show (0 : Int) + _ = _
    omega

theorem C23_witness :
    0 ≤ (write_seq Hex2Bin.init [(5, 0x11), (-1, 0x22), (3, 0x33), (5, 0x44),
        (0x200000, 0x55)]).min_bin_addr
    ∧ (write_seq Hex2Bin.init [(5, 0x11), (-1, 0x22), (3, 0x33), (5, 0x44),
        (0x200000, 0x55)]).min_bin_addr
      ≤ (write_seq Hex2Bin.init [(5, 0x11), (-1, 0x22), (3, 0x33), (5, 0x44),
        (0x200000, 0x55)]).max_bin_addr
    ∧ (write_seq Hex2Bin.init [(5, 0x11), (-1, 0x22), (3, 0x33), (5, 0x44),
        (0x200000, 0x55)]).max_bin_addr < MAX_BUF
    ∧ ((write_seq Hex2Bin.init [(5, 0x11), (-1, 0x22), (3, 0x33), (5, 0x44),
          (0x200000, 0x55)]).min_bin_addr,
        (write_seq Hex2Bin.init [(5, 0x11), (-1, 0x22), (3, 0x33), (5, 0x44),
          (0x200000, 0x55)]).max_bin_addr,
        (write_seq Hex2Bin.init [(5, 0x11), (-1, 0x22), (3, 0x33), (5, 0x44),
          (0x200000, 0x55)]).bin_bytes_cnt,
        (write_seq Hex2Bin.init [(5, 0x11), (-1, 0x22), (3, 0x33), (5, 0x44),
          (0x200000, 0x55)]).usedbuf 5) = (3, 5, 3, 2) :=
  ⟨((C23_buffer_invariant [(5, 0x11), (-1, 0x22), (3, 0x33), (5, 0x44),
      (0x200000, 0x55)]).2.2.2.2.1 (by decide)).1,
   ((C23_buffer_invariant [(5, 0x11), (-1, 0x22), (3, 0x33), (5, 0x44),
      (0x200000, 0x55)]).2.2.2.2.1 (by decide)).2.1,
   ((C23_buffer_invariant [(5, 0x11), (-1, 0x22), (3, 0x33), (5, 0x44),
      (0x200000, 0x55)]).2.2.2.2.1 (by decide)).2.2.1,
   by decide⟩

end JesFs

namespace JesFs

/-! ## The end record -/

theorem record_switch_end (rtyp rlen badr boffset : Int) (s3 s4 : Hex2Bin) :
    record_switch rtyp rlen badr boffset s3 = some (Sum.inl 0, s4)
      ↔ (rtyp = 1 ∧ getbyte s3 = some (255, s4)) := by
  constructor
  · intro h
    unfold record_switch at h
    by_cases c0 : rtyp = 0
    · rw [if_pos c0] at h
      split at h
      · simp at h
      · simp at h
      · split at h
        · simp at h
        · split at h <;> simp at h
    rw [if_neg c0] at h
    by_cases c1 : rtyp = 1
    · rw [if_pos c1] at h
      refine ⟨c1, ?_⟩
      cases hg : getbyte s3 with
      | none =>
        rw [hg] at h
        simp at h
      | some r =>
        obtain ⟨v, s5⟩ := r
        rw [hg] at h
        simp only [] at h
        by_cases hv : v ≠ 255
        · rw [if_pos hv] at h
          simp at h
        · rw [if_neg hv] at h
          have hv2 : v = 255 := by omega
          rw [hv2, some_pair_snd h]
    rw [if_neg c1] at h
    by_cases c2 : rtyp = 2
    · rw [if_pos c2] at h
      split at h
      · simp at h
      · split at h <;> simp at h
    rw [if_neg c2] at h
    by_cases c3 : rtyp = 3
    · rw [if_pos c3] at h
      split at h
      · simp at h
      · split at h
        · simp at h
        · split at h <;> simp at h
    rw [if_neg c3] at h
    by_cases c4 : rtyp = 4
    · rw [if_pos c4] at h
      split at h
      · simp at h
      · split at h <;> simp at h
    rw [if_neg c4] at h
    by_cases c5 : rtyp = 5
    · rw [if_pos c5] at h
      split at h
      · simp at h
      · split at h
        · simp at h
        · split at h <;> simp at h
    rw [if_neg c5] at h
    simp at h
  · rintro ⟨h1, h2⟩
    unfold record_switch
    rw [h1, if_neg (by decide), if_pos rfl, h2]
    simp

theorem record_switch_end_missing (rlen badr boffset : Int) (s3 s4 : Hex2Bin) (v : Int)
    (hg : getbyte s3 = some (v, s4)) (hv : v ≠ 255) :
    record_switch 1 rlen badr boffset s3 = some (Sum.inl (-4), s4) := by
  unfold record_switch
  rw [if_neg (by decide), if_pos rfl, hg]
  simp only []
  rw [if_pos hv]

/-- A pass of the loop of `read_infile` returns 0 only through the end-record
case of the `switch` with `0xFF` as the next byte. -/
theorem read_line_zero (s : Hex2Bin) (boffset : Int) (s1 : Hex2Bin)
    (h : read_line s boffset = some (Sum.inl 0, s1)) :
    ∃ rlen badr s3, record_switch 1 rlen badr boffset s3 = some (Sum.inl 0, s1)
      ∧ getbyte s3 = some (255, s1) := by
  unfold read_line at h
  split at h
  · simp at h
  · split at h
    · simp at h
    · rename_i rlen sa ha
      split at h
      · simp at h
      · split at h
        · simp at h
        · rename_i badr sb hb
          split at h
          · simp at h
          · split at h
            · simp at h
            · rename_i rtyp sc hc
              have := (record_switch_end rtyp rlen badr boffset sc s1).1 h
              rw [this.1] at h
              exact ⟨rlen, badr, sc, h, this.2⟩

theorem read_lines_after_pass (pre rest : List (List Char)) (boffset b1 : Int)
    (s s1 : Hex2Bin) (h : pass_lines pre boffset s = some (b1, s1)) :
    read_lines (pre ++ rest) boffset s = read_lines rest b1 s1 := by
  induction pre generalizing boffset s with
  | nil =>
    simp only [pass_lines, Option.some.injEq, Prod.mk.injEq] at h
    rw [List.nil_append, h.1, h.2]
  | cons line pre ih =>
    simp only [pass_lines] at h
    cases hr : read_line (fgets_store s line) boffset with
    | none =>
      rw [hr] at h
      simp at h
    | some r =>
      obtain ⟨res, s2⟩ := r
      cases res with
      | inl code =>
        rw [hr] at h
        simp at h
      | inr b2 =>
        rw [hr] at h
        simp only [] at h
        rw [List.cons_append, read_lines_continue _ _ _ _ _ _ hr]
        exact ih _ _ h

/-- The loop of `read_infile` returns 0 exactly when, after passes that all
let it go on, a pass returns 0; the lines behind that one are not read. -/
theorem read_lines_zero (lines : List (List Char)) (boffset : Int) (s s1 : Hex2Bin) :
    read_lines lines boffset s = some (0, s1)
      ↔ ∃ pre line post b2 s2, lines = pre ++ line :: post
          ∧ pass_lines pre boffset s = some (b2, s2)
          ∧ read_line (fgets_store s2 line) b2 = some (Sum.inl 0, s1) := by
  constructor
  · intro h
    induction lines generalizing boffset s with
    | nil =>
      simp [read_lines] at h
    | cons line rest ih =>
      cases hr : read_line (fgets_store s line) boffset with
      | none =>
        rw [read_lines, hr] at h
        simp at h
      | some r =>
        obtain ⟨res, s2⟩ := r
        cases res with
        | inl code =>
          rw [read_lines_return _ _ _ _ _ _ hr] at h
          simp only [Option.some.injEq, Prod.mk.injEq] at h
          rw [h.1, h.2] at hr
          exact ⟨[], line, rest, boffset, s, rfl, rfl, hr⟩
        | inr b2 =>
          rw [read_lines_continue _ _ _ _ _ _ hr] at h
          obtain ⟨pre, l2, post, b3, s3, e1, e2, e3⟩ := ih _ _ h
          refine ⟨line :: pre, l2, post, b3, s3, by rw [e1]; rfl, ?_, e3⟩
          simp only [pass_lines]
          rw [hr]
          exact e2
  · rintro ⟨pre, line, post, b2, s2, e1, e2, e3⟩
    rw [e1, read_lines_after_pass pre _ _ _ _ _ e2, read_lines_return _ _ _ _ _ _ e3]

theorem read_lines_no_end (lines : List (List Char)) (boffset b1 : Int) (s s1 : Hex2Bin)
    (h : pass_lines lines boffset s = some (b1, s1)) :
    read_lines lines boffset s = some (-2, s1) := by
  have := read_lines_after_pass lines [] _ _ _ _ h
  rw [List.append_nil] at this
  rw [this]
  rfl

end JesFs

namespace JesFs

theorem data_file_length (recs : List (Nat × List Byte)) :
    recs.length ≤ (data_file recs).length := by
  induction recs with
  | nil => simp [data_file]
  | cons r rs ih =>
    simp only [data_file, List.length_append, List.length_cons, hex_record_length]
    omega

theorem fgets_lines_data_file (recs : List (Nat × List Byte)) (fuel : Nat)
    (stream : List Char) (hlen : ∀ r ∈ recs, r.2.length ≤ 53) (hf : recs.length ≤ fuel) :
    fgets_lines fuel (data_file recs ++ stream)
      = recs.map (fun r => hex_record r.1 0 r.2) ++ fgets_lines (fuel - recs.length) stream := by
  induction recs generalizing fuel with
  | nil => simp [data_file]
  | cons r rs ih =>
    simp only [List.length_cons] at hf
    obtain ⟨f, rfl⟩ : ∃ f, fuel = f + 1 := ⟨fuel - 1, by omega⟩
    simp only [data_file, List.append_assoc, List.map_cons, List.cons_append, List.length_cons]
    rw [fgets_lines_record f r.1 0 r.2 _ (hlen r (List.mem_cons_self r rs)),
      ih f (fun x hx => hlen x (List.mem_cons_of_mem r hx)) (by omega)]
    have e : f + 1 - (rs.length + 1) = f - rs.length := by omega
    rw [e]

/-- The passes of the loop over the lines of a file of data records that fit
the line buffer all let the loop go on, the offset staying 0. -/
theorem pass_lines_data_file (recs : List (Nat × List Byte)) (s : Hex2Bin)
    (hok : ∀ r ∈ recs, r.1 < 65536 ∧ r.2.length ≤ 53) :
    ∃ s1, pass_lines (recs.map (fun r => hex_record r.1 0 r.2)) 0 s = some (0, s1) := by
  induction recs generalizing s with
  | nil => exact ⟨s, rfl⟩
  | cons r rs ih =>
    obtain ⟨h1, h2⟩ := hok r (List.mem_cons_self r rs)
    have hmax : MAX_BUF = 2097152 := by decide
    have hr := read_line_data_record (fgets_store s (hex_record r.1 0 r.2)) r.1 r.2 _ 0 rfl
      (by omega) h1 (by omega) (by rw [hmax]; omega)
    obtain ⟨s1, hs1⟩ := ih (count_line (with_parse (store_bytes
      (fgets_store s (hex_record r.1 0 r.2)) ((r.1 : Int) + 0) r.2) (11 + 2 * r.2.length) 0))
      (fun x hx => hok x (List.mem_cons_of_mem r hx))
    refine ⟨s1, ?_⟩
    simp only [List.map_cons, pass_lines]
    rw [hr]
    exact hs1

/-- Reading a file of data records that fit the line buffer: without an end
record the result is -2; with the end record `:00000001FF` behind them the
result is 0 and what follows the end record in the file changes nothing. -/
theorem read_infile_data_file (recs : List (Nat × List Byte)) (s : Hex2Bin)
    (hok : ∀ r ∈ recs, r.1 < 65536 ∧ r.2.length ≤ 53) :
    (∃ s1, read_infile (some (data_file recs)) s = some (-2, s1))
    ∧ (∃ s1, ∀ tail : List Char,
        read_infile (some (data_file recs ++ (hex_record 0 1 [] ++ tail))) s = some (0, s1)) := by
  have hlen : ∀ r ∈ recs, r.2.length ≤ 53 := fun r hr => (hok r hr).2
  obtain ⟨s1, hp⟩ := pass_lines_data_file recs { s with in_line_cnt := 0 } hok
  constructor
  · refine ⟨s1, ?_⟩
    unfold read_infile
    simp only []
    have := fgets_lines_data_file recs (data_file recs).length [] hlen (data_file_length recs)
    rw [List.append_nil, fgets_lines_nil, List.append_nil] at this
    rw [this]
    exact read_lines_no_end _ _ _ _ _ hp
  · refine ⟨with_parse (fgets_store s1 (hex_record 0 1 [])) 11 0, fun tail => ?_⟩
    unfold read_infile
    simp only []
    have hfuel : (data_file recs ++ (hex_record 0 1 [] ++ tail)).length - recs.length
        = (data_file recs).length - recs.length + 11 + tail.length + 1 := by
      have := data_file_length recs
      simp only [List.length_append, hex_record_length, List.length_nil]
      omega
    rw [fgets_lines_data_file recs _ (hex_record 0 1 [] ++ tail) hlen
      (by rw [List.length_append]; have := data_file_length recs; omega), hfuel,
      fgets_lines_record _ 0 1 [] tail (by simp),
      read_lines_after_pass _ _ _ _ _ _ hp]
    exact read_lines_return _ _ _ _ _ _ (read_line_end_record _ _ 0 rfl)

/-- C22 as stated fails for a record that fills the line buffer: the file
holds one data record with count `0x36 = 54`, address 0, 54 payload bytes 0
and the right checksum `0xCA`, a valid record of 119 characters, and no end
record. `fgets` returns the 119 characters without the line end, the pass
over them lets the loop go on, the next `fgets` returns the line end alone
and `read_infile` returns -3 for a missing `:`, not -2. -/
theorem C22_counterexample :
    (read_infile (some (":36000000".toList ++ List.replicate 108 '0' ++ "CA\n".toList))
        Hex2Bin.init).map (fun r => (r.1, r.2.bin_bytes_cnt)) = some (-3, 54)
    ∧ decode_hex ("36000000".toList ++ List.replicate 108 '0' ++ "CA".toList)
      = some ((0x36 : Byte) :: 0 :: 0 :: 0 :: (List.replicate 54 0 ++ [0xCA]))
    ∧ byte_sum ((0x36 : Byte) :: 0 :: 0 :: 0 :: (List.replicate 54 0 ++ [0xCA])) % 256 = 0
    ∧ (fgets_lines 130 (":36000000".toList ++ List.replicate 108 '0' ++ "CA\n".toList)).map
        List.length = [119, 1] := by
  refine ⟨by decide, by decide, by decide, by decide⟩

/-- C22 (amended): end-record termination. (1) The `switch` of `read_infile`
returns 0 exactly in the type-01 case when the next decoded byte is `0xFF`,
and (2) returns -4 in the type-01 case for any other result of `getbyte`;
(3) a pass of the loop returns 0 only that way. (4) The loop returns 0 exactly
when, after passes that all let it go on, a pass returns 0; the lines behind
that line are not read, so they change neither the result nor the globals.
(5) When every pass lets the loop go on, the loop ends at the end of the file
with -2. (6) For a file of data records that `fgets` returns whole (at most 53
payload bytes each): without an end record `read_infile` returns -2, with the
end record `:00000001FF` behind them it returns 0 whatever follows in the
file. -/
theorem C22_end_record_termination :
    (∀ (rtyp rlen badr boffset : Int) (s3 s4 : Hex2Bin),
      record_switch rtyp rlen badr boffset s3 = some (Sum.inl 0, s4)
        ↔ (rtyp = 1 ∧ getbyte s3 = some (255, s4)))
    ∧ (∀ (rlen badr boffset : Int) (s3 s4 : Hex2Bin) (v : Int),
        getbyte s3 = some (v, s4) → v ≠ 255 →
        record_switch 1 rlen badr boffset s3 = some (Sum.inl (-4), s4))
    ∧ (∀ (s : Hex2Bin) (boffset : Int) (s1 : Hex2Bin),
        read_line s boffset = some (Sum.inl 0, s1) →
        ∃ rlen badr s3, record_switch 1 rlen badr boffset s3 = some (Sum.inl 0, s1)
          ∧ getbyte s3 = some (255, s1))
    ∧ (∀ (lines : List (List Char)) (boffset : Int) (s s1 : Hex2Bin),
        read_lines lines boffset s = some (0, s1)
          ↔ ∃ pre line post b2 s2, lines = pre ++ line :: post
              ∧ pass_lines pre boffset s = some (b2, s2)
              ∧ read_line (fgets_store s2 line) b2 = some (Sum.inl 0, s1))
    ∧ (∀ (lines : List (List Char)) (boffset b1 : Int) (s s1 : Hex2Bin),
        pass_lines lines boffset s = some (b1, s1) →
        read_lines lines boffset s = some (-2, s1))
    ∧ (∀ (recs : List (Nat × List Byte)) (s : Hex2Bin),
        (∀ r ∈ recs, r.1 < 65536 ∧ r.2.length ≤ 53) →
        (∃ s1, read_infile (some (data_file recs)) s = some (-2, s1))
        ∧ (∃ s1, ∀ tail : List Char,
            read_infile (some (data_file recs ++ (hex_record 0 1 [] ++ tail))) s
              = some (0, s1))) :=
  ⟨record_switch_end, record_switch_end_missing, read_line_zero, read_lines_zero,
    read_lines_no_end, read_infile_data_file⟩

theorem C22_witness :
    ((∃ s1, read_infile (some (data_file [(0x100, [0x41, 0x42]), (0x200, [0x43])]))
          Hex2Bin.init = some (-2, s1))
      ∧ (∃ s1, ∀ tail : List Char,
          read_infile (some (data_file [(0x100, [0x41, 0x42]), (0x200, [0x43])]
            ++ (hex_record 0 1 [] ++ tail))) Hex2Bin.init = some (0, s1)))
    ∧ data_file [(0x100, [0x41, 0x42]), (0x200, [0x43])]
      = ":0201000041427A\n:0102000043BA\n".toList
    ∧ (read_infile (some ":0201000041427A\n:00000001FF\n:0102000043BA\n".toList)
        Hex2Bin.init).map (fun r => (r.1, r.2.binbuf 0x100, r.2.binbuf 0x200, r.2.bin_bytes_cnt))
      = some (0, 0x41, 0xFF, 2)
    ∧ (read_infile (some ":0201000041427A\n:00000001FE\n".toList) Hex2Bin.init).map
        (fun r => r.1) = some (-4) :=
  ⟨C22_end_record_termination.2.2.2.2.2 [(0x100, [0x41, 0x42]), (0x200, [0x43])] Hex2Bin.init
      (by decide),
   by decide, by decide, by decide⟩

end JesFs

